import Mathlib

/-!
Verification of the Reed-Solomon decoder of `src/core/src/ReedSolomonDecoder.cpp`
(zxing-cpp). The decoder itself is translated from that source file; the Galois
field (`GenericGF`) and the field polynomial (`GenericGFPoly`) are declared and
used there but their implementation is not part of the sources at hand, so they
are modelled from the specification (sections 3, 4.1 and 4.2).
-/

namespace ZXing

/-- The closed status enumeration used by `ReedSolomonDecoder::decode`
(`DecodeStatus.h`, as used in `ReedSolomonDecoder.cpp`). -/
inductive DecodeStatus where
  | NoError
  | ReedSolomonAlgoFailed
  | ReedSolomonSigmaTildeZero
  | ReedSolomonDegreeMismatch
  | ReedSolomonBadLocation
deriving DecidableEq, Repr

/-- Modelled from the spec: `GenericGF` (the GaloisField component) is not under
the sources at hand; per section 3 it carries the field size `2^m`, the generator
base, and the mutually inverse `exp`/`log` tables. -/
structure GenericGF where
  size : Nat
  generatorBase : Nat
  expTable : List Nat
  logTable : List Nat
deriving DecidableEq, Repr

/-- Modelled from the spec (4.1, table construction): starting from element 1,
repeatedly multiply by the generator 2, reducing through the primitive
polynomial whenever the result overflows `size`. Produces `exp[0..n-1]`. -/
def buildExpTable (size primitive : Nat) : Nat → Nat → List Nat
  | 0, _ => []
  | n + 1, x => x :: buildExpTable size primitive n (if 2 * x ≥ size then 2 * x ^^^ primitive else 2 * x)

/-- Modelled from the spec (4.1): `log` is the inverse permutation of `exp` on
the nonzero symbols (`log[0]` is unused). -/
def buildLogTable (size : Nat) (expT : List Nat) : List Nat :=
  (List.range size).map (fun a => expT.indexOf a)

/-- Modelled from the spec (6): `GenericGF::new` builds the two tables for a
given size, primitive polynomial and generator base. -/
def GenericGF.create (size primitive generatorBase : Nat) : GenericGF :=
  let expT := buildExpTable size primitive (size - 1) 1
  { size := size
    generatorBase := generatorBase
    expTable := expT
    logTable := buildLogTable size expT }

/-- Modelled from the spec (4.1): `addOrSubtract` is bitwise XOR. -/
def GenericGF.addOrSubtract (_gf : GenericGF) (a b : Nat) : Nat := a ^^^ b

/-- Modelled from the spec (4.1): `exp(i)` is a table lookup, reducing the index
`mod (size-1)` internally. -/
def GenericGF.exp (gf : GenericGF) (i : Nat) : Nat :=
  gf.expTable.getD (i % (gf.size - 1)) 0

/-- Modelled from the spec (4.1): `log(a)` is a direct table lookup (`a != 0`
required by contract). -/
def GenericGF.log (gf : GenericGF) (a : Nat) : Nat :=
  gf.logTable.getD a 0

/-- Modelled from the spec (4.1): `multiply(a, b)` returns 0 if either operand
is 0, otherwise `exp[(log[a] + log[b]) mod (size-1)]`. -/
def GenericGF.multiply (gf : GenericGF) (a b : Nat) : Nat :=
  if a = 0 ∨ b = 0 then 0 else gf.exp (gf.log a + gf.log b)

/-- Modelled from the spec (4.1): `inverse(a)` is `exp[(size-1) - log[a]]`,
requiring `a != 0`. -/
def GenericGF.inverse (gf : GenericGF) (a : Nat) : Nat :=
  gf.exp (gf.size - 1 - gf.log a)

/-- Modelled from the spec (3): coefficients are kept highest degree first with
no leading zero coefficient, except the canonical zero polynomial `[0]`. -/
def normalizeCoeffs (l : List Nat) : List Nat :=
  match l.dropWhile (· = 0) with
  | [] => [0]
  | l' => l'

/-- Modelled from the spec (3): a `GenericGFPoly` is an ordered coefficient
sequence, highest degree first, over a borrowed field. -/
structure GenericGFPoly where
  coefficients : List Nat
deriving DecidableEq, Repr

/-- Build a polynomial from a raw coefficient list, normalizing it. -/
def GenericGFPoly.ofList (l : List Nat) : GenericGFPoly :=
  ⟨normalizeCoeffs l⟩

/-- Modelled from the spec (4.2): `degree()` is `coefficients.length - 1`; the
zero polynomial has degree 0 by convention. -/
def GenericGFPoly.degree (p : GenericGFPoly) : Nat :=
  p.coefficients.length - 1

/-- Modelled from the spec (4.2): the explicit zero-polynomial check (the
canonical zero polynomial has leading coefficient 0). -/
def GenericGFPoly.isZero (p : GenericGFPoly) : Bool :=
  p.coefficients.headD 1 == 0

/-- Modelled from the spec (4.2): `coefficient(i)` is the coefficient of `x^i`,
or 0 if `i` exceeds the degree of the polynomial. -/
def GenericGFPoly.coefficient (p : GenericGFPoly) (i : Nat) : Nat :=
  if i < p.coefficients.length then p.coefficients.getD (p.coefficients.length - 1 - i) 0 else 0

/-- Modelled from the spec (4.2): Horner evaluation,
`result = multiply(result, x) XOR nextCoefficient`. -/
def GenericGFPoly.evaluateAt (gf : GenericGF) (p : GenericGFPoly) (x : Nat) : Nat :=
  p.coefficients.foldl (fun acc c => gf.multiply acc x ^^^ c) 0

/-- Modelled from the spec (4.2): termwise XOR after aligning by degree, then
normalization. -/
def GenericGFPoly.addOrSubtract (p q : GenericGFPoly) : GenericGFPoly :=
  let n := max p.coefficients.length q.coefficients.length
  let pa := List.replicate (n - p.coefficients.length) 0 ++ p.coefficients
  let qa := List.replicate (n - q.coefficients.length) 0 ++ q.coefficients
  .ofList (List.zipWith (· ^^^ ·) pa qa)

/-- One coefficient of the full convolution of two coefficient lists. -/
def convolveAt (gf : GenericGF) (p q : List Nat) (k : Nat) : Nat :=
  (List.range (k + 1)).foldl
    (fun acc i => acc ^^^ (if i < p.length ∧ k - i < q.length then gf.multiply (p.getD i 0) (q.getD (k - i) 0) else 0)) 0

/-- Modelled from the spec (4.2): polynomial product as a full convolution,
normalized. -/
def GenericGFPoly.multiply (gf : GenericGF) (p q : GenericGFPoly) : GenericGFPoly :=
  .ofList ((List.range (p.coefficients.length + q.coefficients.length - 1)).map
    (convolveAt gf p.coefficients q.coefficients))

/-- Modelled from the spec (4.2): termwise field multiplication by a constant. -/
def GenericGFPoly.multiplyScalar (gf : GenericGF) (p : GenericGFPoly) (s : Nat) : GenericGFPoly :=
  .ofList (p.coefficients.map (fun c => gf.multiply c s))

/-- Modelled from the spec (4.2): `setMonomial(degree, coefficient)` builds
`coefficient * x^degree`. -/
def GenericGF.setMonomial (d c : Nat) : GenericGFPoly :=
  .ofList (c :: List.replicate d 0)

/-- Modelled from the spec (4.2): `setZero` builds the canonical zero polynomial. -/
def GenericGF.setZero : GenericGFPoly := ⟨[0]⟩

/-- Modelled from the spec (4.2): `setOne` builds the constant polynomial 1. -/
def GenericGF.setOne : GenericGFPoly := ⟨[1]⟩

/-- Modelled from the spec (4.2): one cancellation step plus recursion of the
standard long division, driven by explicit fuel (one unit per degree). -/
def divideGo (gf : GenericGF) (divisor : GenericGFPoly) :
    Nat → GenericGFPoly → GenericGFPoly → GenericGFPoly × GenericGFPoly
  | 0, q, r => (q, r)
  | fuel + 1, q, r =>
    if r.isZero || r.degree < divisor.degree then (q, r)
    else
      let shift := r.degree - divisor.degree
      let scale := gf.multiply (r.coefficients.headD 0) (gf.inverse (divisor.coefficients.headD 0))
      let term := GenericGF.setMonomial shift scale
      divideGo gf divisor fuel (q.addOrSubtract term) (r.addOrSubtract (divisor.multiply gf term))

/-- Modelled from the spec (4.2): `divide(divisor) -> (quotient, remainder)`,
standard polynomial long division in the field (divisor must be nonzero by
contract). -/
def GenericGFPoly.divide (gf : GenericGF) (p divisor : GenericGFPoly) : GenericGFPoly × GenericGFPoly :=
  divideGo gf divisor (p.degree + 1) GenericGF.setZero p

/-- Outcome of the main loop of `RunEuclideanAlgorithm`: either the degenerate
"already terminated" case (lines 50-54) or the exit values of `t` and `r`. -/
inductive EuclidOut where
  | failed
  | done (t r : GenericGFPoly)
deriving DecidableEq, Repr

/-- The Euclidean loop of `RunEuclideanAlgorithm` (lines 45-65): while
`r.degree() >= R / 2`, swap `(tLast, t)` and `(rLast, r)`, return the
algorithm-failed outcome when the new `rLast` is zero, divide the new `r` by the
new `rLast`, update `t := q * tLast + t`, and abort (C++ `throw`, here
`.error`) when the remainder degree was not reduced below the divisor degree.
Fuel only bounds iteration; each executed iteration follows the source. -/
def euclidLoopGo (gf : GenericGF) (R : Nat) :
    Nat → GenericGFPoly → GenericGFPoly → GenericGFPoly → GenericGFPoly → Except String EuclidOut
  | 0, _, _, _, _ => .error "fuel exhausted"
  | fuel + 1, tLast, t, rLast, r =>
    if r.degree < R / 2 then .ok (.done t r)
    else
      -- after the two swaps: tLast' = t, t' = tLast, rLast' = r, r' = rLast
      if r.isZero then .ok .failed
      else
        let qr := GenericGFPoly.divide gf rLast r
        let tNew := (qr.1.multiply gf t).addOrSubtract tLast
        if (qr.2).degree ≥ r.degree then .error "Division algorithm failed to reduce polynomial?"
        else euclidLoopGo gf R fuel t tNew r qr.2

/-- Lines 30-42 of `RunEuclideanAlgorithm`: build `r` from the syndrome
coefficients, `rLast = x^R`, and swap them when the degree of `r` is not smaller.
Returns the pair `(rLast, r)` entering the loop. -/
def euclidInit (rCoefs : List Nat) (R : Nat) : GenericGFPoly × GenericGFPoly :=
  let r := GenericGFPoly.ofList rCoefs
  let rLast := GenericGF.setMonomial R 1
  if r.degree ≥ rLast.degree then (r, rLast) else (rLast, r)

/-- Lines 67-78 of `RunEuclideanAlgorithm`: read `sigmaTildeAtZero`, fail when
it is zero, otherwise normalize `t` (σ) and `r` (ω) by its inverse. -/
def euclidFinish (gf : GenericGF) (t r : GenericGFPoly) :
    DecodeStatus × GenericGFPoly × GenericGFPoly :=
  let sigmaTildeAtZero := t.coefficient 0
  if sigmaTildeAtZero = 0 then (.ReedSolomonSigmaTildeZero, t, r)
  else
    let inv := gf.inverse sigmaTildeAtZero
    (.NoError, t.multiplyScalar gf inv, r.multiplyScalar gf inv)

/-- `RunEuclideanAlgorithm` (lines 27-79): init, loop, finish. On the
algorithm-failed outcome the returned polynomials are scratch (unused by the
caller). -/
def RunEuclideanAlgorithm (gf : GenericGF) (rCoefs : List Nat) (R : Nat) :
    Except String (DecodeStatus × GenericGFPoly × GenericGFPoly) :=
  let p := euclidInit rCoefs R
  match euclidLoopGo gf R (max p.1.degree p.2.degree + 1) GenericGF.setZero GenericGF.setOne p.1 p.2 with
  | .error e => .error e
  | .ok .failed => .ok (.ReedSolomonAlgoFailed, GenericGF.setZero, GenericGF.setZero)
  | .ok (.done t r) => .ok (euclidFinish gf t r)

/-- The Chien search loop of `FindErrorLocations` (lines 91-97):
`for (i = 1; i < size && e < numErrors; i++)`, recording `inverse(i)` at slot
`e` whenever the locator vanishes at `i`. Fuel only bounds iteration. -/
def chienLoopGo (gf : GenericGF) (p : GenericGFPoly) (numErrors : Nat) :
    Nat → Nat → Nat → List Nat → Nat × List Nat
  | 0, _, e, out => (e, out)
  | fuel + 1, i, e, out =>
    if i < gf.size ∧ e < numErrors then
      if p.evaluateAt gf i = 0 then
        chienLoopGo gf p numErrors fuel (i + 1) (e + 1) (out.set e (gf.inverse i))
      else
        chienLoopGo gf p numErrors fuel (i + 1) e out
    else (e, out)

/-- Lines 87-90 of `FindErrorLocations`: the output vector resized to
`numErrors` zeros, with the degree-1 shortcut written into slot 0. -/
def findLocInit (errorLocator : GenericGFPoly) : List Nat :=
  if errorLocator.degree = 1
  then (List.replicate errorLocator.degree 0).set 0 (errorLocator.coefficient 1)
  else List.replicate errorLocator.degree 0

/-- `FindErrorLocations` (lines 82-103): resize the output to `numErrors`
zeros, apply the degree-1 shortcut, run the Chien search, and report a degree
mismatch when fewer than `numErrors` roots were found. -/
def FindErrorLocations (gf : GenericGF) (errorLocator : GenericGFPoly) : DecodeStatus × List Nat :=
  if (chienLoopGo gf errorLocator errorLocator.degree gf.size 1 0 (findLocInit errorLocator)).1
      ≠ errorLocator.degree
  then (.ReedSolomonDegreeMismatch,
        (chienLoopGo gf errorLocator errorLocator.degree gf.size 1 0 (findLocInit errorLocator)).2)
  else (.NoError,
        (chienLoopGo gf errorLocator errorLocator.degree gf.size 1 0 (findLocInit errorLocator)).2)

/-- Line 121 of `FindErrorMagnitudes`: the branch-free workaround,
`(term & 0x1) == 0 ? term | 1 : term & ~1` (32-bit `~1` is `0xFFFFFFFE`). -/
def termPlus1 (term : Nat) : Nat :=
  if term &&& 1 = 0 then term ||| 1 else term &&& 0xFFFFFFFE

/-- Lines 113-124 of `FindErrorMagnitudes`: the Forney denominator, a product
over all indices `j ≠ i`. -/
def forneyDenominator (gf : GenericGF) (locs : List Nat) (i xiInverse : Nat) : Nat :=
  (List.range locs.length).foldl
    (fun d j => if j = i then d else gf.multiply d (termPlus1 (gf.multiply (locs.getD j 0) xiInverse))) 1

/-- `FindErrorMagnitudes` (lines 105-130): the Forney formula for each location,
with the extra `xiInverse` factor when the generator base is nonzero. -/
def FindErrorMagnitudes (gf : GenericGF) (errorEvaluator : GenericGFPoly) (locs : List Nat) : List Nat :=
  (List.range locs.length).map (fun i =>
    let xiInverse := gf.inverse (locs.getD i 0)
    let mag := gf.multiply (errorEvaluator.evaluateAt gf xiInverse)
      (gf.inverse (forneyDenominator gf locs i xiInverse))
    if gf.generatorBase ≠ 0 then gf.multiply mag xiInverse else mag)

/-- Lines 163-170 of `decode`: the in-place correction loop. Each step computes
`position = receivedCount - 1 - log(location)`, returns the bad-location status
when it is negative (leaving the buffer as accumulated so far), and otherwise
XORs the magnitude into the buffer. -/
def correctionLoop (gf : GenericGF) : List Nat → List (Nat × Nat) → DecodeStatus × List Nat
  | buf, [] => (.NoError, buf)
  | buf, (loc, mag) :: rest =>
    let position : Int := (buf.length : Int) - 1 - (gf.log loc : Int)
    if position < 0 then (.ReedSolomonBadLocation, buf)
    else correctionLoop gf (buf.set position.toNat (gf.addOrSubtract (buf.getD position.toNat 0) mag)) rest

/-- Lines 139-144 of `decode`: the `twoS` syndrome evaluations of the received
codeword, in evaluation order (`i = 0 .. twoS-1`). -/
def syndromeEvals (gf : GenericGF) (received : List Nat) (twoS : Nat) : List Nat :=
  (List.range twoS).map (fun i => (GenericGFPoly.ofList received).evaluateAt gf (gf.exp (i + gf.generatorBase)))

/-- `ReedSolomonDecoder::decode` (lines 133-172): syndromes (stored reversed),
the all-zero fast path, the Euclidean algorithm, the Chien search, the Forney
formula, and the correction loop. Returns the status together with the codeword
buffer as left by the call; `.error` models the C++ `throw`. -/
def decode (gf : GenericGF) (received : List Nat) (twoS : Nat) :
    Except String (DecodeStatus × List Nat) :=
  let evals := syndromeEvals gf received twoS
  let syndromeCoefficients := evals.reverse
  if evals.all (· == 0) then .ok (.NoError, received)
  else
    match RunEuclideanAlgorithm gf syndromeCoefficients twoS with
    | .error e => .error e
    | .ok (status, sigma, omega) =>
      if status ≠ .NoError then .ok (status, received)
      else
        let so := FindErrorLocations gf sigma
        if so.1 ≠ .NoError then .ok (so.1, received)
        else
          let errorMagnitudes := FindErrorMagnitudes gf omega so.2
          .ok (correctionLoop gf received (so.2.zip errorMagnitudes))

/-! ## Field invariants

The spec (sections 3 and 4.1) states the table invariants of a correctly
constructed field: `exp` and `log` are mutual inverses on the nonzero symbols,
the table starts at 1, and arithmetic never leaves `[0, size-1]`. -/

/-- The table invariants of a correctly constructed `GenericGF` (spec, sections
3 and 4.1). -/
def IsGoodField (gf : GenericGF) : Prop :=
  2 ≤ gf.size ∧
  gf.expTable.length = gf.size - 1 ∧
  gf.expTable.getD 0 0 = 1 ∧
  (∀ i < gf.size - 1, 0 < gf.expTable.getD i 0 ∧ gf.expTable.getD i 0 < gf.size) ∧
  (∀ i < gf.size - 1, gf.log (gf.expTable.getD i 0) = i) ∧
  (∀ a < gf.size, 0 < a → gf.log a < gf.size - 1 ∧ gf.expTable.getD (gf.log a) 0 = a)

namespace GoodField

variable {gf : GenericGF}

theorem size_pos (h : IsGoodField gf) : 0 < gf.size - 1 := by
  have := h.1; omega

theorem exp_pos (h : IsGoodField gf) (i : Nat) : 0 < gf.exp i := by
  have hm : i % (gf.size - 1) < gf.size - 1 := Nat.mod_lt _ (size_pos h)
  exact (h.2.2.2.1 _ hm).1

theorem exp_lt (h : IsGoodField gf) (i : Nat) : gf.exp i < gf.size := by
  have hm : i % (gf.size - 1) < gf.size - 1 := Nat.mod_lt _ (size_pos h)
  exact (h.2.2.2.1 _ hm).2

theorem log_exp (h : IsGoodField gf) (i : Nat) : gf.log (gf.exp i) = i % (gf.size - 1) := by
  have hm : i % (gf.size - 1) < gf.size - 1 := Nat.mod_lt _ (size_pos h)
  exact h.2.2.2.2.1 _ hm

theorem log_lt (h : IsGoodField gf) {a : Nat} (ha : 0 < a) (hlt : a < gf.size) :
    gf.log a < gf.size - 1 :=
  (h.2.2.2.2.2 a hlt ha).1

theorem exp_log (h : IsGoodField gf) {a : Nat} (ha : 0 < a) (hlt : a < gf.size) :
    gf.exp (gf.log a) = a := by
  have hl := log_lt h ha hlt
  have := (h.2.2.2.2.2 a hlt ha).2
  unfold GenericGF.exp
  rwa [Nat.mod_eq_of_lt hl]

theorem exp_mod (h : IsGoodField gf) (i : Nat) : gf.exp (i % (gf.size - 1)) = gf.exp i := by
  unfold GenericGF.exp
  have : i % (gf.size - 1) % (gf.size - 1) = i % (gf.size - 1) := Nat.mod_mod_of_dvd i dvd_rfl
  rw [this]

theorem exp_zero (h : IsGoodField gf) : gf.exp 0 = 1 := by
  unfold GenericGF.exp
  rw [Nat.zero_mod]
  exact h.2.2.1

theorem exp_inj (h : IsGoodField gf) {i j : Nat} (hij : gf.exp i = gf.exp j) :
    i % (gf.size - 1) = j % (gf.size - 1) := by
  have h1 := log_exp h i
  have h2 := log_exp h j
  rw [hij, h2] at h1
  omega

theorem log_one (h : IsGoodField gf) : gf.log 1 = 0 := by
  have := log_exp h 0
  rw [exp_zero h, Nat.zero_mod] at this
  exact this

theorem multiply_pos (h : IsGoodField gf) {a b : Nat} (ha : 0 < a) (hb : 0 < b) :
    0 < gf.multiply a b := by
  unfold GenericGF.multiply
  rw [if_neg (by omega)]
  exact exp_pos h _

theorem multiply_lt (h : IsGoodField gf) {a b : Nat} (ha : 0 < a) (hb : 0 < b) :
    gf.multiply a b < gf.size := by
  unfold GenericGF.multiply
  rw [if_neg (by omega)]
  exact exp_lt h _

theorem inverse_pos (h : IsGoodField gf) (a : Nat) : 0 < gf.inverse a :=
  exp_pos h _

theorem inverse_lt (h : IsGoodField gf) (a : Nat) : gf.inverse a < gf.size :=
  exp_lt h _

theorem log_inverse (h : IsGoodField gf) {a : Nat} (ha : 0 < a) (hlt : a < gf.size) :
    gf.log (gf.inverse a) = (gf.size - 1 - gf.log a) % (gf.size - 1) :=
  log_exp h _

theorem mul_inverse (h : IsGoodField gf) {a : Nat} (ha : 0 < a) (hlt : a < gf.size) :
    gf.multiply a (gf.inverse a) = 1 := by
  have hl := log_lt h ha hlt
  have hipos := inverse_pos h a
  unfold GenericGF.multiply
  rw [if_neg (by omega)]
  rw [log_inverse h ha hlt]
  rcases Nat.eq_zero_or_pos (gf.log a) with h0 | hpos
  · rw [h0]
    simpa using exp_zero h
  · have : (gf.size - 1 - gf.log a) % (gf.size - 1) = gf.size - 1 - gf.log a :=
      Nat.mod_eq_of_lt (by omega)
    rw [this]
    have harith : gf.log a + (gf.size - 1 - gf.log a) = gf.size - 1 := by omega
    rw [harith]
    have := exp_mod h (gf.size - 1)
    rw [Nat.mod_self] at this
    rw [← this, exp_zero h]

theorem inverse_inverse (h : IsGoodField gf) {a : Nat} (ha : 0 < a) (hlt : a < gf.size) :
    gf.inverse (gf.inverse a) = a := by
  have hl := log_lt h ha hlt
  show gf.exp (gf.size - 1 - gf.log (gf.inverse a)) = a
  rw [log_inverse h ha hlt]
  rcases Nat.eq_zero_or_pos (gf.log a) with h0 | hpos
  · rw [h0]
    have : (gf.size - 1 - 0) % (gf.size - 1) = 0 := by
      simp [Nat.mod_self]
    rw [this, Nat.sub_zero]
    have hz := exp_mod h (gf.size - 1)
    rw [Nat.mod_self] at hz
    rw [← hz, exp_zero h]
    have := exp_log h ha hlt
    rw [h0, exp_zero h] at this
    omega
  · have : (gf.size - 1 - gf.log a) % (gf.size - 1) = gf.size - 1 - gf.log a :=
      Nat.mod_eq_of_lt (by omega)
    rw [this]
    have harith : gf.size - 1 - (gf.size - 1 - gf.log a) = gf.log a := by omega
    rw [harith]
    exact exp_log h ha hlt

theorem mul_eq_one_iff (h : IsGoodField gf) {a b : Nat} (ha : 0 < a) (halt : a < gf.size)
    (hb : 0 < b) (hblt : b < gf.size) :
    gf.multiply a b = 1 ↔ b = gf.inverse a := by
  constructor
  · intro h1
    have hla := log_lt h ha halt
    have hlb := log_lt h hb hblt
    unfold GenericGF.multiply at h1
    rw [if_neg (by omega)] at h1
    rw [← exp_zero h] at h1
    have hmod := exp_inj h h1
    rw [Nat.zero_mod] at hmod
    have hn : 0 < gf.size - 1 := size_pos h
    have hsum : gf.log a + gf.log b = 0 ∨ gf.log a + gf.log b = gf.size - 1 := by
      rcases Nat.lt_or_ge (gf.log a + gf.log b) (gf.size - 1) with hlt2 | hge
      · left; rw [Nat.mod_eq_of_lt hlt2] at hmod; exact hmod
      · right
        have h2n : gf.log a + gf.log b < 2 * (gf.size - 1) := by omega
        have : gf.log a + gf.log b - (gf.size - 1) < gf.size - 1 := by omega
        have hrw : (gf.log a + gf.log b) % (gf.size - 1)
            = gf.log a + gf.log b - (gf.size - 1) := by
          rw [Nat.mod_eq_sub_mod hge, Nat.mod_eq_of_lt this]
        omega
    have hlogb : gf.log b = (gf.size - 1 - gf.log a) % (gf.size - 1) := by
      rcases hsum with h0 | hn1
      · have hla0 : gf.log a = 0 := by omega
        have hlb0 : gf.log b = 0 := by omega
        rw [hla0, hlb0]
        simp [Nat.mod_self]
      · have : gf.size - 1 - gf.log a = gf.log b := by omega
        rw [this, Nat.mod_eq_of_lt hlb]
    calc b = gf.exp (gf.log b) := (exp_log h hb hblt).symm
      _ = gf.exp ((gf.size - 1 - gf.log a) % (gf.size - 1)) := by rw [hlogb]
      _ = gf.exp (gf.size - 1 - gf.log a) := exp_mod h _
      _ = gf.inverse a := rfl
  · intro hb2
    rw [hb2]
    exact mul_inverse h ha halt

theorem multiply_zero_left (gf : GenericGF) (b : Nat) : gf.multiply 0 b = 0 := by
  unfold GenericGF.multiply
  rw [if_pos (Or.inl rfl)]

end GoodField

/-! ## Normalization and constant-term lemmas -/

theorem normalizeCoeffs_ne_nil (l : List Nat) : normalizeCoeffs l ≠ [] := by
  unfold normalizeCoeffs
  split
  · simp
  · simp_all

theorem normalizeCoeffs_getLast (l : List Nat) (hl : l ≠ []) :
    (normalizeCoeffs l).getLast?.getD 0 = l.getLast?.getD 0 := by
  unfold normalizeCoeffs
  split
  next h =>
    have hall : ∀ x ∈ l, x = 0 := by
      intro x hx
      have := List.dropWhile_eq_nil_iff.mp h x hx
      simpa using this
    rw [List.getLast?_eq_getLast l hl]
    have : l.getLast hl = 0 := hall _ (List.getLast_mem hl)
    simp [this]
  next h =>
    have hne : List.dropWhile (fun x => decide (x = 0)) l ≠ [] := fun hh => h hh
    obtain ⟨u, hu⟩ := List.dropWhile_suffix (l := l) (fun x => decide (x = 0))
    conv_rhs => rw [← hu]
    rw [List.getLast?_append]
    cases hgl : (List.dropWhile (fun x => decide (x = 0)) l).getLast? with
    | none => exact absurd (List.getLast?_eq_none_iff.mp hgl) hne
    | some x => simp

theorem coefficient_zero_eq (p : GenericGFPoly) (hp : p.coefficients ≠ []) :
    p.coefficient 0 = p.coefficients.getLast?.getD 0 := by
  unfold GenericGFPoly.coefficient
  have hlen : 0 < p.coefficients.length := List.length_pos.mpr hp
  rw [if_pos hlen, List.getD_eq_getElem?_getD, List.getLast?_eq_getElem?]
  simp

theorem multiplyScalar_coefficient_zero (gf : GenericGF) (p : GenericGFPoly) (s : Nat)
    (hp : p.coefficients ≠ []) :
    (p.multiplyScalar gf s).coefficient 0 = gf.multiply (p.coefficient 0) s := by
  have h1 : (p.multiplyScalar gf s).coefficients
      = normalizeCoeffs (p.coefficients.map (fun c => gf.multiply c s)) := rfl
  have hmapne : p.coefficients.map (fun c => gf.multiply c s) ≠ [] := by
    simpa using hp
  rw [coefficient_zero_eq _ (by rw [h1]; exact normalizeCoeffs_ne_nil _)]
  rw [h1, normalizeCoeffs_getLast _ hmapne, coefficient_zero_eq _ hp, List.getLast?_map]
  rw [List.getLast?_eq_getLast _ hp]
  simp

theorem coefficient_zero_mem (p : GenericGFPoly) (hp : p.coefficients ≠ []) :
    p.coefficient 0 ∈ p.coefficients := by
  rw [coefficient_zero_eq _ hp, List.getLast?_eq_getLast _ hp]
  simpa using List.getLast_mem hp

/-! ## The Chien search, characterized -/

/-- The ascending list of elements of `[i, size)` where the error locator
evaluates to zero: the roots the Chien loop visits from counter value `i` on. -/
def chienRoots (gf : GenericGF) (p : GenericGFPoly) (i : Nat) : List Nat :=
  (List.range' i (gf.size - i)).filter (fun x => p.evaluateAt gf x == 0)

/-- Writing a block of values into consecutive slots of a list, starting at
index `k`: the accumulated effect of the `outLocations[e] = ...; e++` writes. -/
def overwriteFrom : List Nat → Nat → List Nat → List Nat
  | out, _, [] => out
  | out, k, v :: vs => overwriteFrom (out.set k v) (k + 1) vs

theorem overwriteFrom_length (vals : List Nat) :
    ∀ out k, (overwriteFrom out k vals).length = out.length := by
  induction vals with
  | nil => intro out k; rfl
  | cons v vs ih =>
    intro out k
    show (overwriteFrom (out.set k v) (k + 1) vs).length = _
    rw [ih, List.length_set]

theorem take_set_succ (out : List Nat) (k : Nat) (v : Nat) (hk : k < out.length) :
    (out.set k v).take (k + 1) = out.take k ++ [v] := by
  rw [List.set_take (l := out)]
  rw [List.set_eq_take_cons_drop v (by rw [List.length_take]; omega)]
  rw [List.take_take]
  have h1 : min k (k + 1) = k := by omega
  rw [h1]
  have h2 : List.drop (k + 1) (List.take (k + 1) out) = [] := by
    apply List.drop_of_length_le
    rw [List.length_take]
    omega
  rw [h2]

theorem overwriteFrom_eq_of_length (vals : List Nat) :
    ∀ out k, k + vals.length = out.length →
      overwriteFrom out k vals = out.take k ++ vals := by
  induction vals with
  | nil =>
    intro out k h
    show out = out.take k ++ []
    rw [List.append_nil]
    simp at h
    rw [h, List.take_length]
  | cons v vs ih =>
    intro out k h
    simp only [List.length_cons] at h
    have hk : k < out.length := by omega
    show overwriteFrom (out.set k v) (k + 1) vs = _
    rw [ih _ _ (by rw [List.length_set]; omega)]
    rw [take_set_succ _ _ _ hk]
    simp

theorem chienRoots_stop (gf : GenericGF) (p : GenericGFPoly) {i : Nat} (hi : gf.size ≤ i) :
    chienRoots gf p i = [] := by
  unfold chienRoots
  have : gf.size - i = 0 := by omega
  rw [this]
  rfl

theorem chienRoots_succ (gf : GenericGF) (p : GenericGFPoly) {i : Nat} (hi : i < gf.size) :
    chienRoots gf p i =
      if p.evaluateAt gf i == 0 then i :: chienRoots gf p (i + 1) else chienRoots gf p (i + 1) := by
  unfold chienRoots
  have h1 : gf.size - i = (gf.size - (i + 1)) + 1 := by omega
  rw [h1, List.range'_succ, List.filter_cons]

theorem chienRoots_subset (gf : GenericGF) (p : GenericGFPoly) (i : Nat) :
    ∀ x ∈ chienRoots gf p i, i ≤ x ∧ x < gf.size := by
  intro x hx
  unfold chienRoots at hx
  have := List.mem_range'_1.mp (List.mem_of_mem_filter hx)
  omega

theorem chienLoopGo_spec (gf : GenericGF) (p : GenericGFPoly) (numErrors : Nat) :
    ∀ fuel i e out, gf.size ≤ i + fuel → e ≤ numErrors →
      chienLoopGo gf p numErrors fuel i e out =
        (min numErrors (e + (chienRoots gf p i).length),
         overwriteFrom out e (((chienRoots gf p i).take (numErrors - e)).map gf.inverse)) := by
  intro fuel
  induction fuel with
  | zero =>
    intro i e out hsz he
    rw [chienRoots_stop gf p (by omega)]
    show (e, out) = _
    simp only [List.take_nil, List.map_nil, overwriteFrom, List.length_nil, Nat.add_zero]
    congr 1
    omega
  | succ fuel ih =>
    intro i e out hsz he
    show (if i < gf.size ∧ e < numErrors then _ else _) = _
    by_cases hc : i < gf.size ∧ e < numErrors
    · rw [if_pos hc]
      obtain ⟨hi, he2⟩ := hc
      rw [chienRoots_succ gf p hi]
      by_cases hev : p.evaluateAt gf i = 0
      · rw [if_pos hev, if_pos (by simpa using hev)]
        rw [ih (i + 1) (e + 1) _ (by omega) (by omega)]
        have htake : numErrors - e = (numErrors - (e + 1)) + 1 := by omega
        rw [htake, List.take_succ_cons, List.map_cons]
        show _ = (_, overwriteFrom (out.set e (gf.inverse i)) (e + 1) _)
        simp only [List.length_cons]
        congr 1
        omega
      · rw [if_neg hev, if_neg (by simpa using hev)]
        exact ih (i + 1) e out (by omega) he
    · rw [if_neg hc]
      rcases Decidable.not_and_iff_or_not.mp hc with hi | he2
      · rw [chienRoots_stop gf p (by omega)]
        show (e, out) = _
        simp only [List.take_nil, List.map_nil, overwriteFrom, List.length_nil, Nat.add_zero]
        congr 1
        omega
      · have heq : e = numErrors := by omega
        subst heq
        show (e, out) = _
        rw [Nat.sub_self]
        simp only [List.take_zero, List.map_nil, overwriteFrom]
        congr 1
        omega

theorem findLocInit_length (p : GenericGFPoly) : (findLocInit p).length = p.degree := by
  unfold findLocInit
  split <;> simp

theorem FindErrorLocations_success (gf : GenericGF) (p : GenericGFPoly)
    (h : p.degree ≤ (chienRoots gf p 1).length) :
    FindErrorLocations gf p
      = (.NoError, ((chienRoots gf p 1).take p.degree).map gf.inverse) := by
  unfold FindErrorLocations
  rw [chienLoopGo_spec gf p p.degree gf.size 1 0 _ (by omega) (by omega)]
  have hmin : min p.degree (0 + (chienRoots gf p 1).length) = p.degree := by omega
  rw [hmin]
  simp only [Nat.sub_zero]
  rw [overwriteFrom_eq_of_length _ _ 0
    (by
      rw [List.length_map, List.length_take, findLocInit_length]
      omega)]
  simp

theorem FindErrorLocations_mismatch (gf : GenericGF) (p : GenericGFPoly)
    (h : (chienRoots gf p 1).length < p.degree) :
    (FindErrorLocations gf p).1 = .ReedSolomonDegreeMismatch := by
  unfold FindErrorLocations
  rw [chienLoopGo_spec gf p p.degree gf.size 1 0 _ (by omega) (by omega)]
  have hmin : min p.degree (0 + (chienRoots gf p 1).length) = (chienRoots gf p 1).length := by
    omega
  rw [hmin]
  rw [if_pos (by omega)]

/-! ## The correction loop -/

theorem correctionLoop_status (gf : GenericGF) :
    ∀ pairs buf, (correctionLoop gf buf pairs).1 = DecodeStatus.NoError ∨
      (correctionLoop gf buf pairs).1 = DecodeStatus.ReedSolomonBadLocation := by
  intro pairs
  induction pairs with
  | nil => intro buf; left; rfl
  | cons pr rest ih =>
    intro buf
    obtain ⟨loc, mag⟩ := pr
    by_cases hneg : ((buf.length : Int) - 1 - (gf.log loc : Int)) < 0
    · right
      simp only [correctionLoop, if_pos hneg]
    · have := ih (buf.set (((buf.length : Int) - 1 - (gf.log loc : Int))).toNat
        (gf.addOrSubtract (buf.getD (((buf.length : Int) - 1 - (gf.log loc : Int))).toNat 0) mag))
      simpa only [correctionLoop, if_neg hneg] using this

/-! ## The branch-free bit trick of the Forney denominator -/

theorem testBit_one_eq (i : Nat) : (1 : Nat).testBit i = decide (i = 0) := by
  cases i with
  | zero => rfl
  | succ n =>
    rw [Nat.testBit_succ]
    simp [Nat.zero_testBit]

theorem mask_testBit_lt : ∀ j < 32, (0xFFFFFFFE : Nat).testBit j = decide (j ≠ 0) := by decide

theorem mask_testBit_ge (j : Nat) (hj : 32 ≤ j) : (0xFFFFFFFE : Nat).testBit j = false := by
  apply Nat.testBit_eq_false_of_lt
  calc (0xFFFFFFFE : Nat) < 2 ^ 32 := by norm_num
    _ ≤ 2 ^ j := Nat.pow_le_pow_right (by norm_num) hj

/-! ## Unfolding equations of the Euclidean loop -/

/-- C7: in any iteration of the Euclidean loop (any entry state with the loop
condition `R / 2 <= r.degree()` holding), if the divisor after the swap (the
entry `r`) is the zero polynomial, the loop returns the recoverable
algorithm-failed outcome as an ordinary value, not the `.error` fault. -/
theorem euclidLoopGo_zero_rLast (gf : GenericGF) (R fuel : Nat)
    (tLast t rLast r : GenericGFPoly) (hdeg : R / 2 ≤ r.degree) (hz : r.isZero = true) :
    euclidLoopGo gf R (fuel + 1) tLast t rLast r = .ok .failed := by
  simp only [euclidLoopGo]
  rw [if_neg (by omega), if_pos hz]

/-- C8: in any iteration of the Euclidean loop, when the division fails to
bring the remainder degree strictly below the divisor degree, the loop aborts
with the raised fault (modelled as `.error`, the C++ `throw`), which is not a
value of the status enumeration — no `DecodeStatus` is produced on this path. -/
theorem euclidLoopGo_throw (gf : GenericGF) (R fuel : Nat)
    (tLast t rLast r : GenericGFPoly) (hdeg : R / 2 ≤ r.degree) (hz : r.isZero = false)
    (hdiv : r.degree ≤ ((GenericGFPoly.divide gf rLast r).2).degree) :
    euclidLoopGo gf R (fuel + 1) tLast t rLast r
      = .error "Division algorithm failed to reduce polynomial?" := by
  simp only [euclidLoopGo]
  rw [if_neg (by omega), if_neg (by simp [hz]), if_pos (by omega)]

theorem RunEuclideanAlgorithm_done (gf : GenericGF) (rCoefs : List Nat) (R : Nat)
    (t r : GenericGFPoly)
    (hloop : euclidLoopGo gf R
        (max (euclidInit rCoefs R).1.degree (euclidInit rCoefs R).2.degree + 1)
        GenericGF.setZero GenericGF.setOne (euclidInit rCoefs R).1 (euclidInit rCoefs R).2
        = .ok (.done t r)) :
    RunEuclideanAlgorithm gf rCoefs R = .ok (euclidFinish gf t r) := by
  simp only [RunEuclideanAlgorithm]
  rw [hloop]

theorem euclidFinish_of_zero (gf : GenericGF) (t r : GenericGFPoly)
    (h0 : t.coefficient 0 = 0) :
    euclidFinish gf t r = (.ReedSolomonSigmaTildeZero, t, r) := by
  simp only [euclidFinish]
  rw [if_pos h0]

theorem euclidFinish_of_ne_zero (gf : GenericGF) (t r : GenericGFPoly)
    (h0 : t.coefficient 0 ≠ 0) :
    euclidFinish gf t r
      = (.NoError, t.multiplyScalar gf (gf.inverse (t.coefficient 0)),
         r.multiplyScalar gf (gf.inverse (t.coefficient 0))) := by
  simp only [euclidFinish]
  rw [if_neg h0]

theorem sigma_constant_term_one (gf : GenericGF) (hg : IsGoodField gf) (t : GenericGFPoly)
    (hne : t.coefficients ≠ []) (hb : t.coefficient 0 < gf.size) (h0 : t.coefficient 0 ≠ 0) :
    (t.multiplyScalar gf (gf.inverse (t.coefficient 0))).coefficient 0 = 1 := by
  rw [multiplyScalar_coefficient_zero gf t _ hne]
  exact GoodField.mul_inverse hg (Nat.pos_of_ne_zero h0) hb

/-! ## Decode-level structural lemmas -/

/-- C3: when every one of the `twoS` syndrome evaluations of the received
codeword is zero, `decode` returns success immediately and the returned buffer
is the input buffer itself — no element is written on this path. -/
theorem decode_clean_eq (gf : GenericGF) (received : List Nat) (twoS : Nat)
    (h : ∀ i < twoS,
      (GenericGFPoly.ofList received).evaluateAt gf (gf.exp (i + gf.generatorBase)) = 0) :
    decode gf received twoS = .ok (.NoError, received) := by
  have hall : (syndromeEvals gf received twoS).all (· == 0) = true := by
    rw [List.all_eq_true]
    intro x hx
    unfold syndromeEvals at hx
    obtain ⟨i, hi, hfx⟩ := List.mem_map.mp hx
    have := h i (List.mem_range.mp hi)
    rw [← hfx]
    simpa using this
  simp only [decode]
  rw [hall]
  rfl

/-- C2 (amended): whenever `decode` returns the algorithm-failed,
sigma-tilde-zero or degree-mismatch status — the non-success outcomes produced
before the correction loop — the returned codeword buffer is exactly the input.
(As stated the claim also covered the bad-location status, which is refuted by
the counterexample `decode_badLocation_partial_write`: the correction loop
mutates the buffer in place before discovering a bad location.) -/
theorem decode_untouched_before_correction (gf : GenericGF) (received : List Nat)
    (twoS : Nat) (status : DecodeStatus) (buf : List Nat)
    (h : decode gf received twoS = .ok (status, buf))
    (hs : status = DecodeStatus.ReedSolomonAlgoFailed ∨
          status = DecodeStatus.ReedSolomonSigmaTildeZero ∨
          status = DecodeStatus.ReedSolomonDegreeMismatch) :
    buf = received := by
  simp only [decode] at h
  by_cases hclean : (syndromeEvals gf received twoS).all (· == 0) = true
  · rw [hclean] at h
    simp at h
    exact h.2.symm
  · rw [Bool.not_eq_true] at hclean
    rw [hclean] at h
    simp only [Bool.false_eq_true, if_false] at h
    cases hE : RunEuclideanAlgorithm gf (syndromeEvals gf received twoS).reverse twoS with
    | error e =>
      rw [hE] at h
      simp at h
    | ok tup =>
      obtain ⟨st, sigma, omega⟩ := tup
      rw [hE] at h
      dsimp only at h
      by_cases hst : st = DecodeStatus.NoError
      · subst hst
        rw [if_neg (by simp)] at h
        by_cases hfl : (FindErrorLocations gf sigma).1 = DecodeStatus.NoError
        · rw [if_neg (by simp [hfl])] at h
          exfalso
          have h2 : correctionLoop gf received
              ((FindErrorLocations gf sigma).2.zip
                (FindErrorMagnitudes gf omega (FindErrorLocations gf sigma).2)) = (status, buf) := by
            simpa using h
          have hco := correctionLoop_status gf
            ((FindErrorLocations gf sigma).2.zip
              (FindErrorMagnitudes gf omega (FindErrorLocations gf sigma).2)) received
          rw [h2] at hco
          rcases hs with h3 | h3 | h3 <;> rcases hco with h4 | h4 <;> simp_all
        · rw [if_pos hfl] at h
          simp at h
          exact h.2.symm
      · rw [if_pos hst] at h
        simp at h
        exact h.2.symm

/-! ## Concrete fields for instantiation -/

/-- GF(16) with primitive polynomial 0x13 and generator base 0. -/
def gf16 : GenericGF := GenericGF.create 16 19 0

/-- GF(4) with primitive polynomial 0x7 and generator base 0. -/
def gf4 : GenericGF := GenericGF.create 4 7 0

theorem gf16_good : IsGoodField gf16 := by
  unfold IsGoodField
  decide

/-! ## Unique-root helper for the degree-one shortcut -/

theorem filter_eq_singleton_of_unique {l : List Nat} {f : Nat → Bool} {a : Nat}
    (hnd : l.Nodup) (ha : a ∈ l) (hiff : ∀ x ∈ l, f x = true ↔ x = a) :
    l.filter f = [a] := by
  induction l with
  | nil => cases ha
  | cons b t ih =>
    rw [List.filter_cons]
    obtain ⟨hbt, hndt⟩ := List.nodup_cons.mp hnd
    rcases List.mem_cons.mp ha with hba | hat
    · subst hba
      rw [if_pos ((hiff a (by simp)).mpr rfl)]
      have : t.filter f = [] := by
        rw [List.filter_eq_nil_iff]
        intro x hx hfx
        have := (hiff x (by simp [hx])).mp hfx
        exact hbt (this ▸ hx)
      rw [this]
    · have hfb : f b = false := by
        by_contra hfb
        rw [Bool.not_eq_false] at hfb
        have := (hiff b (by simp)).mp hfb
        exact hbt (this ▸ hat)
      rw [if_neg (by simp [hfb])]
      exact ih hndt hat (fun x hx => hiff x (by simp [hx]))

/-! ## Claim theorems, witnesses and counterexamples -/

/-- C5: for every value `v` representable in the C++ 32-bit int (in particular
every field element), the branch-free bit operation of line 121 — set the
lowest bit of `v` when it is clear, clear it when it is set — is bit-identical
to `field.addOrSubtract(1, v)`, i.e. to `v XOR 1`. -/
theorem termPlus1_eq_addOrSubtract_one (gf : GenericGF) (v : Nat) (hv : v < 2 ^ 32) :
    termPlus1 v = gf.addOrSubtract 1 v := by
  have hhigh : ∀ j, 32 ≤ j → v.testBit j = false := by
    intro j hj
    exact Nat.testBit_eq_false_of_lt
      (lt_of_lt_of_le hv (Nat.pow_le_pow_right (by norm_num) hj))
  show termPlus1 v = 1 ^^^ v
  unfold termPlus1
  by_cases h0 : v &&& 1 = 0
  · rw [if_pos h0]
    have hb : v.testBit 0 = false := by
      have := congrArg (fun n => n.testBit 0) h0
      simpa [Nat.testBit_land, testBit_one_eq] using this
    apply Nat.eq_of_testBit_eq
    intro j
    rw [Nat.testBit_lor, Nat.testBit_xor, testBit_one_eq]
    cases j with
    | zero => simp [hb]
    | succ n => simp
  · rw [if_neg h0]
    have hb : v.testBit 0 = true := by
      by_contra hf
      rw [Bool.not_eq_true] at hf
      apply h0
      apply Nat.eq_of_testBit_eq
      intro j
      rw [Nat.testBit_land, testBit_one_eq, Nat.zero_testBit]
      cases j with
      | zero => simp [hf]
      | succ n => simp
    apply Nat.eq_of_testBit_eq
    intro j
    rw [Nat.testBit_land, Nat.testBit_xor, testBit_one_eq]
    rcases Nat.lt_or_ge j 32 with hj | hj
    · rw [mask_testBit_lt j hj]
      cases j with
      | zero => simp [hb]
      | succ n => simp
    · rw [mask_testBit_ge j hj, hhigh j hj]
      have hj0 : j ≠ 0 := by omega
      simp [hj0]

theorem termPlus1_eq_addOrSubtract_one_witness :
    termPlus1 6 = gf16.addOrSubtract 1 6 :=
  termPlus1_eq_addOrSubtract_one gf16 6 (by norm_num)

theorem decode_clean_eq_witness :
    decode gf16 [0, 0, 0] 2 = .ok (.NoError, [0, 0, 0]) :=
  decode_clean_eq gf16 [0, 0, 0] 2 (by decide)

/-- C2 counterexample: the claim as stated is false — on this input `decode`
returns the bad-location status, yet the buffer differs from the input: the
correction at the first (valid) location was already applied in place before
the second location was found to be bad. -/
theorem decode_badLocation_partial_write :
    decode gf16 [4, 5, 12, 2, 2, 2] 4
      = .ok (.ReedSolomonBadLocation, [4, 5, 12, 2, 2, 7]) ∧
    ([4, 5, 12, 2, 2, 7] : List Nat) ≠ [4, 5, 12, 2, 2, 2] := by
  constructor
  · rfl
  · decide

theorem decode_untouched_before_correction_witness :
    ([1, 8, 15, 12, 9, 15, 11] : List Nat) = [1, 8, 15, 12, 9, 15, 11] :=
  decode_untouched_before_correction gf16 [1, 8, 15, 12, 9, 15, 11] 4
    DecodeStatus.ReedSolomonDegreeMismatch [1, 8, 15, 12, 9, 15, 11]
    (by rfl) (Or.inr (Or.inr rfl))

/-- C4: on a normalized degree-1 error locator (constant term 1, leading
coefficient `c1` nonzero), `FindErrorLocations` succeeds and the single
returned location equals `coefficient(1)` of the locator, exactly the value the
shortcut of line 89 writes. -/
theorem findErrorLocations_degree_one_shortcut (gf : GenericGF) (hg : IsGoodField gf)
    (c1 : Nat) (hpos : 0 < c1) (hlt : c1 < gf.size) :
    FindErrorLocations gf ⟨[c1, 1]⟩
      = (.NoError, [GenericGFPoly.coefficient ⟨[c1, 1]⟩ 1]) := by
  have heval : ∀ x, GenericGFPoly.evaluateAt gf ⟨[c1, 1]⟩ x = gf.multiply c1 x ^^^ 1 := by
    intro x
    show gf.multiply (gf.multiply 0 x ^^^ c1) x ^^^ 1 = _
    rw [GoodField.multiply_zero_left, Nat.zero_xor]
  have hmem : gf.inverse c1 ∈ List.range' 1 (gf.size - 1) := by
    rw [List.mem_range'_1]
    have h1 := GoodField.inverse_pos hg c1
    have h2 := GoodField.inverse_lt hg c1
    have h3 := hg.1
    omega
  have hiff : ∀ x ∈ List.range' 1 (gf.size - 1),
      ((GenericGFPoly.evaluateAt gf ⟨[c1, 1]⟩ x == 0) = true ↔ x = gf.inverse c1) := by
    intro x hx
    obtain ⟨hx1, hx2⟩ := List.mem_range'_1.mp hx
    have h3 := hg.1
    rw [heval, beq_iff_eq, Nat.xor_eq_zero]
    exact GoodField.mul_eq_one_iff hg hpos hlt (by omega) (by omega)
  have hroots : chienRoots gf ⟨[c1, 1]⟩ 1 = [gf.inverse c1] := by
    unfold chienRoots
    exact filter_eq_singleton_of_unique (List.nodup_range' 1 (gf.size - 1)) hmem hiff
  have hdeg : GenericGFPoly.degree ⟨[c1, 1]⟩ = 1 := rfl
  rw [FindErrorLocations_success gf _ (by rw [hdeg, hroots]; simp)]
  rw [hroots, hdeg]
  have hc : GenericGFPoly.coefficient ⟨[c1, 1]⟩ 1 = c1 := rfl
  rw [hc]
  simp [GoodField.inverse_inverse hg hpos hlt]

theorem findErrorLocations_degree_one_shortcut_witness :
    FindErrorLocations gf16 ⟨[2, 1]⟩
      = (.NoError, [GenericGFPoly.coefficient ⟨[2, 1]⟩ 1]) :=
  findErrorLocations_degree_one_shortcut gf16 gf16_good 2 (by decide) (by decide)

/-- C6: on exit of the Euclidean loop with values `t` and `r`, if the constant
term of `t` is zero, `RunEuclideanAlgorithm` returns the sigma-tilde-zero
status (no magnitude is computed); otherwise both `t` (σ) and `r` (ω) are
multiplied by `inverse(t.coefficient(0))` and the constant term of the
resulting σ equals 1. -/
theorem euclid_exit_sigmaTilde_normalization (gf : GenericGF) (hg : IsGoodField gf)
    (rCoefs : List Nat) (R : Nat) (t r : GenericGFPoly)
    (hloop : euclidLoopGo gf R
        (max (euclidInit rCoefs R).1.degree (euclidInit rCoefs R).2.degree + 1)
        GenericGF.setZero GenericGF.setOne (euclidInit rCoefs R).1 (euclidInit rCoefs R).2
        = .ok (.done t r))
    (hne : t.coefficients ≠ []) (hb : t.coefficient 0 < gf.size) :
    (t.coefficient 0 = 0 →
      RunEuclideanAlgorithm gf rCoefs R = .ok (.ReedSolomonSigmaTildeZero, t, r)) ∧
    (t.coefficient 0 ≠ 0 →
      RunEuclideanAlgorithm gf rCoefs R
        = .ok (.NoError, t.multiplyScalar gf (gf.inverse (t.coefficient 0)),
               r.multiplyScalar gf (gf.inverse (t.coefficient 0))) ∧
      (t.multiplyScalar gf (gf.inverse (t.coefficient 0))).coefficient 0 = 1) := by
  constructor
  · intro h0
    rw [RunEuclideanAlgorithm_done gf rCoefs R t r hloop, euclidFinish_of_zero gf t r h0]
  · intro h0
    refine ⟨?_, sigma_constant_term_one gf hg t hne hb h0⟩
    rw [RunEuclideanAlgorithm_done gf rCoefs R t r hloop, euclidFinish_of_ne_zero gf t r h0]

theorem euclid_exit_sigmaTilde_normalization_witness :
    (RunEuclideanAlgorithm gf16 [5, 2] 2
        = .ok (.NoError, GenericGFPoly.multiplyScalar gf16 ⟨[11, 1]⟩ (gf16.inverse 1),
               GenericGFPoly.multiplyScalar gf16 ⟨[2]⟩ (gf16.inverse 1)) ∧
      (GenericGFPoly.multiplyScalar gf16 ⟨[11, 1]⟩ (gf16.inverse 1)).coefficient 0 = 1) ∧
    RunEuclideanAlgorithm gf16 [1, 0] 2 = .ok (.ReedSolomonSigmaTildeZero, ⟨[1, 0]⟩, ⟨[0]⟩) :=
  ⟨(euclid_exit_sigmaTilde_normalization gf16 gf16_good [5, 2] 2 ⟨[11, 1]⟩ ⟨[2]⟩
      (by rfl) (by decide) (by decide)).2 (by decide),
   (euclid_exit_sigmaTilde_normalization gf16 gf16_good [1, 0] 2 ⟨[1, 0]⟩ ⟨[0]⟩
      (by rfl) (by decide) (by decide)).1 (by decide)⟩

theorem euclidLoopGo_zero_rLast_witness :
    euclidLoopGo gf16 1 1 GenericGF.setZero GenericGF.setOne ⟨[1, 0]⟩ ⟨[0]⟩ = .ok .failed :=
  euclidLoopGo_zero_rLast gf16 1 0 GenericGF.setZero GenericGF.setOne ⟨[1, 0]⟩ ⟨[0]⟩
    (by decide) (by decide)

theorem euclidLoopGo_throw_witness :
    euclidLoopGo gf16 1 1 GenericGF.setZero GenericGF.setOne ⟨[1, 0]⟩ ⟨[5]⟩
      = .error "Division algorithm failed to reduce polynomial?" :=
  euclidLoopGo_throw gf16 1 0 GenericGF.setZero GenericGF.setOne ⟨[1, 0]⟩ ⟨[5]⟩
    (by decide) (by decide) (by decide)

/-- C9: the Chien search scans the nonzero field elements `1 .. fieldSize-1` in
ascending order (the list `chienRoots gf p 1` collects, in that order, those
where the locator vanishes), records `inverse(i)` for each root found, stops
after `numErrors = degree` roots, and returns the degree-mismatch status
exactly when fewer than `numErrors` roots exist. -/
theorem chien_search_characterization (gf : GenericGF) (p : GenericGFPoly) :
    (p.degree ≤ (chienRoots gf p 1).length →
      FindErrorLocations gf p
        = (.NoError, ((chienRoots gf p 1).take p.degree).map gf.inverse)) ∧
    ((chienRoots gf p 1).length < p.degree →
      (FindErrorLocations gf p).1 = .ReedSolomonDegreeMismatch) :=
  ⟨FindErrorLocations_success gf p, FindErrorLocations_mismatch gf p⟩

theorem chien_search_characterization_witness :
    FindErrorLocations gf16 ⟨[11, 14, 1]⟩
        = (.NoError, ((chienRoots gf16 ⟨[11, 14, 1]⟩ 1).take 2).map gf16.inverse) ∧
    (FindErrorLocations gf16 ⟨[1, 0, 0]⟩).1 = .ReedSolomonDegreeMismatch :=
  ⟨(chien_search_characterization gf16 ⟨[11, 14, 1]⟩).1 (by decide),
   (chien_search_characterization gf16 ⟨[1, 0, 0]⟩).2 (by decide)⟩

/-- C10: every location returned by a successful `FindErrorLocations` is a
nonzero field element, its logarithm is below `fieldSize - 1` (so `inverse` and
`log` are applied within contract), and consequently any correction position
`count - 1 - log(location)` that passes the nonnegativity check of line 166
indexes strictly inside a buffer of length `count`. -/
theorem errorLocations_nonzero_and_inbounds (gf : GenericGF) (hg : IsGoodField gf)
    (p : GenericGFPoly) (locs : List Nat)
    (h : FindErrorLocations gf p = (.NoError, locs)) :
    ∀ l ∈ locs, (0 < l ∧ l < gf.size) ∧ gf.log l < gf.size - 1 ∧
      ∀ count : Nat, (0 : Int) ≤ (count : Int) - 1 - (gf.log l : Int) →
        ((count : Int) - 1 - (gf.log l : Int)).toNat < count := by
  by_cases hlen : p.degree ≤ (chienRoots gf p 1).length
  · have hsucc := FindErrorLocations_success gf p hlen
    rw [h] at hsucc
    have hlocs : locs = ((chienRoots gf p 1).take p.degree).map gf.inverse := by
      have := congrArg Prod.snd hsucc
      simpa using this
    intro l hl
    rw [hlocs] at hl
    obtain ⟨x, hx, rfl⟩ := List.mem_map.mp hl
    have hxr : x ∈ chienRoots gf p 1 := List.take_subset _ _ hx
    obtain ⟨hx1, hx2⟩ := chienRoots_subset gf p 1 x hxr
    refine ⟨⟨GoodField.inverse_pos hg x, GoodField.inverse_lt hg x⟩, ?_, ?_⟩
    · rw [GoodField.log_inverse hg (by omega) hx2]
      exact Nat.mod_lt _ (GoodField.size_pos hg)
    · intro count hc
      omega
  · exfalso
    have hmm := FindErrorLocations_mismatch gf p (by omega)
    rw [h] at hmm
    simp at hmm

theorem errorLocations_nonzero_and_inbounds_witness :
    (0 < 2 ∧ 2 < gf16.size) ∧ gf16.log 2 < gf16.size - 1 ∧
      ∀ count : Nat, (0 : Int) ≤ (count : Int) - 1 - (gf16.log 2 : Int) →
        ((count : Int) - 1 - (gf16.log 2 : Int)).toNat < count :=
  errorLocations_nonzero_and_inbounds gf16 gf16_good ⟨[11, 14, 1]⟩ [2, 12]
    (by decide) 2 (by simp)

/-- The round-trip property (C1) fails as stated when the codeword is longer
than `fieldSize - 1`: over GF(4) the all-zero codeword of length 5 has all-zero
syndromes, yet after a single-symbol corruption (within the capacity
`floor(2/2) = 1`) `decode` reports success with a buffer that differs from the
original — the error position aliases modulo `fieldSize - 1`. -/
theorem decode_aliasing_beyond_field_capacity :
    decode gf4 [1, 0, 0, 0, 0] 2 = .ok (.NoError, [1, 0, 0, 1, 0]) ∧
    (∀ i < 2, (GenericGFPoly.ofList ([0, 0, 0, 0, 0] : List Nat)).evaluateAt gf4
      (gf4.exp (i + gf4.generatorBase)) = 0) ∧
    ([1, 0, 0, 1, 0] : List Nat) ≠ [0, 0, 0, 0, 0] :=
  ⟨by rfl, by decide, by decide⟩

/-! ## Full field invariants and the bundled field

The spec (sections 3, 4.1) describes `GenericGF` as the field GF(2^m): beyond
the table invariants this means XOR-closure of the symbol range, exact
distributivity of the table multiplication over XOR, a generator base of 0 or 1
(section 3), and symbols representable in the 32-bit C++ int. These stronger
invariants are needed for the round-trip theorem. -/

/-- Full invariants of a correctly constructed GF(2^m) (spec, sections 3 and
4.1): table invariants, closure of XOR on the symbol range, distributivity of
`multiply` over XOR, generator base 0 or 1, 32-bit symbols. -/
def IsFullField (gf : GenericGF) : Prop :=
  IsGoodField gf ∧
  gf.generatorBase ≤ 1 ∧
  gf.size ≤ 2 ^ 32 ∧
  (∀ a < gf.size, ∀ b < gf.size, a ^^^ b < gf.size) ∧
  (∀ a < gf.size, ∀ b < gf.size, ∀ c < gf.size,
    gf.multiply a (b ^^^ c) = gf.multiply a b ^^^ gf.multiply a c)

namespace GoodField

variable {gf : GenericGF}

theorem multiply_lt_any (h : IsGoodField gf) (a b : Nat) : gf.multiply a b < gf.size := by
  unfold GenericGF.multiply
  split
  · have := h.1
    omega
  · exact exp_lt h _

theorem multiply_zero_right (gf : GenericGF) (a : Nat) : gf.multiply a 0 = 0 := by
  unfold GenericGF.multiply
  rw [if_pos (Or.inr rfl)]

theorem multiply_pos_eq {a b : Nat} (ha : 0 < a) (hb : 0 < b) :
    gf.multiply a b = gf.exp (gf.log a + gf.log b) := by
  unfold GenericGF.multiply
  rw [if_neg (by omega)]

theorem multiply_comm (h : IsGoodField gf) (a b : Nat) : gf.multiply a b = gf.multiply b a := by
  unfold GenericGF.multiply
  rw [Nat.add_comm]
  by_cases ha : a = 0 <;> by_cases hb : b = 0 <;> simp [ha, hb]

theorem log_multiply (h : IsGoodField gf) {a b : Nat} (ha : 0 < a) (hb : 0 < b) :
    gf.log (gf.multiply a b) = (gf.log a + gf.log b) % (gf.size - 1) := by
  unfold GenericGF.multiply
  rw [if_neg (by omega)]
  exact log_exp h _

theorem multiply_assoc (h : IsGoodField gf) {a b c : Nat}
    (ha : a < gf.size) (hb : b < gf.size) (hc : c < gf.size) :
    gf.multiply (gf.multiply a b) c = gf.multiply a (gf.multiply b c) := by
  rcases Nat.eq_zero_or_pos a with h0 | hapos
  · subst h0
    simp [multiply_zero_left]
  rcases Nat.eq_zero_or_pos b with h0 | hbpos
  · subst h0
    simp [multiply_zero_left, multiply_zero_right]
  rcases Nat.eq_zero_or_pos c with h0 | hcpos
  · subst h0
    simp [multiply_zero_right]
  have hab := multiply_pos h hapos hbpos
  have hbc := multiply_pos h hbpos hcpos
  rw [multiply_pos_eq hab hcpos, multiply_pos_eq hapos hbc]
  rw [log_multiply h hapos hbpos, log_multiply h hbpos hcpos]
  rw [← exp_mod h ((gf.log a + gf.log b) % (gf.size - 1) + gf.log c)]
  rw [← exp_mod h (gf.log a + (gf.log b + gf.log c) % (gf.size - 1))]
  congr 1
  conv_lhs => rw [Nat.add_mod, Nat.mod_mod_of_dvd _ dvd_rfl, ← Nat.add_mod]
  conv_rhs => rw [Nat.add_mod, Nat.mod_mod_of_dvd _ dvd_rfl, ← Nat.add_mod]
  rw [Nat.add_assoc]

theorem multiply_one (h : IsGoodField gf) {a : Nat} (ha : a < gf.size) :
    gf.multiply a 1 = a := by
  rcases Nat.eq_zero_or_pos a with h0 | hapos
  · subst h0
    rw [multiply_zero_left]
  unfold GenericGF.multiply
  rw [if_neg (by omega), log_one h, Nat.add_zero]
  have := log_lt h hapos ha
  rw [← exp_mod h (gf.log a), Nat.mod_eq_of_lt this] at *
  exact exp_log h hapos ha

theorem multiply_eq_zero_iff (h : IsGoodField gf) (a b : Nat) :
    gf.multiply a b = 0 ↔ a = 0 ∨ b = 0 := by
  constructor
  · intro hz
    by_contra hc
    push_neg at hc
    have := multiply_pos h (Nat.pos_of_ne_zero hc.1) (Nat.pos_of_ne_zero hc.2)
    omega
  · intro hz
    unfold GenericGF.multiply
    rw [if_pos hz]

end GoodField

/-- A `GenericGF` bundled with the full invariants, so that instances over its
symbol carrier exist unconditionally. -/
def GoodGF := {gf : GenericGF // IsFullField gf}

/-- A field symbol of a bundled field: a value below `size`. -/
structure FElem (G : GoodGF) where
  val : Nat
  isLt : val < G.1.size

theorem FElem.ext {G : GoodGF} {x y : FElem G} (h : x.val = y.val) : x = y := by
  cases x; cases y; cases h; rfl

theorem size_pos' (G : GoodGF) : 0 < G.1.size := by
  have := G.2.1.1
  omega

theorem one_lt_size (G : GoodGF) : 1 < G.1.size := by
  have := G.2.1.1
  omega

instance (G : GoodGF) : DecidableEq (FElem G) := fun x y =>
  if h : x.val = y.val then .isTrue (FElem.ext h) else .isFalse (fun hh => h (hh ▸ rfl))

instance (G : GoodGF) : Zero (FElem G) := ⟨⟨0, size_pos' G⟩⟩

instance (G : GoodGF) : One (FElem G) := ⟨⟨1, one_lt_size G⟩⟩

instance (G : GoodGF) : Add (FElem G) :=
  ⟨fun x y => ⟨x.val ^^^ y.val, G.2.2.2.2.1 _ x.isLt _ y.isLt⟩⟩

instance (G : GoodGF) : Mul (FElem G) :=
  ⟨fun x y => ⟨G.1.multiply x.val y.val, GoodField.multiply_lt_any G.2.1 _ _⟩⟩

instance (G : GoodGF) : Neg (FElem G) := ⟨fun x => x⟩

theorem FElem.add_val {G : GoodGF} (x y : FElem G) : (x + y).val = x.val ^^^ y.val := rfl

theorem FElem.mul_val {G : GoodGF} (x y : FElem G) : (x * y).val = G.1.multiply x.val y.val := rfl

theorem FElem.zero_val {G : GoodGF} : (0 : FElem G).val = 0 := rfl

theorem FElem.one_val {G : GoodGF} : (1 : FElem G).val = 1 := rfl

instance (G : GoodGF) : CommRing (FElem G) where
  nsmul := nsmulRec
  zsmul := zsmulRec
  add_assoc x y z := FElem.ext (by simp [FElem.add_val, Nat.xor_assoc])
  zero_add x := FElem.ext (by simp [FElem.add_val, FElem.zero_val])
  add_zero x := FElem.ext (by simp [FElem.add_val, FElem.zero_val])
  add_comm x y := FElem.ext (by simp [FElem.add_val, Nat.xor_comm])
  neg_add_cancel x := FElem.ext (by simp [FElem.add_val, FElem.zero_val, Nat.xor_self]; rfl)
  mul_assoc x y z := FElem.ext (by
    simp only [FElem.mul_val]
    exact GoodField.multiply_assoc G.2.1 x.isLt y.isLt z.isLt)
  one_mul x := FElem.ext (by
    simp only [FElem.mul_val, FElem.one_val]
    rw [GoodField.multiply_comm G.2.1]
    exact GoodField.multiply_one G.2.1 x.isLt)
  mul_one x := FElem.ext (by
    simp only [FElem.mul_val, FElem.one_val]
    exact GoodField.multiply_one G.2.1 x.isLt)
  mul_comm x y := FElem.ext (by
    simp only [FElem.mul_val]
    exact GoodField.multiply_comm G.2.1 _ _)
  left_distrib x y z := FElem.ext (by
    simp only [FElem.mul_val, FElem.add_val]
    exact G.2.2.2.2.2 _ x.isLt _ y.isLt _ z.isLt)
  right_distrib x y z := FElem.ext (by
    simp only [FElem.mul_val, FElem.add_val]
    rw [GoodField.multiply_comm G.2.1 (x.val ^^^ y.val) z.val,
      GoodField.multiply_comm G.2.1 x.val z.val, GoodField.multiply_comm G.2.1 y.val z.val]
    exact G.2.2.2.2.2 _ z.isLt _ x.isLt _ y.isLt)
  zero_mul x := FElem.ext (by
    simp only [FElem.mul_val, FElem.zero_val]
    exact GoodField.multiply_zero_left G.1 x.val)
  mul_zero x := FElem.ext (by
    simp only [FElem.mul_val, FElem.zero_val]
    rw [GoodField.multiply_comm G.2.1]
    exact GoodField.multiply_zero_left G.1 x.val)

instance (G : GoodGF) : Nontrivial (FElem G) :=
  ⟨⟨0, 1, fun h => by
    have := congrArg FElem.val h
    simp [FElem.zero_val, FElem.one_val] at this⟩⟩

instance (G : GoodGF) : NoZeroDivisors (FElem G) := ⟨by
  intro x y h
  have hv := congrArg FElem.val h
  simp only [FElem.mul_val, FElem.zero_val] at hv
  rcases (GoodField.multiply_eq_zero_iff G.2.1 x.val y.val).mp hv with h0 | h0
  · left; exact FElem.ext (by simp [FElem.zero_val, h0])
  · right; exact FElem.ext (by simp [FElem.zero_val, h0])⟩

instance (G : GoodGF) : IsDomain (FElem G) := NoZeroDivisors.to_isDomain _

/-- Char 2 at the level of elements: every element is its own negative. -/
theorem FElem.neg_eq {G : GoodGF} (x : FElem G) : -x = x := rfl

theorem FElem.sub_eq_add {G : GoodGF} (x y : FElem G) : x - y = x + y := by
  rw [sub_eq_add_neg, FElem.neg_eq]

/-! ## Bridge from coefficient lists to Mathlib polynomials -/

/-- Lift a symbol into the field carrier (the fallback reduction is inert on
bounded symbols). -/
def toF (G : GoodGF) (a : Nat) : FElem G := ⟨a % G.1.size, Nat.mod_lt _ (size_pos' G)⟩

theorem toF_val {G : GoodGF} {a : Nat} (h : a < G.1.size) : (toF G a).val = a := by
  unfold toF
  exact Nat.mod_eq_of_lt h

theorem toF_zero {G : GoodGF} : toF G 0 = (0 : FElem G) :=
  FElem.ext (by rw [toF_val (size_pos' G)]; rfl)

theorem toF_one {G : GoodGF} : toF G 1 = (1 : FElem G) :=
  FElem.ext (by rw [toF_val (one_lt_size G)]; rfl)

theorem toF_inj {G : GoodGF} {a b : Nat} (ha : a < G.1.size) (hb : b < G.1.size)
    (h : toF G a = toF G b) : a = b := by
  have := congrArg FElem.val h
  rwa [toF_val ha, toF_val hb] at this

theorem toF_eq_zero_iff {G : GoodGF} {a : Nat} (ha : a < G.1.size) :
    toF G a = 0 ↔ a = 0 := by
  constructor
  · intro h
    have := congrArg FElem.val h
    rwa [toF_val ha, FElem.zero_val] at this
  · intro h
    rw [h]
    exact toF_zero

theorem toF_xor {G : GoodGF} {a b : Nat} (ha : a < G.1.size) (hb : b < G.1.size) :
    toF G (a ^^^ b) = toF G a + toF G b := by
  apply FElem.ext
  rw [toF_val (G.2.2.2.2.1 _ ha _ hb), FElem.add_val, toF_val ha, toF_val hb]

theorem toF_multiply {G : GoodGF} {a b : Nat} (ha : a < G.1.size) (hb : b < G.1.size) :
    toF G (G.1.multiply a b) = toF G a * toF G b := by
  apply FElem.ext
  rw [toF_val (GoodField.multiply_lt_any G.2.1 _ _), FElem.mul_val, toF_val ha, toF_val hb]

/-- All entries of a coefficient list are field symbols. -/
def BoundedL (G : GoodGF) (l : List Nat) : Prop := ∀ x ∈ l, x < G.1.size

/-- The degree-`j` coefficient of a highest-degree-first coefficient list. -/
def revCoeff (l : List Nat) (j : Nat) : Nat := l.reverse.getD j 0

theorem revCoeff_lt {G : GoodGF} {l : List Nat} (hb : BoundedL G l) (j : Nat) :
    revCoeff l j < G.1.size := by
  unfold revCoeff
  by_cases h : j < l.reverse.length
  · rw [List.getD_eq_getElem?_getD, List.getElem?_eq_getElem h]
    exact hb _ (by
      have := List.getElem_mem h
      rwa [List.mem_reverse] at this)
  · rw [List.getD_eq_getElem?_getD, List.getElem?_eq_none (by omega)]
    simpa using size_pos' G

theorem revCoeff_of_ge {l : List Nat} {j : Nat} (h : l.length ≤ j) : revCoeff l j = 0 := by
  unfold revCoeff
  rw [List.getD_eq_getElem?_getD, List.getElem?_eq_none (by simpa using h)]
  rfl

theorem revCoeff_of_lt {l : List Nat} {j : Nat} (h : j < l.length) :
    revCoeff l j = l.getD (l.length - 1 - j) 0 := by
  unfold revCoeff
  rw [List.getD_eq_getElem?_getD, List.getD_eq_getElem?_getD]
  rw [List.getElem?_reverse (by simpa using h)]

/-- `coefficient` reads exactly the reversed-index coefficient. -/
theorem coefficient_eq_revCoeff (p : GenericGFPoly) (i : Nat) :
    p.coefficient i = revCoeff p.coefficients i := by
  unfold GenericGFPoly.coefficient
  by_cases h : i < p.coefficients.length
  · rw [if_pos h, revCoeff_of_lt h]
  · rw [if_neg h, revCoeff_of_ge (by omega)]

open Polynomial in
/-- The Mathlib polynomial of a highest-degree-first coefficient list. -/
noncomputable def toPoly (G : GoodGF) (l : List Nat) : Polynomial (FElem G) :=
  ∑ i ∈ Finset.range l.length, Polynomial.C (toF G (revCoeff l i)) * Polynomial.X ^ i

open Polynomial in
theorem toPoly_coeff (G : GoodGF) (l : List Nat) (j : Nat) :
    (toPoly G l).coeff j = toF G (revCoeff l j) := by
  unfold toPoly
  rw [Polynomial.finset_sum_coeff]
  by_cases h : j < l.length
  · rw [Finset.sum_eq_single j]
    · simp [Polynomial.coeff_C_mul, Polynomial.coeff_X_pow]
    · intro b hb hbj
      simp [Polynomial.coeff_C_mul, Polynomial.coeff_X_pow, Ne.symm hbj]
    · intro hj
      simp at hj
      omega
  · rw [revCoeff_of_ge (by omega), toF_zero]
    apply Finset.sum_eq_zero
    intro b hb
    have hbj : b ≠ j := by
      simp at hb
      omega
    simp [Polynomial.coeff_C_mul, Polynomial.coeff_X_pow, Ne.symm hbj]

theorem toPoly_eq_of_revCoeff {G : GoodGF} {l m : List Nat}
    (h : ∀ j, revCoeff l j = revCoeff m j) : toPoly G l = toPoly G m := by
  apply Polynomial.ext
  intro j
  rw [toPoly_coeff, toPoly_coeff, h j]

/-! ## Normal form, boundedness and the additive bridge -/

/-- A coefficient list already in normal form. -/
def IsNormed (l : List Nat) : Prop := normalizeCoeffs l = l

theorem isNormed_normalize (l : List Nat) : IsNormed (normalizeCoeffs l) := by
  unfold IsNormed normalizeCoeffs
  cases hd : l.dropWhile (· = 0) with
  | nil => rfl
  | cons a t =>
    have hhead := List.head?_dropWhile_not (fun x => decide (x = 0)) l
    rw [hd] at hhead
    simp only [List.head?_cons] at hhead
    have ha : ¬ a = 0 := by simpa using hhead
    simp [List.dropWhile_cons, ha]

theorem IsNormed.ne_nil {l : List Nat} (h : IsNormed l) : l ≠ [] := by
  rw [← h]
  exact normalizeCoeffs_ne_nil l

theorem IsNormed.head_ne_zero {l : List Nat} (h : IsNormed l) (hz : l ≠ [0]) :
    l.headD 0 ≠ 0 := by
  unfold IsNormed normalizeCoeffs at h
  rcases hdd : l.dropWhile (· = 0) with _ | ⟨a, t⟩
  · rw [hdd] at h
    exact absurd h.symm hz
  · rw [hdd] at h
    have hhead := List.head?_dropWhile_not (fun x => decide (x = 0)) l
    rw [hdd] at hhead
    simp only [List.head?_cons] at hhead
    have ha : ¬ a = 0 := by simpa using hhead
    rw [← h]
    simpa using ha

theorem revCoeff_all_zero {l : List Nat} (h : ∀ x ∈ l, x = 0) (j : Nat) :
    revCoeff l j = 0 := by
  by_cases hj : j < l.length
  · rw [revCoeff_of_lt hj]
    have hlt : l.length - 1 - j < l.length := by omega
    rw [List.getD_eq_getElem?_getD, List.getElem?_eq_getElem hlt]
    exact h _ (List.getElem_mem hlt)
  · exact revCoeff_of_ge (by omega)

theorem revCoeff_zero_pad {u v : List Nat} (h : ∀ x ∈ u, x = 0) (j : Nat) :
    revCoeff (u ++ v) j = revCoeff v j := by
  by_cases hj : j < v.length
  · unfold revCoeff
    rw [List.reverse_append]
    rw [List.getD_append _ _ _ _ (by simpa using hj)]
  · rw [revCoeff_of_ge (l := v) (by omega)]
    unfold revCoeff
    rw [List.reverse_append]
    rw [List.getD_append_right _ _ _ _ (by simpa using hj)]
    by_cases hh : j - v.reverse.length < u.reverse.length
    · rw [List.getD_eq_getElem?_getD, List.getElem?_eq_getElem hh]
      have hz : u.reverse[j - v.reverse.length] = 0 :=
        h _ (List.mem_reverse.mp (List.getElem_mem hh))
      simp only [Option.getD_some]
      exact hz
    · rw [List.getD_eq_getElem?_getD, List.getElem?_eq_none (by omega)]
      rfl

theorem revCoeff_normalize (l : List Nat) (j : Nat) :
    revCoeff (normalizeCoeffs l) j = revCoeff l j := by
  unfold normalizeCoeffs
  cases hd : l.dropWhile (· = 0) with
  | nil =>
    have hall : ∀ x ∈ l, x = 0 := by
      intro x hx
      simpa using List.dropWhile_eq_nil_iff.mp hd x hx
    rw [revCoeff_all_zero hall]
    exact revCoeff_all_zero (by simp) j
  | cons a t =>
    conv_rhs => rw [← List.takeWhile_append_dropWhile (fun x => decide (x = 0)) l]
    rw [hd]
    rw [revCoeff_zero_pad (fun x hx => by simpa using List.mem_takeWhile_imp hx)]

theorem toPoly_normalize (G : GoodGF) (l : List Nat) :
    toPoly G (normalizeCoeffs l) = toPoly G l :=
  toPoly_eq_of_revCoeff (revCoeff_normalize l)

theorem boundedL_normalize {G : GoodGF} {l : List Nat} (h : BoundedL G l) :
    BoundedL G (normalizeCoeffs l) := by
  intro x hx
  unfold normalizeCoeffs at hx
  rcases hdd : l.dropWhile (· = 0) with _ | ⟨a, t⟩
  · rw [hdd] at hx
    simp at hx
    rw [hx]
    exact size_pos' G
  · rw [hdd] at hx
    have hsub : x ∈ l := by
      obtain ⟨u, hu⟩ := List.dropWhile_suffix (l := l) (fun x => decide (x = 0))
      rw [hdd] at hu
      rw [← hu]
      exact List.mem_append_right _ hx
    exact h x hsub

theorem revCoeff_zipWith_xor {as bs : List Nat} (h : as.length = bs.length) (j : Nat) :
    revCoeff (List.zipWith (· ^^^ ·) as bs) j = revCoeff as j ^^^ revCoeff bs j := by
  have hlen : (List.zipWith (· ^^^ ·) as bs).length = as.length := by
    rw [List.length_zipWith]
    omega
  by_cases hj : j < as.length
  · have hidx : as.length - 1 - j < as.length := by omega
    have hidx2 : as.length - 1 - j < bs.length := by omega
    have hidx3 : as.length - 1 - j < (List.zipWith (· ^^^ ·) as bs).length := by omega
    have hbj : bs.length - 1 - j = as.length - 1 - j := by omega
    rw [revCoeff_of_lt (by omega), revCoeff_of_lt hj, revCoeff_of_lt (by omega), hlen]
    simp only [hbj, List.getD_eq_getElem?_getD, List.getElem?_eq_getElem hidx,
      List.getElem?_eq_getElem hidx2, List.getElem?_eq_getElem hidx3, List.getElem_zipWith,
      Option.getD_some]
  · rw [revCoeff_of_ge (by omega), revCoeff_of_ge (by omega), revCoeff_of_ge (by omega)]
    simp

theorem toPoly_addOrSubtract (G : GoodGF) (p q : GenericGFPoly)
    (hbp : BoundedL G p.coefficients) (hbq : BoundedL G q.coefficients) :
    toPoly G (p.addOrSubtract q).coefficients
      = toPoly G p.coefficients + toPoly G q.coefficients := by
  apply Polynomial.ext
  intro j
  rw [Polynomial.coeff_add, toPoly_coeff, toPoly_coeff, toPoly_coeff]
  show toF G (revCoeff (normalizeCoeffs _) j) = _
  rw [revCoeff_normalize]
  have hpad1 : ∀ x ∈ List.replicate
      (max p.coefficients.length q.coefficients.length - p.coefficients.length) 0, x = 0 := by
    simp
  have hpad2 : ∀ x ∈ List.replicate
      (max p.coefficients.length q.coefficients.length - q.coefficients.length) 0, x = 0 := by
    simp
  rw [revCoeff_zipWith_xor (by simp only [List.length_append, List.length_replicate]; omega)]
  rw [revCoeff_zero_pad hpad1, revCoeff_zero_pad hpad2]
  exact toF_xor (revCoeff_lt hbp j) (revCoeff_lt hbq j)

theorem boundedL_zipWith_xor {G : GoodGF} {as bs : List Nat}
    (ha : BoundedL G as) (hb : BoundedL G bs) :
    BoundedL G (List.zipWith (· ^^^ ·) as bs) := by
  intro x hx
  rw [List.mem_iff_getElem] at hx
  obtain ⟨i, hi, rfl⟩ := hx
  rw [List.getElem_zipWith]
  have hilen : i < as.length ∧ i < bs.length := by
    rw [List.length_zipWith] at hi
    omega
  exact G.2.2.2.2.1 _ (ha _ (List.getElem_mem hilen.1)) _ (hb _ (List.getElem_mem hilen.2))

theorem boundedL_append {G : GoodGF} {as bs : List Nat}
    (ha : BoundedL G as) (hb : BoundedL G bs) : BoundedL G (as ++ bs) := by
  intro x hx
  rcases List.mem_append.mp hx with h | h
  · exact ha x h
  · exact hb x h

theorem boundedL_replicate_zero {G : GoodGF} (k : Nat) :
    BoundedL G (List.replicate k 0) := by
  intro x hx
  rw [List.eq_of_mem_replicate hx]
  exact size_pos' G

theorem boundedL_addOrSubtract {G : GoodGF} {p q : GenericGFPoly}
    (hbp : BoundedL G p.coefficients) (hbq : BoundedL G q.coefficients) :
    BoundedL G (p.addOrSubtract q).coefficients := by
  apply boundedL_normalize
  apply boundedL_zipWith_xor
  · exact boundedL_append (boundedL_replicate_zero _) hbp
  · exact boundedL_append (boundedL_replicate_zero _) hbq

/-! ## The multiplicative bridge -/

theorem foldl_xor_lt (G : GoodGF) (f : Nat → Nat) (hb : ∀ i, f i < G.1.size) :
    ∀ (l : List Nat) (a : Nat), a < G.1.size →
      l.foldl (fun acc i => acc ^^^ f i) a < G.1.size := by
  intro l
  induction l with
  | nil => intro a ha; exact ha
  | cons x xs ih =>
    intro a ha
    exact ih _ (G.2.2.2.2.1 _ ha _ (hb x))

theorem toF_foldl_xor (G : GoodGF) (f : Nat → Nat) (hb : ∀ i, f i < G.1.size) (m : Nat) :
    toF G ((List.range m).foldl (fun acc i => acc ^^^ f i) 0)
      = ∑ i ∈ Finset.range m, toF G (f i) := by
  induction m with
  | zero => simpa using toF_zero
  | succ m ih =>
    rw [List.range_succ, List.foldl_concat, Finset.sum_range_succ, ← ih]
    exact toF_xor (foldl_xor_lt G f hb _ _ (size_pos' G)) (hb m)

theorem getD_lt_of_bounded {G : GoodGF} {l : List Nat} (hb : BoundedL G l) {i : Nat}
    (h : i < l.length) : l.getD i 0 < G.1.size := by
  rw [List.getD_eq_getElem?_getD, List.getElem?_eq_getElem h]
  exact hb _ (List.getElem_mem h)

theorem convolveAt_lt (G : GoodGF) (pl ql : List Nat) (k : Nat) :
    convolveAt G.1 pl ql k < G.1.size := by
  unfold convolveAt
  apply foldl_xor_lt G _ _ _ _ (size_pos' G)
  intro i
  split
  · exact GoodField.multiply_lt_any G.2.1 _ _
  · exact size_pos' G

theorem toF_convolveAt (G : GoodGF) {pl ql : List Nat} (hbp : BoundedL G pl)
    (hbq : BoundedL G ql) (k : Nat) :
    toF G (convolveAt G.1 pl ql k)
      = ∑ i ∈ Finset.range (k + 1),
          if i < pl.length ∧ k - i < ql.length
          then toF G (pl.getD i 0) * toF G (ql.getD (k - i) 0) else 0 := by
  unfold convolveAt
  rw [toF_foldl_xor G _
    (fun i => by split; exacts [GoodField.multiply_lt_any G.2.1 _ _, size_pos' G])]
  apply Finset.sum_congr rfl
  intro i hi
  rw [apply_ite (toF G)]
  split
  · next h => exact toF_multiply (getD_lt_of_bounded hbp h.1) (getD_lt_of_bounded hbq h.2)
  · exact toF_zero

theorem boundedL_multiply {G : GoodGF} (p q : GenericGFPoly) :
    BoundedL G (p.multiply G.1 q).coefficients := by
  apply boundedL_normalize
  intro x hx
  obtain ⟨i, hi, rfl⟩ := List.mem_map.mp hx
  exact convolveAt_lt G _ _ _

theorem toPoly_multiply (G : GoodGF) (p q : GenericGFPoly)
    (hbp : BoundedL G p.coefficients) (hbq : BoundedL G q.coefficients)
    (hp : p.coefficients ≠ []) (hq : q.coefficients ≠ []) :
    toPoly G (p.multiply G.1 q).coefficients
      = toPoly G p.coefficients * toPoly G q.coefficients := by
  have hlp : 0 < p.coefficients.length := List.length_pos.mpr hp
  have hlq : 0 < q.coefficients.length := List.length_pos.mpr hq
  apply Polynomial.ext
  intro j
  rw [Polynomial.coeff_mul, Finset.Nat.sum_antidiagonal_eq_sum_range_succ_mk]
  have hcoeffs : (p.multiply G.1 q).coefficients
      = normalizeCoeffs ((List.range (p.coefficients.length + q.coefficients.length - 1)).map
          (convolveAt G.1 p.coefficients q.coefficients)) := rfl
  rw [toPoly_coeff, hcoeffs, revCoeff_normalize]
  have hmaplen : ((List.range (p.coefficients.length + q.coefficients.length - 1)).map
      (convolveAt G.1 p.coefficients q.coefficients)).length
        = p.coefficients.length + q.coefficients.length - 1 := by simp
  by_cases hj : j < p.coefficients.length + q.coefficients.length - 1
  · have hidx : p.coefficients.length + q.coefficients.length - 1 - 1 - j
        < ((List.range (p.coefficients.length + q.coefficients.length - 1)).map
            (convolveAt G.1 p.coefficients q.coefficients)).length := by
      rw [hmaplen]; omega
    have hrc : revCoeff ((List.range (p.coefficients.length + q.coefficients.length - 1)).map
        (convolveAt G.1 p.coefficients q.coefficients)) j
          = convolveAt G.1 p.coefficients q.coefficients
              (p.coefficients.length + q.coefficients.length - 1 - 1 - j) := by
      rw [revCoeff_of_lt (by rw [hmaplen]; omega), hmaplen]
      rw [List.getD_eq_getElem?_getD, List.getElem?_eq_getElem hidx, List.getElem_map]
      simp [List.getElem_range]
    rw [hrc, toF_convolveAt G hbp hbq]
    have hRHS : ∀ x ∈ Finset.range (j + 1),
        (toPoly G p.coefficients).coeff x * (toPoly G q.coefficients).coeff (j - x)
          = if x < p.coefficients.length ∧ j - x < q.coefficients.length
            then toF G (revCoeff p.coefficients x) * toF G (revCoeff q.coefficients (j - x))
            else 0 := by
      intro x hx
      rw [toPoly_coeff, toPoly_coeff]
      split
      · rfl
      · next hcond =>
        rcases Decidable.not_and_iff_or_not.mp hcond with hc | hc
        · rw [revCoeff_of_ge (l := p.coefficients) (by omega), toF_zero, zero_mul]
        · rw [revCoeff_of_ge (l := q.coefficients) (by omega), toF_zero, mul_zero]
    rw [Finset.sum_congr rfl hRHS]
    rw [← Finset.sum_filter, ← Finset.sum_filter]
    refine Finset.sum_bij' (fun i _ => p.coefficients.length - 1 - i)
      (fun x _ => p.coefficients.length - 1 - x) ?_ ?_ ?_ ?_ ?_
    · intro a ha
      dsimp only
      rw [Finset.mem_filter, Finset.mem_range] at ha ⊢
      omega
    · intro a ha
      dsimp only
      rw [Finset.mem_filter, Finset.mem_range] at ha ⊢
      omega
    · intro a ha
      dsimp only
      rw [Finset.mem_filter, Finset.mem_range] at ha
      omega
    · intro a ha
      dsimp only
      rw [Finset.mem_filter, Finset.mem_range] at ha
      omega
    · intro a ha
      rw [Finset.mem_filter, Finset.mem_range] at ha
      have h1 : revCoeff p.coefficients (p.coefficients.length - 1 - a)
          = p.coefficients.getD a 0 := by
        rw [revCoeff_of_lt (by omega)]
        congr 1
        omega
      have h2 : revCoeff q.coefficients (j - (p.coefficients.length - 1 - a))
          = q.coefficients.getD
              (p.coefficients.length + q.coefficients.length - 1 - 1 - j - a) 0 := by
        rw [revCoeff_of_lt (by omega)]
        congr 1
        omega
      rw [h1, h2]
  · rw [revCoeff_of_ge (by rw [hmaplen]; omega), toF_zero]
    symm
    apply Finset.sum_eq_zero
    intro x hx
    rw [Finset.mem_range] at hx
    rw [toPoly_coeff, toPoly_coeff]
    by_cases hxp : x < p.coefficients.length
    · rw [revCoeff_of_ge (l := q.coefficients) (by omega), toF_zero, mul_zero]
    · rw [revCoeff_of_ge (l := p.coefficients) (by omega), toF_zero, zero_mul]

theorem boundedL_multiplyScalar {G : GoodGF} (p : GenericGFPoly) (s : Nat) :
    BoundedL G (p.multiplyScalar G.1 s).coefficients := by
  apply boundedL_normalize
  intro x hx
  obtain ⟨c, hc, rfl⟩ := List.mem_map.mp hx
  exact GoodField.multiply_lt_any G.2.1 _ _

theorem toPoly_multiplyScalar (G : GoodGF) (p : GenericGFPoly) (s : Nat)
    (hbp : BoundedL G p.coefficients) (hs : s < G.1.size) :
    toPoly G (p.multiplyScalar G.1 s).coefficients
      = toPoly G p.coefficients * Polynomial.C (toF G s) := by
  apply Polynomial.ext
  intro j
  rw [toPoly_coeff]
  show toF G (revCoeff (normalizeCoeffs (p.coefficients.map (fun c => G.1.multiply c s))) j) = _
  rw [revCoeff_normalize, Polynomial.coeff_mul_C, toPoly_coeff]
  by_cases hj : j < p.coefficients.length
  · have hidx : p.coefficients.length - 1 - j < p.coefficients.length := by omega
    rw [revCoeff_of_lt (by simpa using hj), revCoeff_of_lt hj]
    have hlen : (p.coefficients.map (fun c => G.1.multiply c s)).length
        = p.coefficients.length := by simp
    rw [hlen]
    rw [List.getD_eq_getElem?_getD, List.getElem?_eq_getElem (by simpa using hidx),
      List.getElem_map]
    rw [List.getD_eq_getElem?_getD, List.getElem?_eq_getElem hidx]
    simp only [Option.getD_some]
    exact toF_multiply (hbp _ (List.getElem_mem hidx)) hs
  · rw [revCoeff_of_ge (by simp only [List.length_map]; omega), revCoeff_of_ge (by omega),
      toF_zero, zero_mul]

theorem boundedL_setMonomial {G : GoodGF} (d c : Nat) (hc : c < G.1.size) :
    BoundedL G (GenericGF.setMonomial d c).coefficients := by
  apply boundedL_normalize
  intro x hx
  rcases List.mem_cons.mp hx with h | h
  · rwa [h]
  · rw [List.eq_of_mem_replicate h]
    exact size_pos' G

theorem revCoeff_monomial_list (d c j : Nat) :
    revCoeff (c :: List.replicate d 0) j = if j = d then c else 0 := by
  by_cases hj : j = d
  · subst hj
    rw [revCoeff_of_lt (by simp)]
    simp
  · rw [if_neg hj]
    by_cases hj2 : j < d
    · rw [revCoeff_of_lt (by simp; omega)]
      have hidx : (c :: List.replicate d 0).length - 1 - j = (d - j - 1) + 1 := by simp; omega
      rw [hidx, List.getD_cons_succ]
      rw [List.getD_eq_getElem?_getD, List.getElem?_replicate]
      split <;> rfl
    · rw [revCoeff_of_ge (by simp; omega)]

theorem toPoly_setMonomial (G : GoodGF) (d c : Nat) :
    toPoly G (GenericGF.setMonomial d c).coefficients
      = Polynomial.C (toF G c) * Polynomial.X ^ d := by
  apply Polynomial.ext
  intro j
  rw [toPoly_coeff]
  show toF G (revCoeff (normalizeCoeffs (c :: List.replicate d 0)) j) = _
  rw [revCoeff_normalize, Polynomial.coeff_C_mul, Polynomial.coeff_X_pow,
    revCoeff_monomial_list]
  split
  · rw [mul_one]
  · rw [toF_zero, mul_zero]

theorem toPoly_setZero (G : GoodGF) : toPoly G GenericGF.setZero.coefficients = 0 := by
  apply Polynomial.ext
  intro j
  rw [toPoly_coeff]
  show toF G (revCoeff [0] j) = _
  rw [revCoeff_all_zero (by simp), toF_zero]
  simp

theorem toPoly_setOne (G : GoodGF) : toPoly G GenericGF.setOne.coefficients = 1 := by
  apply Polynomial.ext
  intro j
  rw [toPoly_coeff]
  show toF G (revCoeff [1] j) = _
  have h1 : revCoeff ([1] : List Nat) j = if j = 0 then 1 else 0 := by
    have := revCoeff_monomial_list 0 1 j
    simpa using this
  rw [h1, apply_ite (toF G), toF_one, toF_zero, Polynomial.coeff_one]

/-! ## Degree and zero-polynomial bridges -/

theorem headD_mem {l : List Nat} (h : l ≠ []) : l.headD 0 ∈ l := by
  cases l with
  | nil => exact absurd rfl h
  | cons a t => simp

theorem toPoly_leading (G : GoodGF) {l : List Nat} (hb : BoundedL G l)
    (hne : l ≠ []) (hhead : l.headD 0 ≠ 0) :
    toPoly G l ≠ 0 ∧ (toPoly G l).natDegree = l.length - 1 ∧
      (toPoly G l).leadingCoeff = toF G (l.headD 0) := by
  have hlen : 0 < l.length := List.length_pos.mpr hne
  have hcoefftop : (toPoly G l).coeff (l.length - 1) = toF G (l.headD 0) := by
    rw [toPoly_coeff, revCoeff_of_lt (by omega)]
    have hidx : l.length - 1 - (l.length - 1) = 0 := by omega
    rw [hidx]
    cases l with
    | nil => exact absurd rfl hne
    | cons a t => rfl
  have htopne : (toPoly G l).coeff (l.length - 1) ≠ 0 := by
    rw [hcoefftop]
    rw [Ne, toF_eq_zero_iff (hb _ (headD_mem hne))]
    exact hhead
  have hle : (toPoly G l).natDegree ≤ l.length - 1 := by
    apply Polynomial.natDegree_le_iff_coeff_eq_zero.mpr
    intro m hm
    rw [toPoly_coeff, revCoeff_of_ge (by omega), toF_zero]
  have hge : l.length - 1 ≤ (toPoly G l).natDegree :=
    Polynomial.le_natDegree_of_ne_zero htopne
  have hdeg : (toPoly G l).natDegree = l.length - 1 := by omega
  refine ⟨?_, hdeg, ?_⟩
  · intro h0
    rw [h0] at htopne
    simp at htopne
  · rw [Polynomial.leadingCoeff, hdeg, hcoefftop]

theorem toPoly_zero_of_eq (G : GoodGF) {l : List Nat} (h : l = [0]) : toPoly G l = 0 := by
  rw [h]
  exact toPoly_setZero G

theorem toPoly_cases (G : GoodGF) {l : List Nat} (hn : IsNormed l) (hb : BoundedL G l) :
    (l = [0] ∧ toPoly G l = 0) ∨
    (toPoly G l ≠ 0 ∧ (toPoly G l).natDegree = l.length - 1 ∧
      (toPoly G l).leadingCoeff = toF G (l.headD 0)) := by
  by_cases h0 : l = [0]
  · exact Or.inl ⟨h0, toPoly_zero_of_eq G h0⟩
  · exact Or.inr (toPoly_leading G hb hn.ne_nil (hn.head_ne_zero h0))

theorem toPoly_ne_zero_of_head (G : GoodGF) {l : List Nat} (hn : IsNormed l)
    (hb : BoundedL G l) (h0 : l ≠ [0]) : toPoly G l ≠ 0 :=
  (toPoly_leading G hb hn.ne_nil (hn.head_ne_zero h0)).1

theorem toPoly_eq_zero_iff (G : GoodGF) {l : List Nat} (hn : IsNormed l) (hb : BoundedL G l) :
    toPoly G l = 0 ↔ l = [0] := by
  constructor
  · intro h
    by_contra h0
    exact toPoly_ne_zero_of_head G hn hb h0 h
  · exact toPoly_zero_of_eq G

theorem isZero_iff_eq {l : List Nat} (hn : IsNormed l) :
    (GenericGFPoly.isZero ⟨l⟩ = true) ↔ l = [0] := by
  unfold GenericGFPoly.isZero
  constructor
  · intro h
    simp only [beq_iff_eq] at h
    by_contra h0
    apply hn.head_ne_zero h0
    cases l with
    | nil => exact absurd rfl hn.ne_nil
    | cons a t => simpa using h
  · intro h
    rw [h]
    rfl

/-! ## The evaluation bridge -/

theorem toPoly_nil (G : GoodGF) : toPoly G [] = 0 := by
  unfold toPoly
  simp

theorem toPoly_cons (G : GoodGF) (c : Nat) (t : List Nat) :
    toPoly G (c :: t)
      = Polynomial.C (toF G c) * Polynomial.X ^ t.length + toPoly G t := by
  apply Polynomial.ext
  intro j
  rw [Polynomial.coeff_add, Polynomial.coeff_C_mul, Polynomial.coeff_X_pow,
    toPoly_coeff, toPoly_coeff]
  rcases Nat.lt_trichotomy j t.length with hj | hj | hj
  · rw [if_neg (by omega), mul_zero, zero_add]
    congr 1
    rw [revCoeff_of_lt (by simp; omega), revCoeff_of_lt hj]
    have hidx : (c :: t).length - 1 - j = (t.length - 1 - j) + 1 := by simp; omega
    rw [hidx, List.getD_cons_succ]
  · subst hj
    rw [if_pos rfl, mul_one, revCoeff_of_ge (l := t) (le_refl t.length), toF_zero, add_zero]
    rw [revCoeff_of_lt (by simp)]
    have hidx : (c :: t).length - 1 - t.length = 0 := by simp
    rw [hidx]
    rfl
  · rw [if_neg (by omega), mul_zero, zero_add, revCoeff_of_ge (by simp; omega),
      revCoeff_of_ge (by omega)]

theorem toF_eval_foldl (G : GoodGF) {x : Nat} (hx : x < G.1.size) :
    ∀ (l : List Nat), BoundedL G l → ∀ a < G.1.size,
      toF G (l.foldl (fun acc c => G.1.multiply acc x ^^^ c) a)
        = (toPoly G l).eval (toF G x) + toF G a * toF G x ^ l.length := by
  intro l
  induction l with
  | nil =>
    intro hb a ha
    simp [toPoly_nil]
  | cons c t ih =>
    intro hb a ha
    have hbt : BoundedL G t := fun y hy => hb y (List.mem_cons_of_mem _ hy)
    have hc : c < G.1.size := hb c (by simp)
    have hstep : G.1.multiply a x ^^^ c < G.1.size :=
      G.2.2.2.2.1 _ (GoodField.multiply_lt_any G.2.1 _ _) _ hc
    show toF G (t.foldl (fun acc c => G.1.multiply acc x ^^^ c) (G.1.multiply a x ^^^ c)) = _
    rw [ih hbt _ hstep]
    rw [toF_xor (GoodField.multiply_lt_any G.2.1 _ _) hc,
      toF_multiply ha hx, toPoly_cons]
    simp only [Polynomial.eval_add, Polynomial.eval_mul, Polynomial.eval_C,
      Polynomial.eval_pow, Polynomial.eval_X, List.length_cons]
    ring

theorem toF_evaluateAt (G : GoodGF) (p : GenericGFPoly) (hb : BoundedL G p.coefficients)
    {x : Nat} (hx : x < G.1.size) :
    toF G (p.evaluateAt G.1 x) = (toPoly G p.coefficients).eval (toF G x) := by
  show toF G (p.coefficients.foldl (fun acc c => G.1.multiply acc x ^^^ c) 0) = _
  rw [toF_eval_foldl G hx _ hb 0 (size_pos' G), toF_zero, zero_mul, add_zero]

/-! ## Division correctness -/

theorem polyNeg_eq {G : GoodGF} (p : Polynomial (FElem G)) : -p = p := by
  apply Polynomial.ext
  intro j
  rw [Polynomial.coeff_neg, FElem.neg_eq]

theorem poly_sub_eq_add {G : GoodGF} (p q : Polynomial (FElem G)) : p - q = p + q := by
  rw [sub_eq_add_neg, polyNeg_eq]

theorem isNormed_ofList (l : List Nat) : IsNormed (GenericGFPoly.ofList l).coefficients :=
  isNormed_normalize l

theorem isNormed_addOrSubtract (p q : GenericGFPoly) :
    IsNormed (p.addOrSubtract q).coefficients := isNormed_normalize _

theorem isNormed_multiply (gf : GenericGF) (p q : GenericGFPoly) :
    IsNormed (p.multiply gf q).coefficients := isNormed_normalize _

theorem isNormed_multiplyScalar (gf : GenericGF) (p : GenericGFPoly) (s : Nat) :
    IsNormed (p.multiplyScalar gf s).coefficients := isNormed_normalize _

theorem isNormed_setMonomial (d c : Nat) :
    IsNormed (GenericGF.setMonomial d c).coefficients := isNormed_normalize _

theorem isNormed_setZero : IsNormed (GenericGF.setZero).coefficients := by
  unfold IsNormed normalizeCoeffs GenericGF.setZero
  rfl

theorem isNormed_setOne : IsNormed (GenericGF.setOne).coefficients := by
  unfold IsNormed normalizeCoeffs GenericGF.setOne
  rfl

theorem boundedL_setZero {G : GoodGF} : BoundedL G (GenericGF.setZero).coefficients := by
  intro x hx
  have hx0 : x = 0 := by simpa [GenericGF.setZero] using hx
  rw [hx0]
  exact size_pos' G

theorem boundedL_setOne {G : GoodGF} : BoundedL G (GenericGF.setOne).coefficients := by
  intro x hx
  have hx1 : x = 1 := by simpa [GenericGF.setOne] using hx
  rw [hx1]
  exact one_lt_size G

theorem toF_mul_inverse (G : GoodGF) {a : Nat} (ha : 0 < a) (halt : a < G.1.size) :
    toF G a * toF G (G.1.inverse a) = 1 := by
  rw [← toF_multiply halt (GoodField.inverse_lt G.2.1 a), GoodField.mul_inverse G.2.1 ha halt]
  exact toF_one

theorem divideGo_zero_r (gf : GenericGF) (dv : GenericGFPoly) :
    ∀ (fuel : Nat) (q : GenericGFPoly), divideGo gf dv fuel q ⟨[0]⟩ = (q, ⟨[0]⟩) := by
  intro fuel q
  cases fuel with
  | zero => rfl
  | succ fuel =>
    show (if _ then _ else _) = _
    rw [if_pos]
    rw [Bool.or_eq_true]
    left
    rfl

theorem divideGo_spec (G : GoodGF) (dv : GenericGFPoly)
    (hdvN : IsNormed dv.coefficients) (hdvB : BoundedL G dv.coefficients)
    (hdvnz : dv.coefficients ≠ [0]) :
    ∀ (fuel : Nat) (q r : GenericGFPoly),
      IsNormed q.coefficients → BoundedL G q.coefficients →
      IsNormed r.coefficients → BoundedL G r.coefficients →
      r.degree < fuel →
      IsNormed (divideGo G.1 dv fuel q r).1.coefficients ∧
      BoundedL G (divideGo G.1 dv fuel q r).1.coefficients ∧
      IsNormed (divideGo G.1 dv fuel q r).2.coefficients ∧
      BoundedL G (divideGo G.1 dv fuel q r).2.coefficients ∧
      toPoly G (divideGo G.1 dv fuel q r).1.coefficients * toPoly G dv.coefficients
          + toPoly G (divideGo G.1 dv fuel q r).2.coefficients
        = toPoly G q.coefficients * toPoly G dv.coefficients + toPoly G r.coefficients ∧
      ((divideGo G.1 dv fuel q r).2.coefficients = [0] ∨
        (divideGo G.1 dv fuel q r).2.degree < dv.degree) := by
  have hDnz : toPoly G dv.coefficients ≠ 0 := toPoly_ne_zero_of_head G hdvN hdvB hdvnz
  have hDdeg : (toPoly G dv.coefficients).natDegree = dv.degree :=
    (toPoly_leading G hdvB hdvN.ne_nil (hdvN.head_ne_zero hdvnz)).2.1
  have hdvhead : 0 < dv.coefficients.headD 0 :=
    Nat.pos_of_ne_zero (hdvN.head_ne_zero hdvnz)
  have hdvheadlt : dv.coefficients.headD 0 < G.1.size :=
    hdvB _ (headD_mem hdvN.ne_nil)
  intro fuel
  induction fuel with
  | zero =>
    intro q r _ _ _ _ hfuel
    omega
  | succ fuel ih =>
    intro q r hqN hqB hrN hrB hfuel
    simp only [divideGo]
    by_cases hstop : (GenericGFPoly.isZero r || decide (r.degree < dv.degree)) = true
    · rw [if_pos hstop]
      refine ⟨hqN, hqB, hrN, hrB, rfl, ?_⟩
      rcases Bool.or_eq_true_iff.mp hstop with h | h
      · exact Or.inl ((isZero_iff_eq hrN).mp h)
      · exact Or.inr (of_decide_eq_true h)
    · rw [if_neg hstop]
      rw [Bool.or_eq_true_iff] at hstop
      push_neg at hstop
      have hrnz : r.coefficients ≠ [0] := by
        intro h0
        exact hstop.1 ((isZero_iff_eq hrN).mpr h0)
      have hdge : dv.degree ≤ r.degree := by
        have h2 := hstop.2
        by_contra hc
        exact h2 (by simp; omega)
      have hrhead : 0 < r.coefficients.headD 0 :=
        Nat.pos_of_ne_zero (hrN.head_ne_zero hrnz)
      have hrheadlt : r.coefficients.headD 0 < G.1.size :=
        hrB _ (headD_mem hrN.ne_nil)
      have hRnz : toPoly G r.coefficients ≠ 0 := toPoly_ne_zero_of_head G hrN hrB hrnz
      have hRdeg : (toPoly G r.coefficients).natDegree = r.degree :=
        (toPoly_leading G hrB hrN.ne_nil (hrN.head_ne_zero hrnz)).2.1
      -- the cancellation step
      set shift := r.degree - dv.degree with hshift
      set scale := G.1.multiply (r.coefficients.headD 0)
        (G.1.inverse (dv.coefficients.headD 0)) with hscale
      have hscalepos : 0 < scale := GoodField.multiply_pos G.2.1 hrhead
        (GoodField.inverse_pos G.2.1 _)
      have hscalelt : scale < G.1.size := GoodField.multiply_lt_any G.2.1 _ _
      have hscaleF : toF G scale ≠ 0 := by
        rw [Ne, toF_eq_zero_iff hscalelt]
        omega
      have hTpoly : toPoly G (GenericGF.setMonomial shift scale).coefficients
          = Polynomial.C (toF G scale) * Polynomial.X ^ shift := toPoly_setMonomial G _ _
      have hTne : Polynomial.C (toF G scale) * Polynomial.X ^ shift ≠ 0 :=
        mul_ne_zero (Polynomial.C_ne_zero.mpr hscaleF) (pow_ne_zero _ Polynomial.X_ne_zero)
      have hDTpoly : toPoly G ((dv.multiply G.1 (GenericGF.setMonomial shift scale)).coefficients)
          = toPoly G dv.coefficients * (Polynomial.C (toF G scale) * Polynomial.X ^ shift) := by
        rw [toPoly_multiply G dv _ hdvB (boundedL_setMonomial _ _ hscalelt) hdvN.ne_nil
          (isNormed_setMonomial shift scale).ne_nil, hTpoly]
      have hDTne : toPoly G dv.coefficients * (Polynomial.C (toF G scale) * Polynomial.X ^ shift)
          ≠ 0 := mul_ne_zero hDnz hTne
      have hDTdeg : (toPoly G dv.coefficients
          * (Polynomial.C (toF G scale) * Polynomial.X ^ shift)).natDegree
            = (toPoly G r.coefficients).natDegree := by
        rw [Polynomial.natDegree_mul hDnz hTne, Polynomial.natDegree_C_mul_X_pow _ _ hscaleF,
          hDdeg, hRdeg]
        omega
      have hleadDT : (toPoly G dv.coefficients
          * (Polynomial.C (toF G scale) * Polynomial.X ^ shift)).leadingCoeff
            = (toPoly G r.coefficients).leadingCoeff := by
        rw [Polynomial.leadingCoeff_mul, Polynomial.leadingCoeff_mul]
        rw [(toPoly_leading G hdvB hdvN.ne_nil (hdvN.head_ne_zero hdvnz)).2.2,
          (toPoly_leading G hrB hrN.ne_nil (hrN.head_ne_zero hrnz)).2.2]
        rw [Polynomial.leadingCoeff_C, Polynomial.leadingCoeff_X_pow, mul_one]
        rw [hscale, toF_multiply hrheadlt (GoodField.inverse_lt G.2.1 _)]
        rw [← mul_assoc, mul_comm (toF G (dv.coefficients.headD 0)),
          mul_assoc, toF_mul_inverse G hdvhead hdvheadlt, mul_one]
      have hsub : (toPoly G r.coefficients
          - toPoly G dv.coefficients * (Polynomial.C (toF G scale) * Polynomial.X ^ shift)).degree
            < (toPoly G r.coefficients).degree := by
        apply Polynomial.degree_sub_lt _ hRnz hleadDT.symm
        rw [Polynomial.degree_eq_natDegree hRnz, Polynomial.degree_eq_natDegree hDTne, hDTdeg]
      have hnewpoly : toPoly G ((r.addOrSubtract
          (dv.multiply G.1 (GenericGF.setMonomial shift scale))).coefficients)
            = toPoly G r.coefficients
              - toPoly G dv.coefficients * (Polynomial.C (toF G scale) * Polynomial.X ^ shift) := by
        rw [toPoly_addOrSubtract G _ _ hrB (boundedL_multiply _ _), hDTpoly, poly_sub_eq_add]
      have hnewN : IsNormed ((r.addOrSubtract
          (dv.multiply G.1 (GenericGF.setMonomial shift scale))).coefficients) :=
        isNormed_addOrSubtract _ _
      have hnewB : BoundedL G ((r.addOrSubtract
          (dv.multiply G.1 (GenericGF.setMonomial shift scale))).coefficients) :=
        boundedL_addOrSubtract hrB (boundedL_multiply _ _)
      have hqN2 : IsNormed ((q.addOrSubtract (GenericGF.setMonomial shift scale)).coefficients) :=
        isNormed_addOrSubtract _ _
      have hqB2 : BoundedL G ((q.addOrSubtract (GenericGF.setMonomial shift scale)).coefficients) :=
        boundedL_addOrSubtract hqB (boundedL_setMonomial _ _ hscalelt)
      have hq2poly : toPoly G ((q.addOrSubtract (GenericGF.setMonomial shift scale)).coefficients)
          = toPoly G q.coefficients + Polynomial.C (toF G scale) * Polynomial.X ^ shift := by
        rw [toPoly_addOrSubtract G _ _ hqB (boundedL_setMonomial _ _ hscalelt), hTpoly]
      by_cases hzero : (r.addOrSubtract
          (dv.multiply G.1 (GenericGF.setMonomial shift scale))).coefficients = [0]
      · have hr2 : r.addOrSubtract (dv.multiply G.1 (GenericGF.setMonomial shift scale))
            = ⟨[0]⟩ := by
          cases hh : r.addOrSubtract (dv.multiply G.1 (GenericGF.setMonomial shift scale))
          rw [hh] at hzero
          simpa using hzero
        rw [hr2, divideGo_zero_r]
        refine ⟨hqN2, hqB2, isNormed_setZero, boundedL_setZero, ?_, Or.inl rfl⟩
        show toPoly G _ * _ + toPoly G ([0] : List Nat) = _
        have hRzero : toPoly G r.coefficients
            - toPoly G dv.coefficients * (Polynomial.C (toF G scale) * Polynomial.X ^ shift)
              = 0 := by
          rw [← hnewpoly, hr2]
          exact toPoly_zero_of_eq G rfl
        rw [toPoly_zero_of_eq G rfl, hq2poly]
        have h3 := sub_eq_zero.mp hRzero
        rw [add_zero, add_mul, h3]
        ring
      · have hr2nz : toPoly G ((r.addOrSubtract
            (dv.multiply G.1 (GenericGF.setMonomial shift scale))).coefficients) ≠ 0 :=
          toPoly_ne_zero_of_head G hnewN hnewB hzero
        have hdeglt : (r.addOrSubtract
            (dv.multiply G.1 (GenericGF.setMonomial shift scale))).degree < r.degree := by
          have h1 : (toPoly G ((r.addOrSubtract
              (dv.multiply G.1 (GenericGF.setMonomial shift scale))).coefficients)).natDegree
                < (toPoly G r.coefficients).natDegree := by
            apply Polynomial.natDegree_lt_natDegree hr2nz
            rw [hnewpoly]
            exact hsub
          rw [hRdeg] at h1
          have h2 := (toPoly_leading G hnewB hnewN.ne_nil (hnewN.head_ne_zero hzero)).2.1
          show (r.addOrSubtract _).coefficients.length - 1 < _
          omega
        have ihres := ih (q.addOrSubtract (GenericGF.setMonomial shift scale))
          (r.addOrSubtract (dv.multiply G.1 (GenericGF.setMonomial shift scale)))
          hqN2 hqB2 hnewN hnewB (by omega)
        refine ⟨ihres.1, ihres.2.1, ihres.2.2.1, ihres.2.2.2.1, ?_, ihres.2.2.2.2.2⟩
        rw [ihres.2.2.2.2.1, hq2poly, hnewpoly]
        ring

theorem divide_spec (G : GoodGF) (p dv : GenericGFPoly)
    (hpN : IsNormed p.coefficients) (hpB : BoundedL G p.coefficients)
    (hdvN : IsNormed dv.coefficients) (hdvB : BoundedL G dv.coefficients)
    (hdvnz : dv.coefficients ≠ [0]) :
    IsNormed (p.divide G.1 dv).1.coefficients ∧
    BoundedL G (p.divide G.1 dv).1.coefficients ∧
    IsNormed (p.divide G.1 dv).2.coefficients ∧
    BoundedL G (p.divide G.1 dv).2.coefficients ∧
    toPoly G (p.divide G.1 dv).1.coefficients * toPoly G dv.coefficients
        + toPoly G (p.divide G.1 dv).2.coefficients = toPoly G p.coefficients ∧
    ((p.divide G.1 dv).2.coefficients = [0] ∨ (p.divide G.1 dv).2.degree < dv.degree) := by
  have h := divideGo_spec G dv hdvN hdvB hdvnz (p.degree + 1) GenericGF.setZero p
    isNormed_setZero boundedL_setZero hpN hpB (by omega)
  unfold GenericGFPoly.divide
  refine ⟨h.1, h.2.1, h.2.2.1, h.2.2.2.1, ?_, h.2.2.2.2.2⟩
  rw [h.2.2.2.2.1, toPoly_setZero G, zero_mul, zero_add]

theorem poly_add_self {G : GoodGF} (p : Polynomial (FElem G)) : p + p = 0 := by
  rw [← poly_sub_eq_add, sub_self]

theorem poly_two_eq_zero {G : GoodGF} : (2 : Polynomial (FElem G)) = 0 := by
  have h := poly_add_self (1 : Polynomial (FElem G))
  rwa [one_add_one_eq_two] at h

theorem char2_rem {G : GoodGF} (RL Qp Rp REMp : Polynomial (FElem G))
    (h : Qp * Rp + REMp = RL) : REMp = RL + Qp * Rp := by
  rw [← h]
  linear_combination (-(Qp * Rp)) * poly_two_eq_zero

theorem char2_bezout_next {G : GoodGF} (Qp u uLast T TL : Polynomial (FElem G))
    (hA3 : uLast * T + u * TL = 1) :
    u * (Qp * T + TL) + (Qp * u + uLast) * T = 1 := by
  rw [← hA3]
  linear_combination (u * Qp * T) * poly_two_eq_zero

theorem natDegree_eq_list_degree (G : GoodGF) {p : GenericGFPoly}
    (hn : IsNormed p.coefficients) (hb : BoundedL G p.coefficients)
    (hnz : p.coefficients ≠ [0]) :
    (toPoly G p.coefficients).natDegree = p.degree :=
  (toPoly_leading G hb hn.ne_nil (hn.head_ne_zero hnz)).2.1

/-! ## The Euclidean loop invariant -/

/-- The data maintained through the Euclidean loop of `RunEuclideanAlgorithm`:
normal form and boundedness of the four polynomials, the exact Bezout-style
identities against `x^R` and the syndrome polynomial `S` with ghost cofactors
`uLast`, `u`, the unimodularity of the transformation, and the exact degree
bookkeeping. -/
def EuclidInv (G : GoodGF) (R : Nat) (S : Polynomial (FElem G))
    (tLast t rLast r : GenericGFPoly) : Prop :=
  IsNormed tLast.coefficients ∧ BoundedL G tLast.coefficients ∧
  IsNormed t.coefficients ∧ BoundedL G t.coefficients ∧
  IsNormed rLast.coefficients ∧ BoundedL G rLast.coefficients ∧
  IsNormed r.coefficients ∧ BoundedL G r.coefficients ∧
  toPoly G rLast.coefficients ≠ 0 ∧
  toPoly G t.coefficients ≠ 0 ∧
  (toPoly G t.coefficients).natDegree + (toPoly G rLast.coefficients).natDegree = R ∧
  R / 2 ≤ (toPoly G rLast.coefficients).natDegree ∧
  (toPoly G r.coefficients).natDegree < (toPoly G rLast.coefficients).natDegree ∧
  (toPoly G tLast.coefficients = 0 ∨
    (toPoly G tLast.coefficients).natDegree < (toPoly G t.coefficients).natDegree) ∧
  ∃ uLast u : Polynomial (FElem G),
    uLast * Polynomial.X ^ R + toPoly G tLast.coefficients * S = toPoly G rLast.coefficients ∧
    u * Polynomial.X ^ R + toPoly G t.coefficients * S = toPoly G r.coefficients ∧
    uLast * toPoly G t.coefficients + u * toPoly G tLast.coefficients = 1

/-- What holds of the loop outputs `t` (σ-tilde) and `r` (ω-tilde): the key
congruence against `S` with a Bezout certificate tying `t` to its cofactor,
and the degree bounds of the classical argument. -/
def EuclidExit (G : GoodGF) (R : Nat) (S : Polynomial (FElem G)) (t r : GenericGFPoly) : Prop :=
  IsNormed t.coefficients ∧ BoundedL G t.coefficients ∧
  IsNormed r.coefficients ∧ BoundedL G r.coefficients ∧
  toPoly G t.coefficients ≠ 0 ∧
  (toPoly G t.coefficients).natDegree ≤ R - R / 2 ∧
  r.degree < R / 2 ∧
  (toPoly G r.coefficients = 0 ∨ (toPoly G r.coefficients).natDegree < R / 2) ∧
  ∃ u a b : Polynomial (FElem G),
    u * Polynomial.X ^ R + toPoly G t.coefficients * S = toPoly G r.coefficients ∧
    a * toPoly G t.coefficients + b * u = 1

set_option maxHeartbeats 1000000 in
theorem euclidLoopGo_invariant (G : GoodGF) (R : Nat) (hR : 2 ≤ R) (S : Polynomial (FElem G)) :
    ∀ (fuel : Nat) (tLast t rLast r : GenericGFPoly),
      EuclidInv G R S tLast t rLast r →
      r.degree < fuel →
      ∃ t' r', euclidLoopGo G.1 R fuel tLast t rLast r = Except.ok (.done t' r') ∧
        EuclidExit G R S t' r' := by
  intro fuel
  induction fuel with
  | zero =>
    intro tLast t rLast r _ hfuel
    omega
  | succ fuel ih =>
    intro tLast t rLast r hinv hfuel
    obtain ⟨ntL, btL, nt, bt, nrL, brL, nr, br, hRLnz, hTnz, hdegsum, hRLge, hRlt, htLcase,
      uLast, u, hA1, hA2, hA3⟩ := hinv
    simp only [euclidLoopGo]
    by_cases hexit : r.degree < R / 2
    · rw [if_pos hexit]
      refine ⟨t, r, rfl, nt, bt, nr, br, hTnz, by omega, hexit, ?_,
        u, uLast, toPoly G tLast.coefficients, hA2, by rw [← hA3]; ring⟩
      by_cases hrz : r.coefficients = [0]
      · exact Or.inl (toPoly_zero_of_eq G hrz)
      · right
        rw [natDegree_eq_list_degree G nr br hrz]
        exact hexit
    · rw [if_neg hexit]
      have hhalf : 1 ≤ R / 2 := by omega
      have hrdeg : R / 2 ≤ r.degree := by omega
      have hrnz : r.coefficients ≠ [0] := by
        intro h0
        have hd0 : r.degree = 0 := by
          show r.coefficients.length - 1 = 0
          rw [h0]
          rfl
        omega
      rw [if_neg (fun hc => hrnz ((isZero_iff_eq nr).mp hc))]
      have hRpnz : toPoly G r.coefficients ≠ 0 := toPoly_ne_zero_of_head G nr br hrnz
      have hRpdeg : (toPoly G r.coefficients).natDegree = r.degree :=
        natDegree_eq_list_degree G nr br hrnz
      have hdiv := divide_spec G rLast r nrL brL nr br hrnz
      have hremlt : (GenericGFPoly.divide G.1 rLast r).2.degree < r.degree := by
        rcases hdiv.2.2.2.2.2 with h0 | hlt
        · have hz : (GenericGFPoly.divide G.1 rLast r).2.degree = 0 := by
            show (GenericGFPoly.divide G.1 rLast r).2.coefficients.length - 1 = 0
            rw [h0]
            rfl
          omega
        · exact hlt
      rw [if_neg (by omega)]
      -- abstract names
      have hQN := hdiv.1
      have hQB := hdiv.2.1
      have hRemN := hdiv.2.2.1
      have hRemB := hdiv.2.2.2.1
      have hdivid := hdiv.2.2.2.2.1
      -- properties of the quotient
      have hQnz : toPoly G (GenericGFPoly.divide G.1 rLast r).1.coefficients ≠ 0 := by
        intro h0
        rw [h0, zero_mul, zero_add] at hdivid
        rcases hdiv.2.2.2.2.2 with hc | hc
        · rw [toPoly_zero_of_eq G hc] at hdivid
          exact hRLnz hdivid.symm
        · have h1 : (toPoly G (GenericGFPoly.divide G.1 rLast r).2.coefficients).natDegree
              < (toPoly G rLast.coefficients).natDegree := by
            by_cases hz : (GenericGFPoly.divide G.1 rLast r).2.coefficients = [0]
            · rw [toPoly_zero_of_eq G hz, Polynomial.natDegree_zero]
              omega
            · rw [natDegree_eq_list_degree G hRemN hRemB hz]
              omega
          rw [hdivid] at h1
          omega
      have hREMdeglt : (toPoly G (GenericGFPoly.divide G.1 rLast r).2.coefficients).natDegree
          < (toPoly G r.coefficients).natDegree := by
        by_cases hz : (GenericGFPoly.divide G.1 rLast r).2.coefficients = [0]
        · rw [toPoly_zero_of_eq G hz, Polynomial.natDegree_zero]
          omega
        · rw [natDegree_eq_list_degree G hRemN hRemB hz, hRpdeg]
          exact hremlt
      have hQRdeg : ((toPoly G (GenericGFPoly.divide G.1 rLast r).1.coefficients)
          * toPoly G r.coefficients).natDegree
            = (toPoly G (GenericGFPoly.divide G.1 rLast r).1.coefficients).natDegree
              + (toPoly G r.coefficients).natDegree :=
        Polynomial.natDegree_mul hQnz hRpnz
      have hRLeq : (toPoly G rLast.coefficients).natDegree
          = (toPoly G (GenericGFPoly.divide G.1 rLast r).1.coefficients).natDegree
            + (toPoly G r.coefficients).natDegree := by
        rw [← hdivid, Polynomial.natDegree_add_eq_left_of_natDegree_lt (by omega), hQRdeg]
      have hQdeg1 : 1 ≤ (toPoly G (GenericGFPoly.divide G.1 rLast r).1.coefficients).natDegree := by
        omega
      -- the new t
      have hTNpoly : toPoly G (((GenericGFPoly.divide G.1 rLast r).1.multiply G.1 t).addOrSubtract
          tLast).coefficients
            = toPoly G (GenericGFPoly.divide G.1 rLast r).1.coefficients
                * toPoly G t.coefficients
              + toPoly G tLast.coefficients := by
        rw [toPoly_addOrSubtract G _ _ (boundedL_multiply _ _) btL,
          toPoly_multiply G _ _ hQB bt hQN.ne_nil nt.ne_nil]
      have hQTdeg : ((toPoly G (GenericGFPoly.divide G.1 rLast r).1.coefficients)
          * toPoly G t.coefficients).natDegree
            = (toPoly G (GenericGFPoly.divide G.1 rLast r).1.coefficients).natDegree
              + (toPoly G t.coefficients).natDegree :=
        Polynomial.natDegree_mul hQnz hTnz
      have hQTnz : (toPoly G (GenericGFPoly.divide G.1 rLast r).1.coefficients)
          * toPoly G t.coefficients ≠ 0 := mul_ne_zero hQnz hTnz
      have hTNdeg : (toPoly G (((GenericGFPoly.divide G.1 rLast r).1.multiply G.1 t).addOrSubtract
          tLast).coefficients).natDegree
            = (toPoly G (GenericGFPoly.divide G.1 rLast r).1.coefficients).natDegree
              + (toPoly G t.coefficients).natDegree := by
        rw [hTNpoly]
        rcases htLcase with h0 | hlt
        · rw [h0, add_zero, hQTdeg]
        · rw [Polynomial.natDegree_add_eq_left_of_natDegree_lt (by omega), hQTdeg]
      have hTNnz : toPoly G (((GenericGFPoly.divide G.1 rLast r).1.multiply G.1 t).addOrSubtract
          tLast).coefficients ≠ 0 := by
        intro h0
        rw [h0, Polynomial.natDegree_zero] at hTNdeg
        omega
      -- the identity defining the new remainder
      have hREMpoly : toPoly G (GenericGFPoly.divide G.1 rLast r).2.coefficients
          = toPoly G rLast.coefficients
            + toPoly G (GenericGFPoly.divide G.1 rLast r).1.coefficients
              * toPoly G r.coefficients :=
        char2_rem _ _ _ _ hdivid
      -- recurse
      have hinv2 : EuclidInv G R S t
          (((GenericGFPoly.divide G.1 rLast r).1.multiply G.1 t).addOrSubtract tLast)
          r (GenericGFPoly.divide G.1 rLast r).2 := by
        refine ⟨nt, bt, isNormed_addOrSubtract _ _,
          boundedL_addOrSubtract (boundedL_multiply _ _) btL, nr, br, hRemN, hRemB,
          hRpnz, hTNnz, ?_, ?_, ?_, ?_, ?_⟩
        · rw [hTNdeg, hRpdeg]
          omega
        · rw [hRpdeg]
          omega
        · omega
        · right
          rw [hTNdeg]
          omega
        · refine ⟨u, (toPoly G (GenericGFPoly.divide G.1 rLast r).1.coefficients) * u + uLast,
            hA2, ?_, ?_⟩
          · rw [hTNpoly, hREMpoly, ← hA1, ← hA2]
            ring
          · rw [hTNpoly]
            exact char2_bezout_next _ _ _ _ _ hA3
      have hfuel2 : (GenericGFPoly.divide G.1 rLast r).2.degree < fuel := by omega
      exact ih t (((GenericGFPoly.divide G.1 rLast r).1.multiply G.1 t).addOrSubtract tLast)
        r (GenericGFPoly.divide G.1 rLast r).2 hinv2 hfuel2

/-! ## The field structure of the bundled carrier -/

instance (G : GoodGF) : Inv (FElem G) :=
  ⟨fun x => if x.val = 0 then 0 else ⟨G.1.inverse x.val, GoodField.inverse_lt G.2.1 x.val⟩⟩

theorem FElem.val_ne_zero {G : GoodGF} {x : FElem G} (hx : x ≠ 0) : x.val ≠ 0 := by
  intro h0
  exact hx (FElem.ext (by rw [h0, FElem.zero_val]))

theorem FElem.inv_val {G : GoodGF} (x : FElem G) (hx : x ≠ 0) :
    (x⁻¹).val = G.1.inverse x.val := by
  show (if x.val = 0 then (0 : FElem G) else ⟨G.1.inverse x.val, _⟩).val = _
  rw [if_neg (FElem.val_ne_zero hx)]

instance (G : GoodGF) : Field (FElem G) :=
  { (inferInstance : CommRing (FElem G)) with
    inv := Inv.inv
    exists_pair_ne := ⟨0, 1, fun h => by
      have := congrArg FElem.val h
      simp [FElem.zero_val, FElem.one_val] at this⟩
    mul_inv_cancel := fun a ha => FElem.ext (by
      rw [FElem.mul_val, FElem.inv_val a ha, FElem.one_val]
      exact GoodField.mul_inverse G.2.1 (Nat.pos_of_ne_zero (FElem.val_ne_zero ha)) a.isLt)
    inv_zero := FElem.ext (by
      show (if (0 : FElem G).val = 0 then (0 : FElem G) else _).val = _
      rw [if_pos (FElem.zero_val)])
    nnqsmul := _
    qsmul := _ }

theorem toF_inverse {G : GoodGF} {a : Nat} (ha : 0 < a) (hlt : a < G.1.size) :
    toF G (G.1.inverse a) = (toF G a)⁻¹ := by
  apply FElem.ext
  rw [toF_val (GoodField.inverse_lt G.2.1 a),
    FElem.inv_val _ (fun h => by rw [(toF_eq_zero_iff hlt).mp h] at ha; omega), toF_val hlt]

/-- The field element `alpha^j` of the table exponential. -/
def Xe (G : GoodGF) (j : Nat) : FElem G := toF G (G.1.exp j)

theorem Xe_ne_zero (G : GoodGF) (j : Nat) : Xe G j ≠ 0 := by
  intro h
  have := (toF_eq_zero_iff (GoodField.exp_lt G.2.1 j)).mp h
  have := GoodField.exp_pos G.2.1 j
  omega

theorem Xe_zero (G : GoodGF) : Xe G 0 = 1 := by
  unfold Xe
  rw [GoodField.exp_zero G.2.1, toF_one]

theorem Xe_add (G : GoodGF) (u v : Nat) : Xe G (u + v) = Xe G u * Xe G v := by
  apply FElem.ext
  rw [FElem.mul_val]
  unfold Xe
  rw [toF_val (GoodField.exp_lt G.2.1 _), toF_val (GoodField.exp_lt G.2.1 _),
    toF_val (GoodField.exp_lt G.2.1 _)]
  rw [GoodField.multiply_pos_eq (GoodField.exp_pos G.2.1 u) (GoodField.exp_pos G.2.1 v)]
  rw [GoodField.log_exp G.2.1 u, GoodField.log_exp G.2.1 v]
  rw [← GoodField.exp_mod G.2.1 (u % (G.1.size - 1) + v % (G.1.size - 1)),
    ← Nat.add_mod, GoodField.exp_mod G.2.1 (u + v)]

theorem Xe_mul (G : GoodGF) (j : Nat) : ∀ i : Nat, Xe G (j * i) = Xe G j ^ i := by
  intro i
  induction i with
  | zero => rw [Nat.mul_zero, Xe_zero, pow_zero]
  | succ i ih => rw [Nat.mul_succ, Xe_add, ih, pow_succ]

theorem Xe_inj (G : GoodGF) {j k : Nat} (hj : j < G.1.size - 1) (hk : k < G.1.size - 1)
    (h : Xe G j = Xe G k) : j = k := by
  have he : G.1.exp j = G.1.exp k :=
    toF_inj (GoodField.exp_lt G.2.1 j) (GoodField.exp_lt G.2.1 k) h
  have := GoodField.exp_inj G.2.1 he
  rwa [Nat.mod_eq_of_lt hj, Nat.mod_eq_of_lt hk] at this

/-! ## Coprimality helpers and the uniqueness of the key-equation solution -/

open Polynomial in
theorem isCoprime_X_sub_C_of_eval_ne {G : GoodGF} (a : FElem G) (q : Polynomial (FElem G))
    (h : q.eval a ≠ 0) : IsCoprime (X - C a) q :=
  (irreducible_X_sub_C a).coprime_iff_not_dvd.mpr (fun hd => h ((dvd_iff_isRoot).mp hd))

open Polynomial in
theorem isCoprime_C_left {G : GoodGF} {a : FElem G} (ha : a ≠ 0) (q : Polynomial (FElem G)) :
    IsCoprime (C a) q :=
  ⟨C a⁻¹, 0, by rw [zero_mul, add_zero, ← C_mul, inv_mul_cancel₀ ha, map_one]⟩

open Polynomial in
theorem linear_factor_eq {G : GoodGF} {a : FElem G} (ha : a ≠ 0) :
    (1 : Polynomial (FElem G)) + C a * X = C a * (X - C a⁻¹) := by
  rw [mul_sub, ← C_mul, mul_inv_cancel₀ ha, map_one, poly_sub_eq_add, add_comm]

open Polynomial in
theorem isCoprime_linear_factor {G : GoodGF} {a : FElem G} (ha : a ≠ 0)
    {q : Polynomial (FElem G)} (h : q.eval a⁻¹ ≠ 0) :
    IsCoprime ((1 : Polynomial (FElem G)) + C a * X) q := by
  rw [linear_factor_eq ha]
  exact IsCoprime.mul_left (isCoprime_C_left ha q) (isCoprime_X_sub_C_of_eval_ne _ _ h)

open Polynomial in
theorem linear_factor_ne_zero {G : GoodGF} {a : FElem G} (ha : a ≠ 0) :
    (1 : Polynomial (FElem G)) + C a * X ≠ 0 := by
  rw [linear_factor_eq ha]
  exact mul_ne_zero (C_ne_zero.mpr ha) (X_sub_C_ne_zero a⁻¹)

open Polynomial in
theorem linear_factor_natDegree {G : GoodGF} {a : FElem G} (ha : a ≠ 0) :
    ((1 : Polynomial (FElem G)) + C a * X).natDegree = 1 := by
  rw [linear_factor_eq ha, natDegree_mul (C_ne_zero.mpr ha) (X_sub_C_ne_zero a⁻¹),
    natDegree_C, natDegree_X_sub_C]

open Polynomial in
/-- Uniqueness of solutions of the key equation: any pair `(T, Rp)` satisfying
the degree bounds, the congruence against `x^R` with cofactor `u`, and a Bezout
certificate tying `T` to `u`, is a constant multiple of the reference pair
`(sigma, omega)` when the latter is coprime and satisfies the same congruence. -/
theorem key_uniqueness (G : GoodGF) (R : Nat)
    (S sigma omega D T Rp u A B : Polynomial (FElem G))
    (hkey : D * X ^ R + sigma * S = omega)
    (hTkey : u * X ^ R + T * S = Rp)
    (hBez : A * T + B * u = 1)
    (hsnz : sigma ≠ 0)
    (hsdeg : sigma.natDegree ≤ R / 2)
    (hodeg : omega.natDegree < R / 2)
    (hTdeg : T.natDegree ≤ R - R / 2)
    (hRpdeg : Rp = 0 ∨ Rp.natDegree < R / 2)
    (hR : 2 ≤ R)
    (hcop : IsCoprime sigma omega) :
    ∃ c : FElem G, c ≠ 0 ∧ T = C c * sigma ∧ Rp = C c * omega := by
  have hhalf : 1 ≤ R / 2 := by omega
  have h1 : (sigma * u + T * D) * X ^ R = sigma * Rp + T * omega := by
    linear_combination sigma * hTkey + T * hkey - sigma * T * S * poly_two_eq_zero
  have hdegR : sigma * Rp + T * omega = 0 := by
    by_contra hne
    have b1 : (sigma * Rp).natDegree < R := by
      rcases hRpdeg with h0 | h0
      · rw [h0, mul_zero, natDegree_zero]
        omega
      · have := natDegree_mul_le (p := sigma) (q := Rp)
        omega
    have b2 : (T * omega).natDegree < R := by
      have := natDegree_mul_le (p := T) (q := omega)
      omega
    have hlt : (sigma * Rp + T * omega).natDegree < R :=
      lt_of_le_of_lt (natDegree_add_le _ _) (by omega)
    have hfac : sigma * u + T * D ≠ 0 := by
      intro h0
      rw [← h1, h0, zero_mul] at hne
      exact hne rfl
    have : ((sigma * u + T * D) * X ^ R).natDegree = (sigma * u + T * D).natDegree + R := by
      rw [natDegree_mul hfac (pow_ne_zero R X_ne_zero), natDegree_X_pow]
    rw [← h1] at hlt
    omega
  have h2 : sigma * Rp = T * omega := by
    linear_combination hdegR - T * omega * poly_two_eq_zero
  have h3 : sigma * u + T * D = 0 := by
    rcases mul_eq_zero.mp (h1.trans hdegR) with h0 | h0
    · exact h0
    · exact absurd h0 (pow_ne_zero R X_ne_zero)
  have hsdvd : sigma ∣ T := hcop.dvd_of_dvd_mul_right ⟨Rp, h2.symm⟩
  obtain ⟨h, hh⟩ := hsdvd
  have hu : u = h * D := by
    have hσu : sigma * u = sigma * (h * D) := by
      rw [hh] at h3
      linear_combination h3 - sigma * h * D * poly_two_eq_zero
    exact mul_left_cancel₀ hsnz hσu
  have hunit : IsUnit h := by
    apply isUnit_of_mul_eq_one h (A * sigma + B * D)
    rw [hh, hu] at hBez
    linear_combination hBez
  obtain ⟨r, hr, hrh⟩ := Polynomial.isUnit_iff.mp hunit
  refine ⟨r, fun h0 => by simp [h0] at hr, ?_, ?_⟩
  · rw [hh, ← hrh]
    ring
  · have : sigma * Rp = sigma * (C r * omega) := by
      rw [h2, hh, ← hrh]
      ring
    exact mul_left_cancel₀ hsnz this

/-! ## The reference error-locator and error-evaluator polynomials

For error exponents `J` with locator values `Xf j` and weighted deltas `d j`,
the classical polynomials of the Reed-Solomon key equation. -/

open Polynomial in
/-- The reference error locator `prod (1 + Xf j x)`. -/
noncomputable def sigmaStar (G : GoodGF) (J : Finset Nat) (Xf : Nat → FElem G) :
    Polynomial (FElem G) :=
  ∏ j ∈ J, (1 + C (Xf j) * X)

open Polynomial in
/-- The reference error evaluator. -/
noncomputable def omegaStar (G : GoodGF) (J : Finset Nat) (Xf d : Nat → FElem G) :
    Polynomial (FElem G) :=
  ∑ j ∈ J, C (d j) * ∏ k ∈ J.erase j, (1 + C (Xf k) * X)

open Polynomial in
/-- The cofactor of `x^R` in the key equation. -/
noncomputable def keyCofactor (G : GoodGF) (J : Finset Nat) (Xf d : Nat → FElem G) (R : Nat) :
    Polynomial (FElem G) :=
  ∑ j ∈ J, C (d j * Xf j ^ R) * ∏ k ∈ J.erase j, (1 + C (Xf k) * X)

open Polynomial in
/-- The syndrome polynomial with coefficients `sum_j (d j) (Xf j)^i`. -/
noncomputable def synPoly (G : GoodGF) (J : Finset Nat) (Xf d : Nat → FElem G) (R : Nat) :
    Polynomial (FElem G) :=
  ∑ i ∈ Finset.range R, C (∑ j ∈ J, d j * Xf j ^ i) * X ^ i

open Polynomial in
theorem sigmaStar_mul_synPoly (G : GoodGF) (J : Finset Nat) (Xf d : Nat → FElem G) (R : Nat) :
    sigmaStar G J Xf * synPoly G J Xf d R
      = keyCofactor G J Xf d R * X ^ R + omegaStar G J Xf d := by
  unfold sigmaStar synPoly keyCofactor omegaStar
  have hsyn : (∑ i ∈ Finset.range R, C (∑ j ∈ J, d j * Xf j ^ i) * X ^ i)
      = ∑ j ∈ J, C (d j) * ∑ i ∈ Finset.range R, (C (Xf j) * X) ^ i := by
    calc (∑ i ∈ Finset.range R, C (∑ j ∈ J, d j * Xf j ^ i) * X ^ i)
        = ∑ i ∈ Finset.range R, ∑ j ∈ J, C (d j) * (C (Xf j) * X) ^ i := by
          refine Finset.sum_congr rfl (fun i _ => ?_)
          rw [map_sum, Finset.sum_mul]
          refine Finset.sum_congr rfl (fun j _ => ?_)
          rw [mul_pow, ← C_pow, C_mul]
          ring
      _ = ∑ j ∈ J, ∑ i ∈ Finset.range R, C (d j) * (C (Xf j) * X) ^ i := Finset.sum_comm
      _ = ∑ j ∈ J, C (d j) * ∑ i ∈ Finset.range R, (C (Xf j) * X) ^ i := by
          refine Finset.sum_congr rfl (fun j _ => ?_)
          rw [Finset.mul_sum]
  rw [hsyn, Finset.mul_sum]
  have hgeom : ∀ j : Nat, ((1 : Polynomial (FElem G)) + C (Xf j) * X)
      * (∑ i ∈ Finset.range R, (C (Xf j) * X) ^ i) = (C (Xf j) * X) ^ R + 1 := by
    intro j
    have h := geom_sum_mul (C (Xf j) * X) R
    rw [poly_sub_eq_add, poly_sub_eq_add] at h
    linear_combination h
  calc (∑ j ∈ J, (∏ k ∈ J, (1 + C (Xf k) * X)) * (C (d j) * ∑ i ∈ Finset.range R, (C (Xf j) * X) ^ i))
      = ∑ j ∈ J, (C (d j * Xf j ^ R) * (∏ k ∈ J.erase j, (1 + C (Xf k) * X)) * X ^ R
          + C (d j) * ∏ k ∈ J.erase j, (1 + C (Xf k) * X)) := by
        refine Finset.sum_congr rfl (fun j hj => ?_)
        rw [← Finset.mul_prod_erase J _ hj]
        have hassoc : ((1 + C (Xf j) * X) * ∏ k ∈ J.erase j, (1 + C (Xf k) * X))
            * (C (d j) * ∑ i ∈ Finset.range R, (C (Xf j) * X) ^ i)
            = C (d j) * ((∏ k ∈ J.erase j, (1 + C (Xf k) * X))
              * ((1 + C (Xf j) * X) * ∑ i ∈ Finset.range R, (C (Xf j) * X) ^ i)) := by
          ring
        rw [hassoc, hgeom j, C_mul, C_pow, mul_pow]
        ring
    _ = (∑ j ∈ J, C (d j * Xf j ^ R) * ∏ k ∈ J.erase j, (1 + C (Xf k) * X)) * X ^ R
        + ∑ j ∈ J, C (d j) * ∏ k ∈ J.erase j, (1 + C (Xf k) * X) := by
        rw [Finset.sum_add_distrib, Finset.sum_mul]

open Polynomial in
/-- The key equation of Reed-Solomon decoding, in characteristic 2. -/
theorem key_equation (G : GoodGF) (J : Finset Nat) (Xf d : Nat → FElem G) (R : Nat) :
    keyCofactor G J Xf d R * X ^ R + sigmaStar G J Xf * synPoly G J Xf d R
      = omegaStar G J Xf d := by
  rw [sigmaStar_mul_synPoly, ← add_assoc, poly_add_self, zero_add]

theorem sigmaStar_ne_zero (G : GoodGF) (J : Finset Nat) (Xf : Nat → FElem G)
    (hX : ∀ j ∈ J, Xf j ≠ 0) : sigmaStar G J Xf ≠ 0 :=
  Finset.prod_ne_zero_iff.mpr (fun j hj => linear_factor_ne_zero (hX j hj))

theorem sigmaStar_natDegree (G : GoodGF) (J : Finset Nat) (Xf : Nat → FElem G)
    (hX : ∀ j ∈ J, Xf j ≠ 0) : (sigmaStar G J Xf).natDegree = J.card := by
  unfold sigmaStar
  rw [Polynomial.natDegree_prod _ _ (fun j hj => linear_factor_ne_zero (hX j hj))]
  rw [Finset.sum_congr rfl (fun j hj => linear_factor_natDegree (hX j hj))]
  simp

open Polynomial in
theorem sigmaStar_coeff_zero (G : GoodGF) (J : Finset Nat) (Xf : Nat → FElem G) :
    (sigmaStar G J Xf).coeff 0 = 1 := by
  unfold sigmaStar
  rw [Polynomial.coeff_zero_eq_eval_zero, Polynomial.eval_prod]
  refine Finset.prod_eq_one (fun j hj => ?_)
  simp

open Polynomial in
theorem sigmaStar_eval (G : GoodGF) (J : Finset Nat) (Xf : Nat → FElem G) (y : FElem G) :
    (sigmaStar G J Xf).eval y = ∏ j ∈ J, (1 + Xf j * y) := by
  unfold sigmaStar
  rw [Polynomial.eval_prod]
  refine Finset.prod_congr rfl (fun j _ => ?_)
  simp

theorem FElem.add_self {G : GoodGF} (x : FElem G) : x + x = 0 := by
  rw [← FElem.sub_eq_add, sub_self]

theorem one_add_eq_zero_iff {G : GoodGF} (t : FElem G) : (1 : FElem G) + t = 0 ↔ t = 1 := by
  rw [add_eq_zero_iff_eq_neg, FElem.neg_eq]
  exact eq_comm

theorem sigmaStar_eval_eq_zero_iff (G : GoodGF) (J : Finset Nat) (Xf : Nat → FElem G)
    (hX : ∀ j ∈ J, Xf j ≠ 0) (y : FElem G) :
    (sigmaStar G J Xf).eval y = 0 ↔ ∃ j ∈ J, y = (Xf j)⁻¹ := by
  rw [sigmaStar_eval, Finset.prod_eq_zero_iff]
  constructor
  · rintro ⟨j, hj, hz⟩
    refine ⟨j, hj, ?_⟩
    have h1 := (one_add_eq_zero_iff _).mp hz
    have := congrArg (fun t => (Xf j)⁻¹ * t) h1
    simp only at this
    rwa [← mul_assoc, inv_mul_cancel₀ (hX j hj), one_mul, mul_one] at this
  · rintro ⟨j, hj, hy⟩
    refine ⟨j, hj, ?_⟩
    rw [hy, one_add_eq_zero_iff]
    exact mul_inv_cancel₀ (hX j hj)

open Polynomial in
theorem omegaStar_eval (G : GoodGF) (J : Finset Nat) (Xf d : Nat → FElem G) (y : FElem G) :
    (omegaStar G J Xf d).eval y = ∑ j ∈ J, d j * ∏ k ∈ J.erase j, (1 + Xf k * y) := by
  unfold omegaStar
  rw [Polynomial.eval_finset_sum]
  refine Finset.sum_congr rfl (fun j _ => ?_)
  rw [Polynomial.eval_mul, Polynomial.eval_C, Polynomial.eval_prod]
  congr 1
  refine Finset.prod_congr rfl (fun k _ => ?_)
  simp

theorem omegaStar_eval_at_root (G : GoodGF) (J : Finset Nat) (Xf d : Nat → FElem G)
    (hX : ∀ j ∈ J, Xf j ≠ 0) {j : Nat} (hj : j ∈ J) :
    (omegaStar G J Xf d).eval ((Xf j)⁻¹)
      = d j * ∏ k ∈ J.erase j, (1 + Xf k * (Xf j)⁻¹) := by
  rw [omegaStar_eval, Finset.sum_eq_single j]
  · intro k hk hkj
    have hjmem : j ∈ J.erase k := Finset.mem_erase.mpr ⟨fun h => hkj h.symm, hj⟩
    rw [Finset.prod_eq_zero hjmem (by
      rw [mul_inv_cancel₀ (hX j hj)]
      exact (one_add_eq_zero_iff 1).mpr rfl), mul_zero]
  · intro h
    exact absurd hj h

theorem omegaStar_eval_at_root_ne_zero (G : GoodGF) (J : Finset Nat) (Xf d : Nat → FElem G)
    (hX : ∀ j ∈ J, Xf j ≠ 0) (hd : ∀ j ∈ J, d j ≠ 0)
    (hinj : ∀ j ∈ J, ∀ k ∈ J, Xf j = Xf k → j = k) {j : Nat} (hj : j ∈ J) :
    (omegaStar G J Xf d).eval ((Xf j)⁻¹) ≠ 0 := by
  rw [omegaStar_eval_at_root G J Xf d hX hj]
  refine mul_ne_zero (hd j hj) (Finset.prod_ne_zero_iff.mpr (fun k hk => ?_))
  intro h0
  have h1 := (one_add_eq_zero_iff _).mp h0
  have h2 : Xf k = Xf j := by
    have := congrArg (fun t => t * Xf j) h1
    simp only at this
    rwa [mul_assoc, inv_mul_cancel₀ (hX j hj), mul_one, one_mul] at this
  have := hinj k (Finset.mem_of_mem_erase hk) j hj h2
  exact (Finset.mem_erase.mp hk).1 this

theorem omegaStar_natDegree_lt (G : GoodGF) (J : Finset Nat) (Xf d : Nat → FElem G)
    {b : Nat} (hcard : J.card ≤ b) (hb : 1 ≤ b) : (omegaStar G J Xf d).natDegree < b := by
  unfold omegaStar
  have h : (∑ j ∈ J, Polynomial.C (d j)
      * ∏ k ∈ J.erase j, (1 + Polynomial.C (Xf k) * Polynomial.X)).natDegree ≤ b - 1 := by
    apply Polynomial.natDegree_sum_le_of_forall_le
    intro j hj
    refine le_trans (Polynomial.natDegree_mul_le) ?_
    rw [Polynomial.natDegree_C]
    refine le_trans (le_of_eq (Nat.zero_add _)) ?_
    refine le_trans (Polynomial.natDegree_prod_le _ _) ?_
    have hle : ∀ k ∈ J.erase j,
        ((1 : Polynomial (FElem G)) + Polynomial.C (Xf k) * Polynomial.X).natDegree ≤ 1 := by
      intro k _
      refine le_trans (Polynomial.natDegree_add_le _ _) ?_
      have h2 : (Polynomial.C (Xf k) * Polynomial.X :
          Polynomial (FElem G)).natDegree ≤ 1 := by
        refine le_trans (Polynomial.natDegree_mul_le) ?_
        simp
      simp only [Polynomial.natDegree_one]
      omega
    refine le_trans (Finset.sum_le_sum hle) ?_
    rw [Finset.sum_const, smul_eq_mul, mul_one, Finset.card_erase_of_mem hj]
    omega
  omega

/-! ## The Euclidean algorithm meets its exit specification -/

theorem setMonomial_one_coefficients (d : Nat) :
    (GenericGF.setMonomial d 1).coefficients = 1 :: List.replicate d 0 := by
  show normalizeCoeffs (1 :: List.replicate d 0) = _
  unfold normalizeCoeffs
  rw [List.dropWhile_cons]
  simp

theorem ofList_degree_lt {l : List Nat} {R : Nat} (hR : 1 ≤ R) (hlen : l.length ≤ R) :
    (GenericGFPoly.ofList l).degree < R := by
  show (normalizeCoeffs l).length - 1 < R
  unfold normalizeCoeffs
  cases hdw : l.dropWhile (· = 0) with
  | nil => simp; omega
  | cons a t =>
    have hsuf : (a :: t).IsSuffix l := by
      rw [← hdw]
      exact List.dropWhile_suffix _
    have hle := hsuf.length_le
    simp at hle ⊢
    omega

theorem RunEuclideanAlgorithm_spec (G : GoodGF) (rCoefs : List Nat) (R : Nat)
    (hR : 2 ≤ R) (hb : BoundedL G rCoefs)
    (hdeg : (GenericGFPoly.ofList rCoefs).degree < R) :
    ∃ t r, RunEuclideanAlgorithm G.1 rCoefs R = .ok (euclidFinish G.1 t r) ∧
      EuclidExit G R (toPoly G rCoefs) t r := by
  have hmono : (GenericGF.setMonomial R 1).degree = R := by
    show (GenericGF.setMonomial R 1).coefficients.length - 1 = R
    rw [setMonomial_one_coefficients]
    simp
  have hinit : euclidInit rCoefs R = (GenericGF.setMonomial R 1, GenericGFPoly.ofList rCoefs) := by
    unfold euclidInit
    rw [if_neg (by rw [hmono]; omega)]
  have hXR : toPoly G (GenericGF.setMonomial R 1).coefficients
      = Polynomial.X ^ R := by
    rw [toPoly_setMonomial, toF_one, map_one, one_mul]
  have hS : toPoly G (GenericGFPoly.ofList rCoefs).coefficients = toPoly G rCoefs := by
    show toPoly G (normalizeCoeffs rCoefs) = toPoly G rCoefs
    exact toPoly_normalize G rCoefs
  have hofB : BoundedL G (GenericGFPoly.ofList rCoefs).coefficients := boundedL_normalize hb
  have hofN : IsNormed (GenericGFPoly.ofList rCoefs).coefficients := isNormed_ofList rCoefs
  have hinv : EuclidInv G R (toPoly G rCoefs) GenericGF.setZero GenericGF.setOne
      (GenericGF.setMonomial R 1) (GenericGFPoly.ofList rCoefs) := by
    refine ⟨isNormed_setZero, boundedL_setZero, isNormed_setOne, boundedL_setOne,
      isNormed_setMonomial R 1, boundedL_setMonomial R 1 (one_lt_size G),
      hofN, hofB, ?_, ?_, ?_, ?_, ?_, ?_, 1, 0, ?_, ?_, ?_⟩
    · rw [hXR]
      exact pow_ne_zero R Polynomial.X_ne_zero
    · rw [toPoly_setOne]
      exact one_ne_zero
    · rw [toPoly_setOne, hXR, Polynomial.natDegree_one, Polynomial.natDegree_X_pow]
      omega
    · rw [hXR, Polynomial.natDegree_X_pow]
      omega
    · rw [hXR, Polynomial.natDegree_X_pow]
      by_cases h0 : (GenericGFPoly.ofList rCoefs).coefficients = [0]
      · rw [toPoly_zero_of_eq G h0, Polynomial.natDegree_zero]
        omega
      · rw [natDegree_eq_list_degree G hofN hofB h0]
        omega
    · exact Or.inl (toPoly_setZero G)
    · rw [toPoly_setZero, hXR]
      ring
    · rw [toPoly_setOne, hS]
      ring
    · rw [toPoly_setZero, toPoly_setOne]
      ring
  obtain ⟨t', r', hloop, hexit⟩ := euclidLoopGo_invariant G R hR (toPoly G rCoefs)
    (max (euclidInit rCoefs R).1.degree (euclidInit rCoefs R).2.degree + 1)
    GenericGF.setZero GenericGF.setOne (euclidInit rCoefs R).1 (euclidInit rCoefs R).2
    (by rw [hinit]; exact hinv)
    (Nat.lt_succ_of_le (le_max_right _ _))
  exact ⟨t', r', RunEuclideanAlgorithm_done G.1 rCoefs R t' r' hloop, hexit⟩

/-! ## The round-trip scenario: corrupted positions and their deltas -/

/-- The list indices at which the received buffer differs from the codeword. -/
def errorIndices (received c : List Nat) : List Nat :=
  (List.range c.length).filter (fun i => received.getD i 0 ≠ c.getD i 0)

/-- The corrupted positions as polynomial exponents (reversed indices). -/
def errExps (received c : List Nat) : Finset Nat :=
  ((errorIndices received c).map (fun i => c.length - 1 - i)).toFinset

/-- The field delta at the corrupted exponent `j`. -/
def deltaF (G : GoodGF) (received c : List Nat) (j : Nat) : FElem G :=
  toF G (received.getD (c.length - 1 - j) 0 ^^^ c.getD (c.length - 1 - j) 0)

/-- The syndrome-weighted delta `delta_j * alpha^(j b)`. -/
noncomputable def wdelta (G : GoodGF) (received c : List Nat) (j : Nat) : FElem G :=
  deltaF G received c j * Xe G j ^ G.1.generatorBase

theorem mem_errExps {received c : List Nat} {j : Nat} :
    j ∈ errExps received c ↔ j < c.length ∧
      received.getD (c.length - 1 - j) 0 ≠ c.getD (c.length - 1 - j) 0 := by
  unfold errExps errorIndices
  rw [List.mem_toFinset, List.mem_map]
  constructor
  · rintro ⟨i, hi, rfl⟩
    rw [List.mem_filter] at hi
    obtain ⟨hr, hp⟩ := hi
    rw [List.mem_range] at hr
    have hci : c.length - 1 - (c.length - 1 - i) = i := by omega
    rw [hci]
    refine ⟨by omega, by simpa using hp⟩
  · rintro ⟨hj, hp⟩
    refine ⟨c.length - 1 - j, ?_, by omega⟩
    rw [List.mem_filter, List.mem_range]
    exact ⟨by omega, by simpa using hp⟩

theorem errExps_card (received c : List Nat) :
    (errExps received c).card = (errorIndices received c).length := by
  unfold errExps
  rw [List.toFinset_card_of_nodup, List.length_map]
  apply List.Nodup.map_on
  · intro x hx y hy hxy
    have hx' := List.mem_range.mp (List.mem_of_mem_filter hx)
    have hy' := List.mem_range.mp (List.mem_of_mem_filter hy)
    omega
  · exact List.Nodup.filter _ (List.nodup_range _)

theorem errExps_lt {received c : List Nat} {j : Nat} (h : j ∈ errExps received c) :
    j < c.length := (mem_errExps.mp h).1

theorem deltaF_ne_zero {G : GoodGF} {received c : List Nat}
    (hlen2 : received.length = c.length) (hbr : BoundedL G received) (hbc : BoundedL G c)
    {j : Nat} (hj : j ∈ errExps received c) : deltaF G received c j ≠ 0 := by
  obtain ⟨hjn, hne⟩ := mem_errExps.mp hj
  unfold deltaF
  have hrb : received.getD (c.length - 1 - j) 0 < G.1.size :=
    getD_lt_of_bounded hbr (by omega)
  have hcb : c.getD (c.length - 1 - j) 0 < G.1.size :=
    getD_lt_of_bounded hbc (by omega)
  have hxlt : received.getD (c.length - 1 - j) 0 ^^^ c.getD (c.length - 1 - j) 0 < G.1.size :=
    G.2.2.2.2.1 _ hrb _ hcb
  rw [Ne, toF_eq_zero_iff hxlt]
  intro h0
  exact hne (Nat.xor_eq_zero.mp h0)

theorem wdelta_ne_zero {G : GoodGF} {received c : List Nat}
    (hlen2 : received.length = c.length) (hbr : BoundedL G received) (hbc : BoundedL G c)
    {j : Nat} (hj : j ∈ errExps received c) : wdelta G received c j ≠ 0 :=
  mul_ne_zero (deltaF_ne_zero hlen2 hbr hbc hj) (pow_ne_zero _ (Xe_ne_zero G j))

theorem char2_add_cancel {G : GoodGF} (a b : FElem G) : b + (a + b) = a := by
  rw [add_comm a b, ← add_assoc, FElem.add_self, zero_add]

open Polynomial in
theorem errorPoly_decomp (G : GoodGF) (received c : List Nat)
    (hlen2 : received.length = c.length)
    (hbr : BoundedL G received) (hbc : BoundedL G c) :
    toPoly G received = toPoly G c
      + ∑ j ∈ errExps received c, C (deltaF G received c j) * X ^ j := by
  apply Polynomial.ext
  intro k
  rw [Polynomial.coeff_add, toPoly_coeff, toPoly_coeff, Polynomial.finset_sum_coeff]
  have hsum : (∑ j ∈ errExps received c, (C (deltaF G received c j) * X ^ j).coeff k)
      = if k ∈ errExps received c then deltaF G received c k else 0 := by
    by_cases hk : k ∈ errExps received c
    · rw [if_pos hk, Finset.sum_eq_single k]
      · simp [Polynomial.coeff_C_mul, Polynomial.coeff_X_pow]
      · intro b hb hbk
        simp [Polynomial.coeff_C_mul, Polynomial.coeff_X_pow, Ne.symm hbk]
      · intro h
        exact absurd hk h
    · rw [if_neg hk]
      apply Finset.sum_eq_zero
      intro b hb
      have hbk : b ≠ k := fun h => hk (h ▸ hb)
      simp [Polynomial.coeff_C_mul, Polynomial.coeff_X_pow, Ne.symm hbk]
  rw [hsum]
  by_cases hk : k < c.length
  · rw [revCoeff_of_lt (by rw [hlen2]; exact hk), revCoeff_of_lt hk, hlen2]
    by_cases hmem : k ∈ errExps received c
    · rw [if_pos hmem]
      unfold deltaF
      have hrb : received.getD (c.length - 1 - k) 0 < G.1.size :=
        getD_lt_of_bounded hbr (by omega)
      have hcb : c.getD (c.length - 1 - k) 0 < G.1.size :=
        getD_lt_of_bounded hbc (by omega)
      rw [toF_xor hrb hcb]
      exact (char2_add_cancel _ _).symm
    · rw [if_neg hmem, add_zero]
      have heq : received.getD (c.length - 1 - k) 0 = c.getD (c.length - 1 - k) 0 := by
        by_contra hne
        exact hmem (mem_errExps.mpr ⟨hk, hne⟩)
      rw [heq]
  · rw [revCoeff_of_ge (by omega), revCoeff_of_ge (by omega)]
    have hmem : k ∉ errExps received c := fun h => hk (errExps_lt h)
    rw [if_neg hmem, toF_zero, add_zero]

theorem boundedL_ofList {G : GoodGF} {l : List Nat} (h : BoundedL G l) :
    BoundedL G (GenericGFPoly.ofList l).coefficients :=
  boundedL_normalize h

theorem evaluateAt_lt (G : GoodGF) (p : GenericGFPoly) (hb : BoundedL G p.coefficients)
    (x : Nat) : p.evaluateAt G.1 x < G.1.size := by
  show p.coefficients.foldl (fun acc c => G.1.multiply acc x ^^^ c) 0 < G.1.size
  have hgen : ∀ l : List Nat, BoundedL G l → ∀ a, a < G.1.size →
      l.foldl (fun acc c => G.1.multiply acc x ^^^ c) a < G.1.size := by
    intro l
    induction l with
    | nil =>
      intro _ a ha
      exact ha
    | cons cc t ih =>
      intro hbl a ha
      exact ih (fun y hy => hbl y (List.mem_cons_of_mem _ hy)) _
        (G.2.2.2.2.1 _ (GoodField.multiply_lt_any G.2.1 _ _) _ (hbl cc (by simp)))
  exact hgen _ hb 0 (size_pos' G)

theorem boundedL_syndromes (G : GoodGF) (received : List Nat) (twoS : Nat)
    (hbr : BoundedL G received) :
    BoundedL G ((syndromeEvals G.1 received twoS).reverse) := by
  intro x hx
  rw [List.mem_reverse] at hx
  unfold syndromeEvals at hx
  obtain ⟨i, _, rfl⟩ := List.mem_map.mp hx
  exact evaluateAt_lt G _ (boundedL_ofList hbr) _

theorem syndrome_toF (G : GoodGF) (received c : List Nat) (twoS : Nat)
    (hlen2 : received.length = c.length)
    (hbr : BoundedL G received) (hbc : BoundedL G c)
    (hsynd : ∀ i < twoS,
      (GenericGFPoly.ofList c).evaluateAt G.1 (G.1.exp (i + G.1.generatorBase)) = 0)
    (i : Nat) (hi : i < twoS) :
    toF G ((GenericGFPoly.ofList received).evaluateAt G.1 (G.1.exp (i + G.1.generatorBase)))
      = ∑ j ∈ errExps received c, wdelta G received c j * Xe G j ^ i := by
  have hx : G.1.exp (i + G.1.generatorBase) < G.1.size := GoodField.exp_lt G.2.1 _
  rw [toF_evaluateAt G _ (boundedL_ofList hbr) hx]
  have h1 : toPoly G (GenericGFPoly.ofList received).coefficients = toPoly G received :=
    toPoly_normalize G received
  rw [h1, errorPoly_decomp G received c hlen2 hbr hbc, Polynomial.eval_add]
  have hc0 : (toPoly G c).eval (toF G (G.1.exp (i + G.1.generatorBase))) = 0 := by
    have h2 : toPoly G (GenericGFPoly.ofList c).coefficients = toPoly G c :=
      toPoly_normalize G c
    rw [← h2, ← toF_evaluateAt G _ (boundedL_ofList hbc) hx, hsynd i hi, toF_zero]
  rw [hc0, zero_add, Polynomial.eval_finset_sum]
  refine Finset.sum_congr rfl (fun j hj => ?_)
  rw [Polynomial.eval_mul, Polynomial.eval_C, Polynomial.eval_pow, Polynomial.eval_X]
  show deltaF G received c j * Xe G (i + G.1.generatorBase) ^ j
    = wdelta G received c j * Xe G j ^ i
  rw [← Xe_mul G (i + G.1.generatorBase) j]
  have harith : (i + G.1.generatorBase) * j = j * i + j * G.1.generatorBase := by ring
  rw [harith, Xe_add, Xe_mul, Xe_mul]
  unfold wdelta
  ring

theorem toPoly_syndromeCoefficients (G : GoodGF) (received c : List Nat) (twoS : Nat)
    (hlen2 : received.length = c.length)
    (hbr : BoundedL G received) (hbc : BoundedL G c)
    (hsynd : ∀ i < twoS,
      (GenericGFPoly.ofList c).evaluateAt G.1 (G.1.exp (i + G.1.generatorBase)) = 0) :
    toPoly G ((syndromeEvals G.1 received twoS).reverse)
      = synPoly G (errExps received c) (Xe G) (wdelta G received c) twoS := by
  unfold toPoly synPoly
  have hlen : ((syndromeEvals G.1 received twoS).reverse).length = twoS := by
    unfold syndromeEvals
    simp
  rw [hlen]
  refine Finset.sum_congr rfl (fun i hi => ?_)
  have hi' := Finset.mem_range.mp hi
  have hrev : revCoeff ((syndromeEvals G.1 received twoS).reverse) i
      = (syndromeEvals G.1 received twoS).getD i 0 := by
    unfold revCoeff
    rw [List.reverse_reverse]
  have hgd : (syndromeEvals G.1 received twoS).getD i 0
      = (GenericGFPoly.ofList received).evaluateAt G.1 (G.1.exp (i + G.1.generatorBase)) := by
    unfold syndromeEvals
    rw [List.getD_eq_getElem?_getD, List.getElem?_map, List.getElem?_range hi']
    rfl
  rw [hrev, hgd, syndrome_toF G received c twoS hlen2 hbr hbc hsynd i hi']

set_option maxHeartbeats 1000000 in
open Polynomial in
/-- Under the round-trip hypotheses (at least one error, at most `twoS/2`),
the Euclidean algorithm succeeds and produces exactly the reference locator
and evaluator polynomials. -/
theorem euclid_sigma_omega (G : GoodGF) (received c : List Nat) (twoS : Nat)
    (hlen2 : received.length = c.length) (hn : c.length ≤ G.1.size - 1)
    (hbr : BoundedL G received) (hbc : BoundedL G c)
    (hsynd : ∀ i < twoS,
      (GenericGFPoly.ofList c).evaluateAt G.1 (G.1.exp (i + G.1.generatorBase)) = 0)
    (herr : (errorIndices received c).length ≤ twoS / 2)
    (hepos : 1 ≤ (errorIndices received c).length) :
    ∃ sigma omega : GenericGFPoly,
      RunEuclideanAlgorithm G.1 ((syndromeEvals G.1 received twoS).reverse) twoS
        = .ok (.NoError, sigma, omega) ∧
      IsNormed sigma.coefficients ∧ BoundedL G sigma.coefficients ∧
      IsNormed omega.coefficients ∧ BoundedL G omega.coefficients ∧
      toPoly G sigma.coefficients = sigmaStar G (errExps received c) (Xe G) ∧
      toPoly G omega.coefficients
        = omegaStar G (errExps received c) (Xe G) (wdelta G received c) := by
  have hR2 : 2 ≤ twoS := by omega
  have hscb : BoundedL G ((syndromeEvals G.1 received twoS).reverse) :=
    boundedL_syndromes G received twoS hbr
  have hsclen : ((syndromeEvals G.1 received twoS).reverse).length = twoS := by
    unfold syndromeEvals
    simp
  have hdegS : (GenericGFPoly.ofList ((syndromeEvals G.1 received twoS).reverse)).degree
      < twoS := ofList_degree_lt (by omega) (by omega)
  obtain ⟨t, r, hrun, ntN, ntB, nrN, nrB, hTnz, hTdeg, hrdegl, hRpz, u, A, B, hTkey, hBez⟩ :=
    RunEuclideanAlgorithm_spec G ((syndromeEvals G.1 received twoS).reverse) twoS hR2 hscb hdegS
  have hSsyn : toPoly G ((syndromeEvals G.1 received twoS).reverse)
      = synPoly G (errExps received c) (Xe G) (wdelta G received c) twoS :=
    toPoly_syndromeCoefficients G received c twoS hlen2 hbr hbc hsynd
  have hkey := key_equation G (errExps received c) (Xe G) (wdelta G received c) twoS
  rw [← hSsyn] at hkey
  have hXne : ∀ j ∈ errExps received c, Xe G j ≠ 0 := fun j _ => Xe_ne_zero G j
  have hcard : (errExps received c).card ≤ twoS / 2 := by
    rw [errExps_card]
    exact herr
  have hcard1 : 1 ≤ (errExps received c).card := by
    rw [errExps_card]
    exact hepos
  have hsnz := sigmaStar_ne_zero G (errExps received c) (Xe G) hXne
  have hsdeg : (sigmaStar G (errExps received c) (Xe G)).natDegree ≤ twoS / 2 := by
    rw [sigmaStar_natDegree G (errExps received c) (Xe G) hXne]
    omega
  have hodeg := omegaStar_natDegree_lt G (errExps received c) (Xe G) (wdelta G received c)
    hcard (by omega)
  have hinj : ∀ j ∈ errExps received c, ∀ k ∈ errExps received c, Xe G j = Xe G k → j = k := by
    intro j hj k hk h
    exact Xe_inj G (by have := errExps_lt hj; omega) (by have := errExps_lt hk; omega) h
  have hdne : ∀ j ∈ errExps received c, wdelta G received c j ≠ 0 :=
    fun j hj => wdelta_ne_zero hlen2 hbr hbc hj
  have hcop : IsCoprime (sigmaStar G (errExps received c) (Xe G))
      (omegaStar G (errExps received c) (Xe G) (wdelta G received c)) := by
    unfold sigmaStar
    exact IsCoprime.prod_left (fun j hj => isCoprime_linear_factor (hXne j hj)
      (omegaStar_eval_at_root_ne_zero G (errExps received c) (Xe G) (wdelta G received c)
        hXne hdne hinj hj))
  obtain ⟨c0, hc0ne, hTeq, hReq⟩ := key_uniqueness G twoS
    (toPoly G ((syndromeEvals G.1 received twoS).reverse))
    (sigmaStar G (errExps received c) (Xe G))
    (omegaStar G (errExps received c) (Xe G) (wdelta G received c))
    (keyCofactor G (errExps received c) (Xe G) (wdelta G received c) twoS)
    (toPoly G t.coefficients) (toPoly G r.coefficients)
    u A B hkey hTkey hBez hsnz hsdeg hodeg hTdeg hRpz hR2 hcop
  have hc0coeff : toF G (t.coefficient 0) = c0 := by
    rw [coefficient_eq_revCoeff, ← toPoly_coeff, hTeq, Polynomial.coeff_C_mul,
      sigmaStar_coeff_zero, mul_one]
  have htc0ne : t.coefficient 0 ≠ 0 := by
    intro h0
    rw [h0] at hc0coeff
    exact hc0ne (by rw [← hc0coeff, toF_zero])
  have htc0lt : t.coefficient 0 < G.1.size := by
    rw [coefficient_eq_revCoeff]
    exact revCoeff_lt ntB 0
  have hinvlt : G.1.inverse (t.coefficient 0) < G.1.size := GoodField.inverse_lt G.2.1 _
  have hCinv : Polynomial.C c0 * Polynomial.C c0⁻¹ = (1 : Polynomial (FElem G)) := by
    rw [← map_mul, mul_inv_cancel₀ hc0ne, map_one]
  rw [euclidFinish_of_ne_zero G.1 t r htc0ne] at hrun
  refine ⟨_, _, hrun, isNormed_multiplyScalar _ _ _, boundedL_multiplyScalar _ _,
    isNormed_multiplyScalar _ _ _, boundedL_multiplyScalar _ _, ?_, ?_⟩
  · rw [toPoly_multiplyScalar G t _ ntB hinvlt, hTeq,
      toF_inverse (Nat.pos_of_ne_zero htc0ne) htc0lt, hc0coeff]
    have hassoc : Polynomial.C c0 * sigmaStar G (errExps received c) (Xe G) * Polynomial.C c0⁻¹
        = sigmaStar G (errExps received c) (Xe G) * (Polynomial.C c0 * Polynomial.C c0⁻¹) := by
      ring
    rw [hassoc, hCinv, mul_one]
  · rw [toPoly_multiplyScalar G r _ nrB hinvlt, hReq,
      toF_inverse (Nat.pos_of_ne_zero htc0ne) htc0lt, hc0coeff]
    have hassoc : Polynomial.C c0
        * omegaStar G (errExps received c) (Xe G) (wdelta G received c) * Polynomial.C c0⁻¹
        = omegaStar G (errExps received c) (Xe G) (wdelta G received c)
          * (Polynomial.C c0 * Polynomial.C c0⁻¹) := by
      ring
    rw [hassoc, hCinv, mul_one]

/-! ## The Chien search on the reference locator -/

theorem chienRoots_sigma_mem (G : GoodGF) (received c : List Nat) (sigma : GenericGFPoly)
    (hsB : BoundedL G sigma.coefficients)
    (hsig : toPoly G sigma.coefficients = sigmaStar G (errExps received c) (Xe G))
    (x : Nat) :
    x ∈ chienRoots G.1 sigma 1
      ↔ x ∈ (errExps received c).image (fun j => G.1.inverse (G.1.exp j)) := by
  have hXne : ∀ j ∈ errExps received c, Xe G j ≠ 0 := fun j _ => Xe_ne_zero G j
  have hsz := size_pos' G
  unfold chienRoots
  rw [List.mem_filter, List.mem_range'_1, Finset.mem_image]
  constructor
  · rintro ⟨⟨hx1, hx2⟩, hev⟩
    have hxlt : x < G.1.size := by omega
    have hev' : sigma.evaluateAt G.1 x = 0 := by simpa using hev
    have h0 : (toPoly G sigma.coefficients).eval (toF G x) = 0 := by
      rw [← toF_evaluateAt G sigma hsB hxlt, hev', toF_zero]
    rw [hsig, sigmaStar_eval_eq_zero_iff G _ _ hXne] at h0
    obtain ⟨j, hj, hxy⟩ := h0
    refine ⟨j, hj, ?_⟩
    apply toF_inj (GoodField.inverse_lt G.2.1 _) hxlt
    rw [toF_inverse (GoodField.exp_pos G.2.1 j) (GoodField.exp_lt G.2.1 j)]
    exact hxy.symm
  · rintro ⟨j, hj, rfl⟩
    have hipos := GoodField.inverse_pos G.2.1 (G.1.exp j)
    have hilt := GoodField.inverse_lt G.2.1 (G.1.exp j)
    refine ⟨⟨by omega, by omega⟩, ?_⟩
    have h0 : (toPoly G sigma.coefficients).eval (toF G (G.1.inverse (G.1.exp j))) = 0 := by
      rw [toF_inverse (GoodField.exp_pos G.2.1 j) (GoodField.exp_lt G.2.1 j), hsig,
        sigmaStar_eval_eq_zero_iff G _ _ hXne]
      exact ⟨j, hj, rfl⟩
    rw [← toF_evaluateAt G sigma hsB hilt] at h0
    have hlt := evaluateAt_lt G sigma hsB (G.1.inverse (G.1.exp j))
    have := (toF_eq_zero_iff hlt).mp h0
    simpa using this

theorem chienRoots_sigma_length (G : GoodGF) (received c : List Nat) (sigma : GenericGFPoly)
    (hn : c.length ≤ G.1.size - 1)
    (hsB : BoundedL G sigma.coefficients)
    (hsig : toPoly G sigma.coefficients = sigmaStar G (errExps received c) (Xe G)) :
    (chienRoots G.1 sigma 1).length = (errExps received c).card := by
  have hnd : (chienRoots G.1 sigma 1).Nodup :=
    List.Nodup.filter _ (List.nodup_range' 1 (G.1.size - 1))
  rw [← List.toFinset_card_of_nodup hnd]
  have hset : (chienRoots G.1 sigma 1).toFinset
      = (errExps received c).image (fun j => G.1.inverse (G.1.exp j)) := by
    apply Finset.ext
    intro x
    rw [List.mem_toFinset]
    exact chienRoots_sigma_mem G received c sigma hsB hsig x
  rw [hset]
  apply Finset.card_image_of_injOn
  intro j hj k hk h
  have hj' := errExps_lt hj
  have hk' := errExps_lt hk
  have hje : G.1.exp j = G.1.exp k := by
    have h1 := congrArg G.1.inverse h
    rwa [GoodField.inverse_inverse G.2.1 (GoodField.exp_pos G.2.1 j) (GoodField.exp_lt G.2.1 j),
      GoodField.inverse_inverse G.2.1 (GoodField.exp_pos G.2.1 k) (GoodField.exp_lt G.2.1 k)]
      at h1
  exact Xe_inj G (by omega) (by omega) (congrArg (toF G) hje)

theorem sigma_list_degree (G : GoodGF) (received c : List Nat) (sigma : GenericGFPoly)
    (hn : c.length ≤ G.1.size - 1)
    (hsN : IsNormed sigma.coefficients) (hsB : BoundedL G sigma.coefficients)
    (hsig : toPoly G sigma.coefficients = sigmaStar G (errExps received c) (Xe G)) :
    sigma.degree = (errExps received c).card := by
  have hXne : ∀ j ∈ errExps received c, Xe G j ≠ 0 := fun j _ => Xe_ne_zero G j
  have hsnz : toPoly G sigma.coefficients ≠ 0 := by
    rw [hsig]
    exact sigmaStar_ne_zero G _ _ hXne
  have hne0 : sigma.coefficients ≠ [0] := by
    intro h0
    exact hsnz (toPoly_zero_of_eq G h0)
  rw [← natDegree_eq_list_degree G hsN hsB hne0, hsig, sigmaStar_natDegree G _ _ hXne]

theorem chien_finds (G : GoodGF) (received c : List Nat) (sigma : GenericGFPoly)
    (hn : c.length ≤ G.1.size - 1)
    (hsN : IsNormed sigma.coefficients) (hsB : BoundedL G sigma.coefficients)
    (hsig : toPoly G sigma.coefficients = sigmaStar G (errExps received c) (Xe G)) :
    FindErrorLocations G.1 sigma
      = (.NoError, (chienRoots G.1 sigma 1).map G.1.inverse) := by
  have hdeg := sigma_list_degree G received c sigma hn hsN hsB hsig
  have hrl := chienRoots_sigma_length G received c sigma hn hsB hsig
  rw [FindErrorLocations_success G.1 sigma (by omega)]
  rw [hdeg, ← hrl, List.take_length]

/-! ## The Forney magnitudes on the reference evaluator -/

theorem termPlus1_xor_one (v : Nat) (hv : v < 2 ^ 32) : termPlus1 v = 1 ^^^ v := by
  have hhigh : ∀ j, 32 ≤ j → v.testBit j = false := by
    intro j hj
    exact Nat.testBit_eq_false_of_lt
      (lt_of_lt_of_le hv (Nat.pow_le_pow_right (by norm_num) hj))
  unfold termPlus1
  by_cases h0 : v &&& 1 = 0
  · rw [if_pos h0]
    have hb : v.testBit 0 = false := by
      have := congrArg (fun n => n.testBit 0) h0
      simpa [Nat.testBit_land, testBit_one_eq] using this
    apply Nat.eq_of_testBit_eq
    intro j
    rw [Nat.testBit_lor, Nat.testBit_xor, testBit_one_eq]
    cases j with
    | zero => simp [hb]
    | succ n => simp
  · rw [if_neg h0]
    have hb : v.testBit 0 = true := by
      by_contra hf
      rw [Bool.not_eq_true] at hf
      apply h0
      apply Nat.eq_of_testBit_eq
      intro j
      rw [Nat.testBit_land, testBit_one_eq, Nat.zero_testBit]
      cases j with
      | zero => simp [hf]
      | succ n => simp
    apply Nat.eq_of_testBit_eq
    intro j
    rw [Nat.testBit_land, Nat.testBit_xor, testBit_one_eq]
    rcases Nat.lt_or_ge j 32 with hj | hj
    · rw [mask_testBit_lt j hj]
      cases j with
      | zero => simp [hb]
      | succ n => simp
    · rw [mask_testBit_ge j hj, hhigh j hj]
      have hj0 : j ≠ 0 := by omega
      simp [hj0]

theorem forney_fold_spec (G : GoodGF) (g : Nat → Nat) (hg : ∀ k', g k' < G.1.size) (i : Nat) :
    ∀ m : Nat,
      (List.range m).foldl (fun d j => if j = i then d else G.1.multiply d (g j)) 1 < G.1.size
      ∧ toF G ((List.range m).foldl (fun d j => if j = i then d else G.1.multiply d (g j)) 1)
        = ∏ k' ∈ (Finset.range m).filter (fun k' => k' ≠ i), toF G (g k') := by
  intro m
  induction m with
  | zero =>
    refine ⟨one_lt_size G, ?_⟩
    show toF G 1 = _
    rw [toF_one]
    simp
  | succ m ih =>
    obtain ⟨ihlt, iheq⟩ := ih
    rw [List.range_succ, List.foldl_append]
    simp only [List.foldl_cons, List.foldl_nil]
    by_cases hmi : m = i
    · rw [if_pos hmi]
      refine ⟨ihlt, ?_⟩
      rw [iheq, Finset.range_succ, Finset.filter_insert, if_neg (by simp [hmi])]
    · rw [if_neg hmi]
      refine ⟨GoodField.multiply_lt_any G.2.1 _ _, ?_⟩
      rw [toF_multiply ihlt (hg m), iheq, Finset.range_succ, Finset.filter_insert, if_pos hmi,
        Finset.prod_insert (by simp)]
      ring

theorem getD_map_range {f : Nat → Nat} {m k : Nat} (hk : k < m) :
    ((List.range m).map f).getD k 0 = f k := by
  rw [List.getD_eq_getElem?_getD, List.getElem?_map, List.getElem?_range hk]
  rfl

set_option maxHeartbeats 1000000 in
/-- The Forney formula on the reference evaluator recovers exactly the
corruption delta of the corresponding position. -/
theorem forney_magnitude (G : GoodGF) (received c : List Nat)
    (hlen2 : received.length = c.length) (hn : c.length ≤ G.1.size - 1)
    (hbr : BoundedL G received) (hbc : BoundedL G c)
    (omega : GenericGFPoly) (hoB : BoundedL G omega.coefficients)
    (homega : toPoly G omega.coefficients
      = omegaStar G (errExps received c) (Xe G) (wdelta G received c))
    (locs : List Nat) (jfun : Nat → Nat)
    (hlocs : ∀ k < locs.length, jfun k ∈ errExps received c
      ∧ locs.getD k 0 = G.1.exp (jfun k))
    (hjinj : ∀ k < locs.length, ∀ k' < locs.length, jfun k = jfun k' → k = k')
    (hjsurj : ∀ j ∈ errExps received c, ∃ k, k < locs.length ∧ jfun k = j)
    (k : Nat) (hk : k < locs.length) :
    (FindErrorMagnitudes G.1 omega locs).getD k 0
      = received.getD (c.length - 1 - jfun k) 0 ^^^ c.getD (c.length - 1 - jfun k) 0 := by
  have hXne : ∀ j ∈ errExps received c, Xe G j ≠ 0 := fun j _ => Xe_ne_zero G j
  obtain ⟨hjJ, hloc⟩ := hlocs k hk
  have hsize32 := G.2.2.2.1
  have hexpos := GoodField.exp_pos G.2.1 (jfun k)
  have hexlt := GoodField.exp_lt G.2.1 (jfun k)
  have hxipos := GoodField.inverse_pos G.2.1 (locs.getD k 0)
  have hxilt := GoodField.inverse_lt G.2.1 (locs.getD k 0)
  have hxiF : toF G (G.1.inverse (locs.getD k 0)) = (Xe G (jfun k))⁻¹ := by
    rw [hloc, toF_inverse hexpos hexlt]
    rfl
  -- the per-factor function of the denominator fold
  have hglt : ∀ k', termPlus1 (G.1.multiply (locs.getD k' 0) (G.1.inverse (locs.getD k 0)))
      < G.1.size := by
    intro k'
    have hm := GoodField.multiply_lt_any G.2.1 (locs.getD k' 0) (G.1.inverse (locs.getD k 0))
    rw [termPlus1_xor_one _ (by omega)]
    exact G.2.2.2.2.1 _ (one_lt_size G) _ hm
  have hfold := forney_fold_spec G
    (fun k' => termPlus1 (G.1.multiply (locs.getD k' 0) (G.1.inverse (locs.getD k 0))))
    hglt k locs.length
  have hdlt : forneyDenominator G.1 locs k (G.1.inverse (locs.getD k 0)) < G.1.size := hfold.1
  have hgF : ∀ k' < locs.length,
      toF G (termPlus1 (G.1.multiply (locs.getD k' 0) (G.1.inverse (locs.getD k 0))))
        = 1 + Xe G (jfun k') * (Xe G (jfun k))⁻¹ := by
    intro k' hk'
    obtain ⟨hj', hloc'⟩ := hlocs k' hk'
    have hm := GoodField.multiply_lt_any G.2.1 (locs.getD k' 0) (G.1.inverse (locs.getD k 0))
    rw [termPlus1_xor_one _ (by omega)]
    rw [toF_xor (one_lt_size G) hm, toF_one,
      toF_multiply (by rw [hloc']; exact GoodField.exp_lt G.2.1 _) hxilt, hxiF, hloc']
    rfl
  -- the denominator equals the reference product over the other exponents
  have hprod : toF G (forneyDenominator G.1 locs k (G.1.inverse (locs.getD k 0)))
      = ∏ j' ∈ (errExps received c).erase (jfun k), (1 + Xe G j' * (Xe G (jfun k))⁻¹) := by
    rw [show forneyDenominator G.1 locs k (G.1.inverse (locs.getD k 0))
      = (List.range locs.length).foldl
        (fun d j => if j = k then d
          else G.1.multiply d (termPlus1 (G.1.multiply (locs.getD j 0)
            (G.1.inverse (locs.getD k 0))))) 1 from rfl]
    rw [hfold.2]
    have hcongr : (∏ k' ∈ (Finset.range locs.length).filter (fun k' => k' ≠ k),
        toF G (termPlus1 (G.1.multiply (locs.getD k' 0) (G.1.inverse (locs.getD k 0)))))
      = ∏ k' ∈ (Finset.range locs.length).filter (fun k' => k' ≠ k),
          (1 + Xe G (jfun k') * (Xe G (jfun k))⁻¹) :=
      Finset.prod_congr rfl (fun k' hk' =>
        hgF k' (Finset.mem_range.mp (Finset.mem_filter.mp hk').1))
    rw [hcongr]
    refine Finset.prod_bij (fun k' hk' => jfun k') ?_ ?_ ?_ ?_
    · intro k' hk'
      obtain ⟨hk'r, hk'ne⟩ := Finset.mem_filter.mp hk'
      rw [Finset.mem_range] at hk'r
      refine Finset.mem_erase.mpr ⟨?_, (hlocs k' hk'r).1⟩
      intro heq
      exact hk'ne (hjinj k' hk'r k hk heq)
    · intro a ha b hb hab
      obtain ⟨har, _⟩ := Finset.mem_filter.mp ha
      obtain ⟨hbr2, _⟩ := Finset.mem_filter.mp hb
      exact hjinj a (Finset.mem_range.mp har) b (Finset.mem_range.mp hbr2) hab
    · intro j' hj'
      obtain ⟨hj'ne, hj'J⟩ := Finset.mem_erase.mp hj'
      obtain ⟨k', hk'lt, hk'eq⟩ := hjsurj j' hj'J
      refine ⟨k', Finset.mem_filter.mpr ⟨Finset.mem_range.mpr hk'lt, ?_⟩, hk'eq⟩
      intro heq
      subst heq
      exact hj'ne hk'eq.symm
    · intro k' hk'
      rfl
  have hPne : (∏ j' ∈ (errExps received c).erase (jfun k),
      (1 + Xe G j' * (Xe G (jfun k))⁻¹)) ≠ 0 := by
    refine Finset.prod_ne_zero_iff.mpr (fun j' hj' => ?_)
    intro h0
    have h1 := (one_add_eq_zero_iff _).mp h0
    have h2 : Xe G j' = Xe G (jfun k) := by
      have := congrArg (fun t => t * Xe G (jfun k)) h1
      simp only at this
      rwa [mul_assoc, inv_mul_cancel₀ (Xe_ne_zero G (jfun k)), mul_one, one_mul] at this
    have hj'J := Finset.mem_of_mem_erase hj'
    have := Xe_inj G (by have := errExps_lt hj'J; omega)
      (by have := errExps_lt hjJ; omega) h2
    exact (Finset.mem_erase.mp hj').1 this
  have hdne : forneyDenominator G.1 locs k (G.1.inverse (locs.getD k 0)) ≠ 0 := by
    intro h0
    apply hPne
    rw [← hprod, h0, toF_zero]
  -- the evaluator value
  have hevlt := evaluateAt_lt G omega hoB (G.1.inverse (locs.getD k 0))
  have hevF : toF G (omega.evaluateAt G.1 (G.1.inverse (locs.getD k 0)))
      = wdelta G received c (jfun k)
        * ∏ j' ∈ (errExps received c).erase (jfun k), (1 + Xe G j' * (Xe G (jfun k))⁻¹) := by
    rw [toF_evaluateAt G omega hoB hxilt, hxiF, homega,
      omegaStar_eval_at_root G _ _ _ hXne hjJ]
  -- the raw magnitude
  have hmag0lt := GoodField.multiply_lt_any G.2.1
    (omega.evaluateAt G.1 (G.1.inverse (locs.getD k 0)))
    (G.1.inverse (forneyDenominator G.1 locs k (G.1.inverse (locs.getD k 0))))
  have hmag0F : toF G (G.1.multiply (omega.evaluateAt G.1 (G.1.inverse (locs.getD k 0)))
      (G.1.inverse (forneyDenominator G.1 locs k (G.1.inverse (locs.getD k 0)))))
        = wdelta G received c (jfun k) := by
    rw [toF_multiply hevlt (GoodField.inverse_lt G.2.1 _), hevF,
      toF_inverse (Nat.pos_of_ne_zero hdne) hdlt, hprod]
    rw [mul_assoc, mul_inv_cancel₀ hPne, mul_one]
  -- the delta, as a bounded symbol
  have hjn := errExps_lt hjJ
  have hrb : received.getD (c.length - 1 - jfun k) 0 < G.1.size :=
    getD_lt_of_bounded hbr (by omega)
  have hcb : c.getD (c.length - 1 - jfun k) 0 < G.1.size :=
    getD_lt_of_bounded hbc (by omega)
  have hxlt : received.getD (c.length - 1 - jfun k) 0 ^^^ c.getD (c.length - 1 - jfun k) 0
      < G.1.size := G.2.2.2.2.1 _ hrb _ hcb
  have hdelta : toF G (received.getD (c.length - 1 - jfun k) 0
      ^^^ c.getD (c.length - 1 - jfun k) 0) = deltaF G received c (jfun k) := rfl
  -- unfold the magnitudes map
  have hmap : (FindErrorMagnitudes G.1 omega locs).getD k 0
      = (fun i =>
          let xiInverse := G.1.inverse (locs.getD i 0)
          let mag := G.1.multiply (omega.evaluateAt G.1 xiInverse)
            (G.1.inverse (forneyDenominator G.1 locs i xiInverse))
          if G.1.generatorBase ≠ 0 then G.1.multiply mag xiInverse else mag) k := by
    unfold FindErrorMagnitudes
    exact getD_map_range hk
  rw [hmap]
  simp only
  rcases Nat.lt_or_ge G.1.generatorBase 1 with hbase | hbase
  · have hb0 : G.1.generatorBase = 0 := by omega
    rw [if_neg (by simp [hb0])]
    apply toF_inj hmag0lt hxlt
    rw [hmag0F, hdelta]
    unfold wdelta
    rw [hb0, pow_zero, mul_one]
  · have hb1 : G.1.generatorBase = 1 := by have := G.2.2.1; omega
    rw [if_pos (by simp [hb1])]
    apply toF_inj (GoodField.multiply_lt_any G.2.1 _ _) hxlt
    rw [toF_multiply hmag0lt hxilt, hmag0F, hxiF, hdelta]
    unfold wdelta
    rw [hb1, pow_one, mul_assoc, mul_inv_cancel₀ (Xe_ne_zero G (jfun k)), mul_one]

/-! ## The correction loop as an index-wise XOR -/

/-- The total XOR of the magnitudes a pair list contributes to buffer index
`i`, for a buffer of length `n`. -/
def xorDeltas (gf : GenericGF) (n : Nat) (pairs : List (Nat × Nat)) (i : Nat) : Nat :=
  pairs.foldl (fun acc p => if n - 1 - gf.log p.1 = i then acc ^^^ p.2 else acc) 0

theorem xor_foldl_init (gf : GenericGF) (n i : Nat) :
    ∀ (pairs : List (Nat × Nat)) (a : Nat),
      pairs.foldl (fun acc p => if n - 1 - gf.log p.1 = i then acc ^^^ p.2 else acc) a
        = a ^^^ pairs.foldl (fun acc p => if n - 1 - gf.log p.1 = i then acc ^^^ p.2 else acc) 0 := by
  intro pairs
  induction pairs with
  | nil =>
    intro a
    simp
  | cons q rest ih =>
    intro a
    simp only [List.foldl_cons]
    rw [ih (if n - 1 - gf.log q.1 = i then a ^^^ q.2 else a),
      ih (if n - 1 - gf.log q.1 = i then 0 ^^^ q.2 else 0)]
    by_cases h : n - 1 - gf.log q.1 = i
    · rw [if_pos h, if_pos h, Nat.zero_xor, Nat.xor_assoc]
    · rw [if_neg h, if_neg h, Nat.zero_xor]

theorem xorDeltas_cons (gf : GenericGF) (n : Nat) (loc mag : Nat)
    (rest : List (Nat × Nat)) (i : Nat) :
    xorDeltas gf n ((loc, mag) :: rest) i
      = (if n - 1 - gf.log loc = i then mag else 0) ^^^ xorDeltas gf n rest i := by
  show rest.foldl _ (if n - 1 - gf.log loc = i then 0 ^^^ mag else 0) = _
  rw [xor_foldl_init]
  congr 1
  by_cases h : n - 1 - gf.log loc = i
  · rw [if_pos h, if_pos h, Nat.zero_xor]
  · rw [if_neg h, if_neg h]

theorem correctionLoop_ok (gf : GenericGF) :
    ∀ (pairs : List (Nat × Nat)) (buf : List Nat),
      (∀ p ∈ pairs, gf.log p.1 < buf.length) →
      (correctionLoop gf buf pairs).1 = .NoError ∧
      (correctionLoop gf buf pairs).2.length = buf.length ∧
      ∀ i, (correctionLoop gf buf pairs).2.getD i 0
        = buf.getD i 0 ^^^ xorDeltas gf buf.length pairs i := by
  intro pairs
  induction pairs with
  | nil =>
    intro buf hP
    refine ⟨rfl, rfl, fun i => ?_⟩
    exact (Nat.xor_zero _).symm
  | cons q rest ih =>
    intro buf hP
    obtain ⟨loc, mag⟩ := q
    have hlog : gf.log loc < buf.length := hP (loc, mag) (by simp)
    have hnn : ¬ ((buf.length : Int) - 1 - (gf.log loc : Int) < 0) := by omega
    have hposeq : ((buf.length : Int) - 1 - (gf.log loc : Int)).toNat
        = buf.length - 1 - gf.log loc := by omega
    simp only [correctionLoop, if_neg hnn]
    rw [hposeq]
    have hposlt : buf.length - 1 - gf.log loc < buf.length := by omega
    have hlen' : (buf.set (buf.length - 1 - gf.log loc)
        (gf.addOrSubtract (buf.getD (buf.length - 1 - gf.log loc) 0) mag)).length
        = buf.length := by
      rw [List.length_set]
    have hP' : ∀ p ∈ rest, gf.log p.1 < (buf.set (buf.length - 1 - gf.log loc)
        (gf.addOrSubtract (buf.getD (buf.length - 1 - gf.log loc) 0) mag)).length := by
      rw [hlen']
      exact fun p hp => hP p (List.mem_cons_of_mem _ hp)
    obtain ⟨h1, h2, h3⟩ := ih _ hP'
    refine ⟨h1, by rw [h2, hlen'], fun i => ?_⟩
    rw [h3 i, hlen', xorDeltas_cons]
    have hbget : (buf.set (buf.length - 1 - gf.log loc)
        (gf.addOrSubtract (buf.getD (buf.length - 1 - gf.log loc) 0) mag)).getD i 0
        = buf.getD i 0 ^^^ (if buf.length - 1 - gf.log loc = i then mag else 0) := by
      by_cases hpi : buf.length - 1 - gf.log loc = i
      · rw [if_pos hpi, ← hpi]
        rw [List.getD_eq_getElem?_getD, List.getElem?_set_self hposlt]
        rfl
      · rw [if_neg hpi, Nat.xor_zero]
        rw [List.getD_eq_getElem?_getD, List.getElem?_set_ne hpi,
          ← List.getD_eq_getElem?_getD]
    rw [hbget]
    by_cases hpi : buf.length - 1 - gf.log loc = i
    · rw [if_pos hpi, Nat.xor_assoc]
    · rw [if_neg hpi, Nat.xor_zero, Nat.zero_xor]

theorem xorDeltas_zero (gf : GenericGF) (n : Nat) :
    ∀ (pairs : List (Nat × Nat)) (i : Nat),
      (∀ p ∈ pairs, n - 1 - gf.log p.1 ≠ i) → xorDeltas gf n pairs i = 0 := by
  intro pairs
  induction pairs with
  | nil =>
    intro i _
    rfl
  | cons q rest ih =>
    intro i hmiss
    obtain ⟨loc, mag⟩ := q
    rw [xorDeltas_cons, if_neg (hmiss (loc, mag) (by simp)), Nat.zero_xor]
    exact ih i (fun p hp => hmiss p (List.mem_cons_of_mem _ hp))

theorem xorDeltas_single (gf : GenericGF) (n : Nat) :
    ∀ (pairs : List (Nat × Nat)) (i k : Nat), k < pairs.length →
      n - 1 - gf.log (pairs.getD k (0, 0)).1 = i →
      (∀ k' < pairs.length, k' ≠ k → n - 1 - gf.log (pairs.getD k' (0, 0)).1 ≠ i) →
      xorDeltas gf n pairs i = (pairs.getD k (0, 0)).2 := by
  intro pairs
  induction pairs with
  | nil =>
    intro i k hk
    simp at hk
  | cons q rest ih =>
    intro i k hk hhit hothers
    obtain ⟨loc, mag⟩ := q
    cases k with
    | zero =>
      have hhit0 : n - 1 - gf.log loc = i := hhit
      rw [xorDeltas_cons, if_pos hhit0]
      have hrest : xorDeltas gf n rest i = 0 := by
        apply xorDeltas_zero
        intro p hp
        obtain ⟨idx, hidx, hpe⟩ := List.getElem_of_mem hp
        have hgd : ((loc, mag) :: rest).getD (idx + 1) (0, 0) = p := by
          rw [List.getD_cons_succ, List.getD_eq_getElem?_getD,
            List.getElem?_eq_getElem hidx, hpe]
          rfl
        have := hothers (idx + 1) (by simpa using hidx) (by omega)
        rwa [hgd] at this
      rw [hrest, Nat.xor_zero]
      rfl
    | succ k' =>
      have hmiss0 : n - 1 - gf.log loc ≠ i := by
        have := hothers 0 (by omega) (by omega)
        simpa using this
      rw [xorDeltas_cons, if_neg hmiss0, Nat.zero_xor]
      rw [show ((loc, mag) :: rest).getD (k' + 1) (0, 0) = rest.getD k' (0, 0)
        from List.getD_cons_succ]
      apply ih i k' (by simpa using hk)
      · have := hhit
        rwa [List.getD_cons_succ] at this
      · intro k'' hk'' hne
        have := hothers (k'' + 1) (by simpa using hk'') (by omega)
        rwa [List.getD_cons_succ] at this

theorem toPoly_all_zero (G : GoodGF) {l : List Nat} (h : ∀ x ∈ l, x = 0) :
    toPoly G l = 0 := by
  apply Polynomial.ext
  intro j
  rw [toPoly_coeff, revCoeff_all_zero h, toF_zero, Polynomial.coeff_zero]

theorem syndromes_not_all_zero (G : GoodGF) (received c : List Nat) (twoS : Nat)
    (hlen2 : received.length = c.length) (hn : c.length ≤ G.1.size - 1)
    (hbr : BoundedL G received) (hbc : BoundedL G c)
    (hsynd : ∀ i < twoS,
      (GenericGFPoly.ofList c).evaluateAt G.1 (G.1.exp (i + G.1.generatorBase)) = 0)
    (herr : (errorIndices received c).length ≤ twoS / 2)
    (hepos : 1 ≤ (errorIndices received c).length) :
    (syndromeEvals G.1 received twoS).all (· == 0) = false := by
  have hR2 : 2 ≤ twoS := by omega
  rw [← Bool.not_eq_true, List.all_eq_true]
  intro hall
  have hzero : toPoly G ((syndromeEvals G.1 received twoS).reverse) = 0 := by
    apply toPoly_all_zero
    intro x hx
    have := hall x (List.mem_reverse.mp hx)
    simpa using this
  have hSsyn := toPoly_syndromeCoefficients G received c twoS hlen2 hbr hbc hsynd
  have hsyn0 : synPoly G (errExps received c) (Xe G) (wdelta G received c) twoS = 0 := by
    rw [← hSsyn, hzero]
  have hkey := key_equation G (errExps received c) (Xe G) (wdelta G received c) twoS
  rw [hsyn0, mul_zero, add_zero] at hkey
  have hXne : ∀ j ∈ errExps received c, Xe G j ≠ 0 := fun j _ => Xe_ne_zero G j
  have hcard : (errExps received c).card ≤ twoS / 2 := by
    rw [errExps_card]
    exact herr
  have hcard1 : 1 ≤ (errExps received c).card := by
    rw [errExps_card]
    exact hepos
  have hodeg := omegaStar_natDegree_lt G (errExps received c) (Xe G) (wdelta G received c)
    hcard (by omega)
  have hkC : keyCofactor G (errExps received c) (Xe G) (wdelta G received c) twoS = 0 := by
    by_contra hne
    have hXR : (Polynomial.X : Polynomial (FElem G)) ^ twoS ≠ 0 :=
      pow_ne_zero _ Polynomial.X_ne_zero
    have hdeg : (keyCofactor G (errExps received c) (Xe G) (wdelta G received c) twoS
        * Polynomial.X ^ twoS).natDegree
        = (keyCofactor G (errExps received c) (Xe G) (wdelta G received c) twoS).natDegree
          + twoS := by
      rw [Polynomial.natDegree_mul hne hXR, Polynomial.natDegree_X_pow]
    rw [hkey] at hdeg
    omega
  rw [hkC, zero_mul] at hkey
  obtain ⟨j0, hj0⟩ := Finset.card_pos.mp
    (show 0 < (errExps received c).card by omega)
  have := omegaStar_eval_at_root_ne_zero G (errExps received c) (Xe G) (wdelta G received c)
    hXne (fun j hj => wdelta_ne_zero hlen2 hbr hbc hj)
    (fun j hj k hk h => Xe_inj G (by have := errExps_lt hj; omega)
      (by have := errExps_lt hk; omega) h) hj0
  rw [← hkey] at this
  simp at this

theorem mem_locs_exp (G : GoodGF) (received c : List Nat) (sigma : GenericGFPoly)
    (hsB : BoundedL G sigma.coefficients)
    (hsig : toPoly G sigma.coefficients = sigmaStar G (errExps received c) (Xe G)) :
    ∀ l ∈ (chienRoots G.1 sigma 1).map G.1.inverse,
      ∃ j ∈ errExps received c, l = G.1.exp j := by
  intro l hl
  obtain ⟨x, hx, rfl⟩ := List.mem_map.mp hl
  rw [chienRoots_sigma_mem G received c sigma hsB hsig] at hx
  obtain ⟨j, hj, rfl⟩ := Finset.mem_image.mp hx
  exact ⟨j, hj, GoodField.inverse_inverse G.2.1 (GoodField.exp_pos G.2.1 j)
    (GoodField.exp_lt G.2.1 j)⟩

theorem list_eq_of_getD {l₁ l₂ : List Nat} (hlen : l₁.length = l₂.length)
    (h : ∀ i < l₂.length, l₁.getD i 0 = l₂.getD i 0) : l₁ = l₂ := by
  apply List.ext_getElem hlen
  intro i h1 h2
  have hi := h i h2
  rwa [List.getD_eq_getElem?_getD, List.getElem?_eq_getElem h1,
    List.getD_eq_getElem?_getD, List.getElem?_eq_getElem h2] at hi

set_option maxHeartbeats 2000000 in
/-- C1 (amended): for a field satisfying the spec invariants, a codeword of
length at most `fieldSize - 1` whose `twoS` syndromes all vanish, and a
corruption of at most `twoS / 2` positions, `decode` returns success and the
returned buffer is the original codeword. (As stated — without the length
bound — the claim is refuted by `decode_aliasing_beyond_field_capacity`:
beyond `fieldSize - 1` symbols, error positions alias modulo the
multiplicative-group order and decode rewrites the wrong position.) -/
theorem decode_round_trip (G : GoodGF) (received c : List Nat) (twoS : Nat)
    (hlen2 : received.length = c.length)
    (hn : c.length ≤ G.1.size - 1)
    (hbr : BoundedL G received) (hbc : BoundedL G c)
    (hsynd : ∀ i < twoS,
      (GenericGFPoly.ofList c).evaluateAt G.1 (G.1.exp (i + G.1.generatorBase)) = 0)
    (herr : (errorIndices received c).length ≤ twoS / 2) :
    decode G.1 received twoS = .ok (.NoError, c) := by
  by_cases he : (errorIndices received c).length = 0
  · -- no corrupted position: the two buffers agree, and the clean fast path fires
    have hfil : errorIndices received c = [] := List.length_eq_zero.mp he
    have hreceq : received = c := by
      apply List.ext_getElem hlen2
      intro i h1 h2
      by_contra hne
      have hmem : i ∈ errorIndices received c := by
        unfold errorIndices
        rw [List.mem_filter, List.mem_range]
        refine ⟨h2, ?_⟩
        simp only [decide_eq_true_eq]
        intro hgd
        apply hne
        rwa [List.getD_eq_getElem?_getD, List.getElem?_eq_getElem h1,
          List.getD_eq_getElem?_getD, List.getElem?_eq_getElem h2] at hgd
      rw [hfil] at hmem
      simp at hmem
    subst hreceq
    have hall : (syndromeEvals G.1 received twoS).all (· == 0) = true := by
      rw [List.all_eq_true]
      intro x hx
      unfold syndromeEvals at hx
      obtain ⟨i, hi, hfx⟩ := List.mem_map.mp hx
      have := hsynd i (List.mem_range.mp hi)
      rw [← hfx]
      simpa using this
    simp only [decode]
    rw [hall]
    rfl
  · have hepos : 1 ≤ (errorIndices received c).length := by omega
    obtain ⟨sigma, omega, hrun, hsN, hsB, hoN, hoB, hsig, homega⟩ :=
      euclid_sigma_omega G received c twoS hlen2 hn hbr hbc hsynd herr hepos
    have hfalse := syndromes_not_all_zero G received c twoS hlen2 hn hbr hbc hsynd herr hepos
    have hchien := chien_finds G received c sigma hn hsN hsB hsig
    have hrootlen := chienRoots_sigma_length G received c sigma hn hsB hsig
    have hrootsub := chienRoots_subset G.1 sigma 1
    have hrootnd : (chienRoots G.1 sigma 1).Nodup :=
      List.Nodup.filter _ (List.nodup_range' 1 (G.1.size - 1))
    have hlocnd : ((chienRoots G.1 sigma 1).map G.1.inverse).Nodup := by
      apply List.Nodup.map_on ?_ hrootnd
      intro x hx y hy hxy
      obtain ⟨hx1, hx2⟩ := hrootsub x hx
      obtain ⟨hy1, hy2⟩ := hrootsub y hy
      have h1 := congrArg G.1.inverse hxy
      rwa [GoodField.inverse_inverse G.2.1 (by omega) hx2,
        GoodField.inverse_inverse G.2.1 (by omega) hy2] at h1
    -- index-level description of the locations
    have hlocs : ∀ k < ((chienRoots G.1 sigma 1).map G.1.inverse).length,
        G.1.log (((chienRoots G.1 sigma 1).map G.1.inverse).getD k 0) ∈ errExps received c
        ∧ ((chienRoots G.1 sigma 1).map G.1.inverse).getD k 0
          = G.1.exp (G.1.log (((chienRoots G.1 sigma 1).map G.1.inverse).getD k 0)) := by
      intro k hk
      have hmem : ((chienRoots G.1 sigma 1).map G.1.inverse).getD k 0
          ∈ (chienRoots G.1 sigma 1).map G.1.inverse := by
        rw [List.getD_eq_getElem?_getD, List.getElem?_eq_getElem hk]
        exact List.getElem_mem hk
      obtain ⟨j, hj, hljeq⟩ := mem_locs_exp G received c sigma hsB hsig _ hmem
      have hjn := errExps_lt hj
      have hlog : G.1.log (G.1.exp j) = j := by
        rw [GoodField.log_exp G.2.1, Nat.mod_eq_of_lt (by omega)]
      rw [hljeq, hlog]
      exact ⟨hj, rfl⟩
    have hjinj : ∀ k < ((chienRoots G.1 sigma 1).map G.1.inverse).length,
        ∀ k' < ((chienRoots G.1 sigma 1).map G.1.inverse).length,
        G.1.log (((chienRoots G.1 sigma 1).map G.1.inverse).getD k 0)
          = G.1.log (((chienRoots G.1 sigma 1).map G.1.inverse).getD k' 0) → k = k' := by
      intro k hk k' hk' heq
      have h1 := (hlocs k hk).2
      have h2 := (hlocs k' hk').2
      have hleq : ((chienRoots G.1 sigma 1).map G.1.inverse).getD k 0
          = ((chienRoots G.1 sigma 1).map G.1.inverse).getD k' 0 := by
        rw [h1, h2, heq]
      rw [List.getD_eq_getElem?_getD, List.getElem?_eq_getElem hk,
        List.getD_eq_getElem?_getD, List.getElem?_eq_getElem hk'] at hleq
      exact (List.Nodup.getElem_inj_iff hlocnd).mp hleq
    have hjsurj : ∀ j ∈ errExps received c,
        ∃ k, k < ((chienRoots G.1 sigma 1).map G.1.inverse).length
          ∧ G.1.log (((chienRoots G.1 sigma 1).map G.1.inverse).getD k 0) = j := by
      intro j hj
      have hjn := errExps_lt hj
      have hrmem : G.1.inverse (G.1.exp j) ∈ chienRoots G.1 sigma 1 := by
        rw [chienRoots_sigma_mem G received c sigma hsB hsig]
        exact Finset.mem_image.mpr ⟨j, hj, rfl⟩
      obtain ⟨idx, hidx, hre⟩ := List.getElem_of_mem hrmem
      refine ⟨idx, by simpa using hidx, ?_⟩
      have hgd : ((chienRoots G.1 sigma 1).map G.1.inverse).getD idx 0
          = G.1.inverse ((chienRoots G.1 sigma 1)[idx]) := by
        rw [List.getD_eq_getElem?_getD, List.getElem?_eq_getElem (by simpa using hidx)]
        simp
      rw [hgd, hre, GoodField.inverse_inverse G.2.1 (GoodField.exp_pos G.2.1 j)
        (GoodField.exp_lt G.2.1 j), GoodField.log_exp G.2.1, Nat.mod_eq_of_lt (by omega)]
    have hmagslen : (FindErrorMagnitudes G.1 omega
        ((chienRoots G.1 sigma 1).map G.1.inverse)).length
        = ((chienRoots G.1 sigma 1).map G.1.inverse).length := by
      unfold FindErrorMagnitudes
      simp
    have hpairlen : (((chienRoots G.1 sigma 1).map G.1.inverse).zip
        (FindErrorMagnitudes G.1 omega ((chienRoots G.1 sigma 1).map G.1.inverse))).length
        = ((chienRoots G.1 sigma 1).map G.1.inverse).length := by
      rw [List.length_zip, hmagslen, Nat.min_self]
    have hmemexp : ∀ p ∈ ((chienRoots G.1 sigma 1).map G.1.inverse).zip
        (FindErrorMagnitudes G.1 omega ((chienRoots G.1 sigma 1).map G.1.inverse)),
        ∃ j ∈ errExps received c, p.1 = G.1.exp j := by
      intro p hp
      exact mem_locs_exp G received c sigma hsB hsig p.1 (List.mem_zip hp).1
    have hlog : ∀ p ∈ ((chienRoots G.1 sigma 1).map G.1.inverse).zip
        (FindErrorMagnitudes G.1 omega ((chienRoots G.1 sigma 1).map G.1.inverse)),
        G.1.log p.1 < received.length := by
      intro p hp
      obtain ⟨j, hj, hpe⟩ := hmemexp p hp
      have hjn := errExps_lt hj
      rw [hpe, GoodField.log_exp G.2.1, Nat.mod_eq_of_lt (by omega), hlen2]
      omega
    obtain ⟨hst, hlen, hidx⟩ := correctionLoop_ok G.1
      (((chienRoots G.1 sigma 1).map G.1.inverse).zip
        (FindErrorMagnitudes G.1 omega ((chienRoots G.1 sigma 1).map G.1.inverse)))
      received hlog
    have hpk : ∀ k < ((chienRoots G.1 sigma 1).map G.1.inverse).length,
        (((chienRoots G.1 sigma 1).map G.1.inverse).zip
          (FindErrorMagnitudes G.1 omega ((chienRoots G.1 sigma 1).map G.1.inverse))).getD
            k (0, 0)
        = (((chienRoots G.1 sigma 1).map G.1.inverse).getD k 0,
           (FindErrorMagnitudes G.1 omega
             ((chienRoots G.1 sigma 1).map G.1.inverse)).getD k 0) := by
      intro k hk
      rw [List.getD_eq_getElem?_getD, List.getElem?_eq_getElem (by rw [hpairlen]; exact hk)]
      rw [List.getD_eq_getElem?_getD, List.getElem?_eq_getElem hk]
      rw [List.getD_eq_getElem?_getD, List.getElem?_eq_getElem (by rw [hmagslen]; exact hk)]
      simp [List.getElem_zip]
    have hout : (correctionLoop G.1 received
        (((chienRoots G.1 sigma 1).map G.1.inverse).zip
          (FindErrorMagnitudes G.1 omega ((chienRoots G.1 sigma 1).map G.1.inverse)))).2
        = c := by
      apply list_eq_of_getD (by rw [hlen, hlen2])
      intro i h2
      rw [hidx i]
      by_cases herri : received.getD i 0 = c.getD i 0
      · have hzero : xorDeltas G.1 received.length
            (((chienRoots G.1 sigma 1).map G.1.inverse).zip
              (FindErrorMagnitudes G.1 omega
                ((chienRoots G.1 sigma 1).map G.1.inverse))) i = 0 := by
          apply xorDeltas_zero
          intro p hp
          obtain ⟨j, hj, hpe⟩ := hmemexp p hp
          have hjn := errExps_lt hj
          rw [hpe, GoodField.log_exp G.2.1, Nat.mod_eq_of_lt (by omega)]
          intro heq
          rw [hlen2] at heq
          have hne := (mem_errExps.mp hj).2
          rw [heq] at hne
          exact hne herri
        rw [hzero, Nat.xor_zero, herri]
      · have hjmem : c.length - 1 - i ∈ errExps received c := by
          apply mem_errExps.mpr
          refine ⟨by omega, ?_⟩
          have harith : c.length - 1 - (c.length - 1 - i) = i := by omega
          rw [harith]
          exact herri
        obtain ⟨k, hklt, hkeq⟩ := hjsurj _ hjmem
        have hsingle := xorDeltas_single G.1 received.length
          (((chienRoots G.1 sigma 1).map G.1.inverse).zip
            (FindErrorMagnitudes G.1 omega ((chienRoots G.1 sigma 1).map G.1.inverse)))
          i k (by omega) ?_ ?_
        · rw [hsingle, hpk k hklt]
          have hmag := forney_magnitude G received c hlen2 hn hbr hbc omega hoB homega
            ((chienRoots G.1 sigma 1).map G.1.inverse)
            (fun k' => G.1.log (((chienRoots G.1 sigma 1).map G.1.inverse).getD k' 0))
            hlocs hjinj hjsurj k hklt
          show received.getD i 0 ^^^ (FindErrorMagnitudes G.1 omega
            ((chienRoots G.1 sigma 1).map G.1.inverse)).getD k 0 = c.getD i 0
          rw [hmag]
          simp only [hkeq]
          have harith : c.length - 1 - (c.length - 1 - i) = i := by omega
          rw [harith, ← Nat.xor_assoc, Nat.xor_self, Nat.zero_xor]
        · rw [hpk k hklt]
          show received.length - 1
            - G.1.log (((chienRoots G.1 sigma 1).map G.1.inverse).getD k 0) = i
          rw [hkeq, hlen2]
          omega
        · intro k' hk' hne
          rw [hpk k' (by omega)]
          show ¬(received.length - 1
            - G.1.log (((chienRoots G.1 sigma 1).map G.1.inverse).getD k' 0) = i)
          intro heq
          have hj' := (hlocs k' (by omega)).1
          have hj'n := errExps_lt hj'
          have : G.1.log (((chienRoots G.1 sigma 1).map G.1.inverse).getD k' 0)
              = c.length - 1 - i := by
            rw [hlen2] at heq
            omega
          rw [← hkeq] at this
          exact hne (hjinj k' (by omega) k hklt this)
    -- unfold decode along the success path
    simp only [decode]
    rw [hfalse]
    simp only [Bool.false_eq_true, if_false]
    rw [hrun]
    simp only
    rw [if_neg (fun h => h rfl), hchien]
    simp only
    rw [if_neg (fun h => h rfl)]
    have hfinal : correctionLoop G.1 received
        (((chienRoots G.1 sigma 1).map G.1.inverse).zip
          (FindErrorMagnitudes G.1 omega ((chienRoots G.1 sigma 1).map G.1.inverse)))
        = (.NoError, c) := by
      rw [show correctionLoop G.1 received
          (((chienRoots G.1 sigma 1).map G.1.inverse).zip
            (FindErrorMagnitudes G.1 omega ((chienRoots G.1 sigma 1).map G.1.inverse)))
        = ((correctionLoop G.1 received
            (((chienRoots G.1 sigma 1).map G.1.inverse).zip
              (FindErrorMagnitudes G.1 omega
                ((chienRoots G.1 sigma 1).map G.1.inverse)))).1,
           (correctionLoop G.1 received
            (((chienRoots G.1 sigma 1).map G.1.inverse).zip
              (FindErrorMagnitudes G.1 omega
                ((chienRoots G.1 sigma 1).map G.1.inverse)))).2) from rfl, hst, hout]
    rw [hfinal]

theorem gf16_full : IsFullField gf16 := by
  unfold IsFullField
  exact ⟨gf16_good, by decide, by decide, by decide, by decide⟩

theorem decode_round_trip_witness :
    ([0, 2, 0] : List Nat).length = ([0, 0, 0] : List Nat).length ∧
    ([0, 0, 0] : List Nat).length ≤ gf16.size - 1 ∧
    (∀ i < 2, (GenericGFPoly.ofList [0, 0, 0]).evaluateAt gf16
      (gf16.exp (i + gf16.generatorBase)) = 0) ∧
    (errorIndices [0, 2, 0] [0, 0, 0]).length ≤ 2 / 2 ∧
    decode gf16 [0, 2, 0] 2 = .ok (.NoError, [0, 0, 0]) :=
  ⟨rfl, by decide, by decide, by decide,
    decode_round_trip ⟨gf16, gf16_full⟩ [0, 2, 0] [0, 0, 0] 2 rfl (by decide)
      (by unfold BoundedL; decide) (by unfold BoundedL; decide) (by decide) (by decide)⟩

end ZXing
